import Mathlib

/-!
# COS, a co-operative scheduler: shallow embedding and verified properties

The development embeds the C sources of the co-operative scheduler COS
(`cos_linear_task_list.c`, `cos_semaphore.{h,c}`, `cos_data_fifo.{h,c}`,
`cos_scheduler.{h,c}`, `cos_systime.c`, `CosScheduler.cpp`) as pure Lean
functions.

Modelling conventions
* A pointer to a `CosTask_t` is a natural number (`TaskPtr`); the task memory
  is a total map `TaskMem` from pointers to task records.
* A linked list of `Node_t` is the list of its payloads (`task_pt` fields), in
  node order.  A pointer to a node is the position of the node in that list.
  `_newNode` is taken to succeed (the sources dereference its result
  unchecked).
* Machine integers are `Nat`/`Int` with explicit wrap-around: `uint8_t` values
  are reduced modulo `2^8`, `uint16_t` values modulo `2^16`, and `int8_t`
  values are wrapped into `[-128, 127]` (`int8_t` is the signed 8 bit integer
  that `cos_types.h` documents).
* `malloc` results, the tick counter and `millis()` are parameters of the
  functions that read them; `free` leaves the modelled memory as it is.
* Undefined behaviour (a `NULL` or dangling cursor, a copy outside the FIFO
  buffer) is the result `none`.
* A macro that ends in `return;` yields the control outcome `Ctl.returned`.
* A task function (`_idleTask`, `_cpuLoadMeasureTask`) is modelled by one
  call of it: from the `case` label selected by `lineCnt` to the next
  `return`.  `__LINE__` is the source line of the macro call.
* `cos_systime.c` is taken for the configured platform
  `PLATFORM_OPEN_CM_9_04`.
* A macro with a `COS_SEM_WAIT` inside (`COS_FifoBlockingWriteSingleSlot`,
  `COS_FifoBlockingReadSingleSlot`) is modelled by its two halves: the
  statements up to the `return`, and the statements behind the `case` label.
  Tasks sharing a FIFO are modelled by the sequence of halves they execute
  (`FifoStep`), each by a task the dispatch loop would call (`enabled`).
-/

namespace Cos

/-! ## Machine integers -/

/-- Conversion of a C `int` value to `uint8_t`. -/
def toU8 (x : Int) : Nat := (x % 256).toNat

/-- Conversion of a C `int` value to `uint16_t`. -/
def toU16 (x : Int) : Nat := (x % 65536).toNat

/-- Conversion of a C `int` value to `int8_t` (two's complement wrap). -/
def toI8 (x : Int) : Int := (x + 128) % 256 - 128

/-! ## Tasks and task lists (`cos_linear_task_list.h`) -/

/-- Internal task state `TASK_STATE_READY`. -/
def TASK_STATE_READY : Nat := 0
/-- Internal task state `TASK_STATE_SUSPENDED`. -/
def TASK_STATE_SUSPENDED : Nat := 1
/-- Internal task state `TASK_STATE_BLOCKED`. -/
def TASK_STATE_BLOCKED : Nat := 2

/-- Address of a `CosTask_t`. -/
abbrev TaskPtr := Nat

/-- The task struct `CosTask_t`.  `pData` and `func` are opaque handles. -/
structure CosTask_t where
  lastActivationTime_Ticks : Nat
  sleepTime_Ticks : Nat
  state : Nat
  prio : Nat
  lineCnt : Nat
  pData : Nat
  func : Nat
deriving DecidableEq, Repr

/-- Task memory: the record stored at every task address. -/
abbrev TaskMem := TaskPtr → CosTask_t

/-- Store `v` at address `p`. -/
def TaskMem.set (m : TaskMem) (p : TaskPtr) (v : CosTask_t) : TaskMem :=
  fun q => if q = p then v else m q

/-- `_addTaskAtBeginningOfTaskList`: a new node for `task_pt` becomes the
first node; the new root is returned. -/
def _addTaskAtBeginningOfTaskList (root_pt : List TaskPtr) (task_pt : TaskPtr) :
    List TaskPtr :=
  task_pt :: root_pt

/-- `_searchTaskInList`: position of the first node whose payload is
`task_pt`, `none` for `NULL`. -/
def _searchTaskInList : List TaskPtr → TaskPtr → Option Nat
  | [], _ => none
  | p :: rest, task_pt =>
    if p = task_pt then some 0
    else (_searchTaskInList rest task_pt).map (· + 1)

/-- The `while(pt->next_pt != NULL)` loop of `_searchPredecessorTaskInList`,
started at the node heading the given list; the result is relative to it. -/
def searchPredecessorLoop : List TaskPtr → TaskPtr → Option Nat
  | [], _ => none
  | _ :: rest, task_pt =>
    match rest with
    | [] => none
    | q :: _ =>
      if q = task_pt then some 0
      else (searchPredecessorLoop rest task_pt).map (· + 1)

/-- `_searchPredecessorTaskInList`: position of the node in front of the
first node whose payload is `task_pt`, `none` for `NULL`. -/
def _searchPredecessorTaskInList (root_pt : List TaskPtr) (task_pt : TaskPtr) :
    Option Nat :=
  match root_pt with
  | [] => none
  | p :: _ =>
    if p = task_pt then none
    else searchPredecessorLoop root_pt task_pt

/-- `_unlinkTaskFromTaskList`: unlink the node found by `_searchTaskInList`;
the (possibly new) root is returned. -/
def _unlinkTaskFromTaskList (root_pt : List TaskPtr) (task_pt : TaskPtr) :
    List TaskPtr :=
  match _searchTaskInList root_pt task_pt with
  | none => root_pt
  | some i =>
    if i = 0 then root_pt.tail
    else
      match _searchPredecessorTaskInList root_pt task_pt with
      | none => root_pt
      | some j => root_pt.take (j + 1) ++ root_pt.drop (i + 1)

/-! ## Semaphores (`cos_semaphore.h`, `cos_semaphore.c`) -/

/-- The semaphore struct `CosSema_t`: the `int8_t` counter and the list of
waiting tasks. -/
structure CosSema_t where
  count : Int
  root_pt : List TaskPtr
deriving DecidableEq, Repr

/-- `COS_SemCreate`: the semaphore written through `s` and the status. -/
def COS_SemCreate (n_start : Int) : CosSema_t × Nat :=
  ({ count := n_start, root_pt := [] }, 0)

/-- `COS_SemDestroy`: the nodes of the waiter list are freed, the tasks and
the counter are left as they are; the semaphore and the status. -/
def COS_SemDestroy (s : CosSema_t) : CosSema_t × Nat :=
  ({ s with root_pt := [] }, 0)

/-- How a macro of a task function leaves the function: by `return` to the
scheduler, or by falling through to the next statement. -/
inductive Ctl where
  | returned
  | fallsThrough
deriving DecidableEq, Repr

/-- Effect of one expansion of a scheduling macro. -/
structure MacroResult where
  sema : CosSema_t
  mem : TaskMem
  ctl : Ctl

/-- `COS_SEM_WAIT(s,pt)` expanded at source line `line`:
`lineCnt=__LINE__; if(count <= 0) { state = BLOCKED; root_pt = add(...); }
count--; return; case __LINE__:`. -/
def COS_SEM_WAIT (line : Nat) (s : CosSema_t) (pt : TaskPtr) (mem : TaskMem) :
    MacroResult :=
  let mem1 := mem.set pt { mem pt with lineCnt := line }
  let blocked := decide (s.count ≤ 0)
  let mem2 := if blocked then
      mem1.set pt { mem1 pt with state := TASK_STATE_BLOCKED } else mem1
  let root2 := if blocked then
      _addTaskAtBeginningOfTaskList s.root_pt pt else s.root_pt
  { sema := { count := toI8 (s.count - 1), root_pt := root2 },
    mem := mem2,
    ctl := Ctl.returned }

/-- `COS_TASK_BEGIN`: the `switch((pt)->lineCnt)` selects the `case` label
equal to the stored line number (0 is the start of the function). -/
def COS_TASK_BEGIN (mem : TaskMem) (pt : TaskPtr) : Nat :=
  (mem pt).lineCnt

/-- `COS_SEM_SIGNAL`. -/
def COS_SEM_SIGNAL (s : CosSema_t) (mem : TaskMem) : CosSema_t × TaskMem :=
  let s1 : CosSema_t := { s with count := toI8 (s.count + 1) }
  match s1.root_pt with
  | [] => (s1, mem)
  | task_pt :: _ =>
    let mem1 := mem.set task_pt { mem task_pt with state := TASK_STATE_READY }
    ({ s1 with root_pt := _unlinkTaskFromTaskList s1.root_pt task_pt }, mem1)

/-! ## Sorting the task list (`_sortLinearListPrio`) -/

/-- The inner `while(pt->next_pt != NULL)` loop of `_sortLinearListPrio`,
entered at a node whose payload is currently `x` and whose successors carry
the given payloads.  Where `x` has the lower priority the payloads of the two
nodes are swapped, and the loop moves on to the next node.  The result is the
payloads from this node on, and the number of swaps. -/
def sortPassFrom (mem : TaskMem) (x : TaskPtr) : List TaskPtr → List TaskPtr × Nat
  | [] => ([x], 0)
  | y :: rest =>
    if (mem x).prio < (mem y).prio then
      let r := sortPassFrom mem x rest
      (y :: r.1, r.2 + 1)
    else
      let r := sortPassFrom mem y rest
      (x :: r.1, r.2)

/-- One pass of the bubble sort (the body of the `do ... while`): the new
payloads and `noOfSwaps`. -/
def sortPass (mem : TaskMem) : List TaskPtr → List TaskPtr × Nat
  | [] => ([], 0)
  | x :: rest => sortPassFrom mem x rest

/-- The `do { ... } while(noOfSwaps > 0)` loop, limited to `fuel` passes;
`none` when the passes are used up before a pass without a swap. -/
def sortLoop (mem : TaskMem) : Nat → List TaskPtr → Option (List TaskPtr)
  | 0, _ => none
  | fuel + 1, l =>
    let r := sortPass mem l
    if r.2 > 0 then sortLoop mem fuel r.1 else some r.1

/-- Number of priority inversions: pairs of positions `i < j` at which the
task at `i` has the lower priority. -/
def inversions (mem : TaskMem) : List TaskPtr → Nat
  | [] => 0
  | x :: rest =>
    rest.countP (fun y => decide ((mem x).prio < (mem y).prio)) + inversions mem rest

/-- `_sortLinearListPrio`: the result of the `do ... while` loop.  The loop
is run with one pass more than there are inversions, which is enough for
it to end by its own exit test (`sortLoop_terminates`). -/
def _sortLinearListPrio (mem : TaskMem) (root_pt : List TaskPtr) : List TaskPtr :=
  match root_pt with
  | [] => []
  | _ :: _ => (sortLoop mem (inversions mem root_pt + 1) root_pt).getD root_pt

/-! ## The scheduler module (`cos_scheduler.c`) -/

/-- The module variables of `cos_scheduler.c` together with the task
memory. -/
structure Kernel where
  root_g : List TaskPtr
  mem : TaskMem
  cpuLoadPerCent_g : Nat
  cpuLoadCounter_g : Nat
  idleTask_pt_g : Option TaskPtr
  cpuLoadMeasureTask_pt_g : Option TaskPtr

/-- Idle task priority `IDLE_TASK_PRIO`. -/
def IDLE_TASK_PRIO : Nat := 0
/-- Load estimation task priority `LOAD_MEASURE_TASK_PRIO`. -/
def LOAD_MEASURE_TASK_PRIO : Nat := 255
/-- Handle of the callback `_idleTask`. -/
def idleTaskFunc : Nat := 1
/-- Handle of the callback `_cpuLoadMeasureTask`. -/
def cpuLoadMeasureTaskFunc : Nat := 2

/-- `_newTask`: `alloc` is the result of `malloc` (`none` for `NULL`) and
`ticks` the value of `_gettime_Ticks()`. -/
def _newTask (prio pData func : Nat) (alloc : Option TaskPtr) (ticks : Nat)
    (mem : TaskMem) : Option TaskPtr × TaskMem :=
  match alloc with
  | none => (none, mem)
  | some pt =>
    (some pt, mem.set pt
      { lastActivationTime_Ticks := ticks,
        sleepTime_Ticks := 0,
        state := TASK_STATE_READY,
        prio := prio,
        lineCnt := 0,
        pData := pData,
        func := func })

/-- `COS_CreateTask`: the new kernel state and the returned task pointer. -/
def COS_CreateTask (k : Kernel) (prio pData func : Nat) (alloc : Option TaskPtr)
    (ticks : Nat) : Kernel × Option TaskPtr :=
  match _newTask prio pData func alloc ticks k.mem with
  | (none, _) => (k, none)
  | (some t_pt, mem1) =>
    let root1 := _addTaskAtBeginningOfTaskList k.root_g t_pt
    ({ k with mem := mem1, root_g := _sortLinearListPrio mem1 root1 }, some t_pt)

/-- `COS_InitTaskList`; `alloc1`, `ticks1` and `alloc2`, `ticks2` are the
results of `malloc` and `_gettime_Ticks()` in the two task creations. -/
def COS_InitTaskList (k : Kernel) (alloc1 : Option TaskPtr) (ticks1 : Nat)
    (alloc2 : Option TaskPtr) (ticks2 : Nat) : Kernel × Int :=
  let k0 := { k with root_g := [] }
  let r1 := COS_CreateTask k0 IDLE_TASK_PRIO 0 idleTaskFunc alloc1 ticks1
  let k1 := { r1.1 with idleTask_pt_g := r1.2 }
  let r2 := COS_CreateTask k1 LOAD_MEASURE_TASK_PRIO 0 cpuLoadMeasureTaskFunc alloc2 ticks2
  let k2 := { r2.1 with cpuLoadMeasureTask_pt_g := r2.2 }
  ({ k2 with root_g := _sortLinearListPrio k2.mem k2.root_g }, 0)

/-- `COS_DeleteTask`.  Freeing the task struct leaves the modelled memory
as it is. -/
def COS_DeleteTask (k : Kernel) (task_pt : TaskPtr) : Kernel × Int :=
  ({ k with root_g := _unlinkTaskFromTaskList k.root_g task_pt }, 0)

/-- The assignment `pt->task_pt->state = st` for the node at position `i`. -/
def setNodeTaskState (k : Kernel) (i : Nat) (st : Nat) : Kernel :=
  match k.root_g[i]? with
  | none => k
  | some t => { k with mem := k.mem.set t { k.mem t with state := st } }

/-- `COS_SuspendTask`. -/
def COS_SuspendTask (k : Kernel) (task_pt : TaskPtr) : Kernel × Int :=
  match _searchTaskInList k.root_g task_pt with
  | none => (k, -1)
  | some i => (setNodeTaskState k i TASK_STATE_SUSPENDED, 0)

/-- `COS_ResumeTask`. -/
def COS_ResumeTask (k : Kernel) (task_pt : TaskPtr) : Kernel × Int :=
  match _searchTaskInList k.root_g task_pt with
  | none => (k, -1)
  | some i => (setNodeTaskState k i TASK_STATE_READY, 0)

/-- `COS_SetTaskPrio`. -/
def COS_SetTaskPrio (k : Kernel) (task_pt : TaskPtr) (taskPrio : Nat) : Kernel × Int :=
  match _searchTaskInList k.root_g task_pt with
  | none => (k, -1)
  | some i =>
    match k.root_g[i]? with
    | none => (k, -1)
    | some t =>
      let mem1 := k.mem.set t { k.mem t with prio := taskPrio }
      ({ k with mem := mem1, root_g := _sortLinearListPrio mem1 k.root_g }, 0)

/-- `COS_GetTaskListRootPointer`: the first node, `none` for `NULL`. -/
def COS_GetTaskListRootPointer (k : Kernel) : Option Nat :=
  match k.root_g with
  | [] => none
  | _ :: _ => some 0

/-- A call of one of the task functions of the module; for `create`, `alloc`
and `ticks` are the results of `malloc` and `_gettime_Ticks()` in that
call. -/
inductive TaskCall where
  | create (prio pData func : Nat) (alloc : Option TaskPtr) (ticks : Nat)
  | delete (task_pt : TaskPtr)
  | suspend (task_pt : TaskPtr)
  | resume (task_pt : TaskPtr)
  | setPrio (task_pt : TaskPtr) (taskPrio : Nat)
deriving DecidableEq

/-- The kernel state after a call. -/
def TaskCall.apply (c : TaskCall) (k : Kernel) : Kernel :=
  match c with
  | .create prio pData func alloc ticks => (COS_CreateTask k prio pData func alloc ticks).1
  | .delete task_pt => (COS_DeleteTask k task_pt).1
  | .suspend task_pt => (COS_SuspendTask k task_pt).1
  | .resume task_pt => (COS_ResumeTask k task_pt).1
  | .setPrio task_pt taskPrio => (COS_SetTaskPrio k task_pt taskPrio).1

/-- The kernel state after a sequence of calls. -/
def runCalls (k : Kernel) : List TaskCall → Kernel
  | [] => k
  | c :: rest => runCalls (c.apply k) rest

/-! ## System time (`cos_systime.c`) and the task macros (`cos_scheduler.h`) -/

/-- `_milliSecToTicks` of the configured platform `PLATFORM_OPEN_CM_9_04`
(`return milliSec;`); argument and result are `uint16_t`. -/
def _milliSecToTicks (milliSec : Nat) : Nat := toU16 (milliSec : Int)

/-- `IDLE_TASK_PERIOD_TICKS`, that is `_milliSecToTicks(10)`. -/
def IDLE_TASK_PERIOD_TICKS : Nat := _milliSecToTicks 10

/-- `LOAD_MEASURE_TASK_PERIOD_TICKS`, that is `(100*IDLE_TASK_PERIOD_TICKS)`. -/
def LOAD_MEASURE_TASK_PERIOD_TICKS : Nat := 100 * IDLE_TASK_PERIOD_TICKS

/-- `COS_TASK_SCHEDULE(pt)` expanded at source line `line`:
`sleepTime_Ticks=0; lineCnt=__LINE__; return; case __LINE__:`. -/
def COS_TASK_SCHEDULE (line : Nat) (mem : TaskMem) (pt : TaskPtr) : TaskMem × Ctl :=
  let mem1 := mem.set pt { mem pt with sleepTime_Ticks := 0 }
  let mem2 := mem1.set pt { mem1 pt with lineCnt := line }
  (mem2, Ctl.returned)

/-- `COS_TASK_SLEEP(pt,t_Ticks)` expanded at source line `line`:
`sleepTime_Ticks=(t_Ticks); lineCnt=__LINE__; return; case __LINE__:`.  The
`int` value `t_Ticks` is converted to the `uint16_t` field. -/
def COS_TASK_SLEEP (line : Nat) (mem : TaskMem) (pt : TaskPtr) (t_Ticks : Int) :
    TaskMem × Ctl :=
  let mem1 := mem.set pt { mem pt with sleepTime_Ticks := toU16 t_Ticks }
  let mem2 := mem1.set pt { mem1 pt with lineCnt := line }
  (mem2, Ctl.returned)

/-- `COS_TASK_END(pt)`, the statements behind the closing brace of the
`switch`: `lineCnt=0; COS_DeleteTask((pt)); return;`. -/
def COS_TASK_END (k : Kernel) (pt : TaskPtr) : Kernel × Ctl :=
  let k1 := { k with mem := k.mem.set pt { k.mem pt with lineCnt := 0 } }
  ((COS_DeleteTask k1 pt).1, Ctl.returned)

/-- Source line of the `COS_TASK_SLEEP` in `_idleTask`. -/
def idleTaskSleepLine : Nat := 284

/-- Source line of the `COS_TASK_SLEEP` in `_cpuLoadMeasureTask`. -/
def cpuLoadMeasureTaskSleepLine : Nat := 313

/-- One call of `_idleTask`.  The `switch` of `COS_TASK_BEGIN` enters at the
top of the `while(1)` loop (`case 0`) or behind the `COS_TASK_SLEEP`, which
is the end of the loop body; either way the next statements are the
decrement `if(cpuLoadCounter_g > 0) cpuLoadCounter_g--;` and the
`COS_TASK_SLEEP`, which returns.  For any other `lineCnt` the `switch` has no
case and control continues behind it, with the statements of
`COS_TASK_END`. -/
def _idleTask (k : Kernel) (pt : TaskPtr) : Kernel :=
  let entry := COS_TASK_BEGIN k.mem pt
  if entry = 0 ∨ entry = idleTaskSleepLine then
    let k1 := if k.cpuLoadCounter_g > 0 then
        { k with cpuLoadCounter_g := toU8 ((k.cpuLoadCounter_g : Int) - 1) } else k
    { k1 with mem := (COS_TASK_SLEEP idleTaskSleepLine k1.mem pt
                        (IDLE_TASK_PERIOD_TICKS : Int)).1 }
  else (COS_TASK_END k pt).1

/-- One call of `_cpuLoadMeasureTask`: `cpuLoadPerCent_g = cpuLoadCounter_g;
cpuLoadCounter_g = 100;` and the `COS_TASK_SLEEP`, entered as in
`_idleTask`. -/
def _cpuLoadMeasureTask (k : Kernel) (pt : TaskPtr) : Kernel :=
  let entry := COS_TASK_BEGIN k.mem pt
  if entry = 0 ∨ entry = cpuLoadMeasureTaskSleepLine then
    let k1 := { k with cpuLoadPerCent_g := k.cpuLoadCounter_g }
    let k2 := { k1 with cpuLoadCounter_g := 100 }
    { k2 with mem := (COS_TASK_SLEEP cpuLoadMeasureTaskSleepLine k2.mem pt
                        (LOAD_MEASURE_TASK_PERIOD_TICKS : Int)).1 }
  else (COS_TASK_END k pt).1

/-- `COS_GetCPULoadInPercent`: `cpuLoadPerCent_g` returned as `int8_t`. -/
def COS_GetCPULoadInPercent (k : Kernel) : Int := toI8 (k.cpuLoadPerCent_g : Int)

/-- A call of `_idleTask` or of `_cpuLoadMeasureTask` by the scheduler, on
the task `pt`. -/
inductive LoadRun where
  | idle (pt : TaskPtr)
  | measure (pt : TaskPtr)
deriving DecidableEq, Repr

/-- The kernel state after a call of one of the two task functions. -/
def LoadRun.apply (r : LoadRun) (k : Kernel) : Kernel :=
  match r with
  | .idle pt => _idleTask k pt
  | .measure pt => _cpuLoadMeasureTask k pt

/-- The kernel state after a sequence of such calls. -/
def runLoad (k : Kernel) : List LoadRun → Kernel
  | [] => k
  | r :: rest => runLoad (r.apply k) rest

/-- The kernel state after `n` calls of `_idleTask` on the task `pt`. -/
def idleRuns (pt : TaskPtr) : Nat → Kernel → Kernel
  | 0, k => k
  | n + 1, k => idleRuns pt n (_idleTask k pt)


/-! ## The dispatch loop (`CosRunScheduler`, `COS_RunScheduler`) -/

/-- State of the dispatch loop: the kernel, the state `app` the task
functions work on besides the kernel (semaphores, FIFOs, ...), and the
cursor `pt` (a node position, `none` for `NULL`). -/
structure Sched (α : Type) where
  k : Kernel
  app : α
  pt : Option Nat

/-- The test of the `if` in the dispatch loop:
`((uint16_t)(t_Ticks - lastActivationTime_Ticks) >= sleepTime_Ticks) &&
 (state == TASK_STATE_READY)`. -/
def timeToRun (t_Ticks : Nat) (T : CosTask_t) : Bool :=
  decide (toU16 ((t_Ticks : Int) - (T.lastActivationTime_Ticks : Int)) ≥ T.sleepTime_Ticks)
    && decide (T.state = TASK_STATE_READY)

/-- The two assignments in front of the call of the task function:
`lastActivationTime_Ticks = t_Ticks; sleepTime_Ticks = 0;`.  The result is
the kernel state the task function is entered with. -/
def prepareCall (k : Kernel) (t : TaskPtr) (t_Ticks : Nat) : Kernel :=
  let mem1 := k.mem.set t { k.mem t with lastActivationTime_Ticks := t_Ticks }
  let mem2 := mem1.set t { mem1 t with sleepTime_Ticks := 0 }
  { k with mem := mem2 }

/-- The step `pt = pt->next_pt; if(NULL==pt) pt = root` of the `else`
branch, for the node at position `i`. -/
def advanceCursor (k : Kernel) (i : Nat) : Option Nat :=
  if i + 1 < k.root_g.length then some (i + 1) else COS_GetTaskListRootPointer k

/-- One iteration of the `while(1)` loop of `CosRunScheduler`.  `body f t`
is the effect of calling the task function with handle `f` on task `t`;
`millis` is the value of `millis()`.  The result is the next loop state and
the task whose function was called, if any; `none` when the cursor is
`NULL` or not a node of the list (the dereference is undefined). -/
def schedulerIteration {α : Type} (body : Nat → TaskPtr → Kernel × α → Kernel × α)
    (millis : Nat) (s : Sched α) : Option (Sched α × Option TaskPtr) :=
  match s.pt with
  | none => none
  | some i =>
    match s.k.root_g[i]? with
    | none => none
    | some t =>
      let t_Ticks := toU16 millis
      if timeToRun t_Ticks (s.k.mem t) then
        let k1 := prepareCall s.k t t_Ticks
        let r := body (k1.mem t).func t (k1, s.app)
        some ({ k := r.1, app := r.2, pt := COS_GetTaskListRootPointer r.1 }, some t)
      else
        some ({ s with pt := advanceCursor s.k i }, none)

/-- Run the dispatch loop, with `millis()` reading `millis` throughout, until
a task function has been called: the loop state after that call and the
task called; `none` when no call happens within `fuel` iterations. -/
def runUntilCall {α : Type} (body : Nat → TaskPtr → Kernel × α → Kernel × α)
    (millis : Nat) : Nat → Sched α → Option (Sched α × TaskPtr)
  | 0, _ => none
  | fuel + 1, s =>
    match schedulerIteration body millis s with
    | none => none
    | some (s1, some t) => some (s1, t)
    | some (s1, none) => runUntilCall body millis fuel s1

/-- The next `n` iterations of the dispatch loop; `millis j` is the value of
`millis()` in the iteration after which `j` iterations remain.  The result
is the loop state reached and the tasks whose functions were called, in the
order of the calls; `none` when an iteration is undefined. -/
def runIterations {α : Type} (body : Nat → TaskPtr → Kernel × α → Kernel × α)
    (millis : Nat → Nat) : Nat → Sched α → Option (Sched α × List TaskPtr)
  | 0, s => some (s, [])
  | n + 1, s =>
    match schedulerIteration body (millis n) s with
    | none => none
    | some (s1, called) =>
      match runIterations body millis n s1 with
      | none => none
      | some (s2, calls) => some (s2, called.toList ++ calls)


/-! ## The FIFO mailbox (`cos_data_fifo.h`, `cos_data_fifo.c`) -/

/-- The FIFO struct `CosFifo_t`.  `buffer` is `none` for `NULL`, otherwise
the bytes of the allocated block. -/
structure CosFifo_t where
  buffer : Option (List Nat)
  maxSlots : Nat
  slotSize : Nat
  rIndex : Nat
  wIndex : Nat
  usedSlots : Nat
  isInitialized : Nat
  rSema : CosSema_t
  wSema : CosSema_t
deriving DecidableEq, Repr

/-- `memcpy(&buf[idx], src, n)`: `none` when the copy leaves the block `buf`
or `src` has fewer than `n` bytes. -/
def memcpyInto (buf : List Nat) (idx : Nat) (src : List Nat) (n : Nat) :
    Option (List Nat) :=
  if idx + n ≤ buf.length ∧ n ≤ src.length then
    some (buf.take idx ++ src.take n ++ buf.drop (idx + n))
  else none

/-- `memcpy(dst, &buf[idx], n)`: `none` when the copy leaves the block `buf`
or `dst` has fewer than `n` bytes. -/
def memcpyFrom (dst : List Nat) (buf : List Nat) (idx : Nat) (n : Nat) :
    Option (List Nat) :=
  if idx + n ≤ buf.length ∧ n ≤ dst.length then
    some ((buf.drop idx).take n ++ dst.drop n)
  else none

/-- `COS_FifoCreate`; `alloc` is the result of `malloc(slotSize * nSlots)`.
The `uint8_t` result of `return -1` is 255. -/
def COS_FifoCreate (q : CosFifo_t) (slotSize nSlots : Nat)
    (alloc : Option (List Nat)) : CosFifo_t × Nat :=
  let q1 := { q with buffer := alloc }
  match alloc with
  | none => (q1, 255)
  | some _ =>
    let q2 := { q1 with maxSlots := nSlots, slotSize := slotSize,
                        rIndex := 0, wIndex := 0, usedSlots := 0 }
    let r := COS_SemCreate 0
    if r.2 ≠ 0 then ({ q2 with rSema := r.1 }, 255)
    else
      let w := COS_SemCreate (toI8 nSlots)
      if w.2 ≠ 0 then ({ q2 with rSema := r.1, wSema := w.1 }, 255)
      else ({ q2 with rSema := r.1, wSema := w.1, isInitialized := 1 }, 0)

/-- Result of `_qWriteSingleSlot`: the FIFO, the task memory and the
returned `int8_t`. -/
structure WriteResult where
  q : CosFifo_t
  mem : TaskMem
  retval : Int

/-- `_qWriteSingleSlot`; `none` stands for undefined behaviour (a copy out
of bounds, a `NULL` buffer, a modulus of 0). -/
def _qWriteSingleSlot (q : CosFifo_t) (data : List Nat) (mem : TaskMem) :
    Option WriteResult :=
  if q.isInitialized = 0 then some { q := q, mem := mem, retval := -1 }
  else if q.usedSlots ≥ q.maxSlots then some { q := q, mem := mem, retval := 0 }
  else
    match q.buffer with
    | none => none
    | some buf =>
      match memcpyInto buf q.wIndex data q.slotSize with
      | none => none
      | some buf1 =>
        if q.maxSlots * q.slotSize = 0 then none
        else
          let w1 := toU8 ((q.wIndex : Int) + (q.slotSize : Int))
          let w2 := toU8 ((w1 : Int) % ((q.maxSlots : Int) * (q.slotSize : Int)))
          let r := COS_SEM_SIGNAL q.rSema mem
          some { q := { q with buffer := some buf1, wIndex := w2,
                               usedSlots := toU8 ((q.usedSlots : Int) + 1),
                               rSema := r.1 },
                 mem := r.2, retval := 1 }

/-- Result of `_qReadSingleSlot`: the FIFO, the caller's bytes `data`, the
task memory and the returned `int8_t`. -/
structure ReadResult where
  q : CosFifo_t
  data : List Nat
  mem : TaskMem
  retval : Int

/-- `_qReadSingleSlot`; `none` stands for undefined behaviour. -/
def _qReadSingleSlot (q : CosFifo_t) (data : List Nat) (mem : TaskMem) :
    Option ReadResult :=
  if q.isInitialized = 0 then some { q := q, data := data, mem := mem, retval := -1 }
  else if q.usedSlots ≤ 0 then some { q := q, data := data, mem := mem, retval := 0 }
  else
    match q.buffer with
    | none => none
    | some buf =>
      match memcpyFrom data buf q.rIndex q.slotSize with
      | none => none
      | some data1 =>
        if q.maxSlots * q.slotSize = 0 then none
        else
          let r1 := toU8 ((q.rIndex : Int) + (q.slotSize : Int))
          let r2 := toU8 ((r1 : Int) % ((q.maxSlots : Int) * (q.slotSize : Int)))
          let w := COS_SEM_SIGNAL q.wSema mem
          some { q := { q with rIndex := r2,
                               usedSlots := toU8 ((q.usedSlots : Int) - 1),
                               wSema := w.1 },
                 data := data1, mem := w.2, retval := 1 }

/-- `COS_FifoDestroy`.  The `uint8_t` result of `return -1` is 255. -/
def COS_FifoDestroy (q : CosFifo_t) : CosFifo_t × Nat :=
  if q.isInitialized = 0 then (q, 255)
  else
    ({ q with buffer := none, isInitialized := 0,
              rSema := (COS_SemDestroy q.rSema).1,
              wSema := (COS_SemDestroy q.wSema).1 }, 0)

/-- `COS_FifoIsEmpty`: the returned `int8_t`. -/
def COS_FifoIsEmpty (q : CosFifo_t) : Int :=
  if q.isInitialized = 0 then -1
  else if q.usedSlots = 0 then 1 else 0

/-- `COS_FifoIsFull`: the returned `int8_t`. -/
def COS_FifoIsFull (q : CosFifo_t) : Int :=
  if q.isInitialized = 0 then -1
  else if q.usedSlots = q.maxSlots then 1 else 0

/-- `COS_FifoGetUsedSlots`: the returned `uint8_t`. -/
def COS_FifoGetUsedSlots (q : CosFifo_t) : Nat := q.usedSlots

/-- `COS_FifoGetMaxSlots`: the returned `uint8_t`. -/
def COS_FifoGetMaxSlots (q : CosFifo_t) : Nat := q.maxSlots

/-- `COS_FifoGetSlotSize`: the returned `uint8_t`. -/
def COS_FifoGetSlotSize (q : CosFifo_t) : Nat := q.slotSize


/-- `COS_FifoBlockingWriteSingleSlot(pt, q, data)` expanded at source line
`line`, up to the `return` of its `COS_SEM_WAIT(&((q)->wSema),(pt))`. -/
def COS_FifoBlockingWriteSingleSlot_wait (line : Nat) (q : CosFifo_t) (pt : TaskPtr)
    (mem : TaskMem) : CosFifo_t × TaskMem × Ctl :=
  let r := COS_SEM_WAIT line q.wSema pt mem
  ({ q with wSema := r.sema }, r.mem, r.ctl)

/-- The rest of `COS_FifoBlockingWriteSingleSlot(pt, q, data)`, entered at
the `case __LINE__:` of its `COS_SEM_WAIT` when the scheduler calls the task
function again: `_qWriteSingleSlot((q), (char *)(data))`. -/
def COS_FifoBlockingWriteSingleSlot_call (q : CosFifo_t) (data : List Nat)
    (mem : TaskMem) : Option WriteResult :=
  _qWriteSingleSlot q data mem

/-- `COS_FifoBlockingReadSingleSlot(pt, q, data)` expanded at source line
`line`, up to the `return` of its `COS_SEM_WAIT(&((q)->rSema),(pt))`. -/
def COS_FifoBlockingReadSingleSlot_wait (line : Nat) (q : CosFifo_t) (pt : TaskPtr)
    (mem : TaskMem) : CosFifo_t × TaskMem × Ctl :=
  let r := COS_SEM_WAIT line q.rSema pt mem
  ({ q with rSema := r.sema }, r.mem, r.ctl)

/-- The rest of `COS_FifoBlockingReadSingleSlot(pt, q, data)`, entered at the
`case __LINE__:` of its `COS_SEM_WAIT`: `_qReadSingleSlot((q), (char *)(data))`. -/
def COS_FifoBlockingReadSingleSlot_call (q : CosFifo_t) (data : List Nat)
    (mem : TaskMem) : Option ReadResult :=
  _qReadSingleSlot q data mem


/-! ## The bounded queue of the specification -/

/-- Specification of the FIFO: a queue of at most `capacity` slots, oldest
first. -/
structure BoundedQueue where
  capacity : Nat
  slots : List (List Nat)
deriving DecidableEq, Repr

/-- Writing to the bounded queue: the slot is appended unless the queue
holds `capacity` slots; the number of slots written is returned. -/
def BoundedQueue.write (b : BoundedQueue) (v : List Nat) : BoundedQueue × Int :=
  if b.slots.length < b.capacity then ({ b with slots := b.slots ++ [v] }, 1)
  else (b, 0)

/-- Reading from the bounded queue: the oldest slot is removed and
returned, `none` when the queue is empty. -/
def BoundedQueue.read (b : BoundedQueue) : BoundedQueue × Option (List Nat) :=
  match b.slots with
  | [] => (b, none)
  | v :: rest => ({ b with slots := rest }, some v)

/-! ## Sequences of FIFO calls -/

/-- A call of `_qWriteSingleSlot` with the bytes `data`, or of
`_qReadSingleSlot` with the caller's bytes `out`. -/
inductive FifoCall where
  | write (data : List Nat)
  | read (out : List Nat)
deriving DecidableEq, Repr

/-- The calls made one after the other on the FIFO `q`: for every call the
returned value and, for a read, the caller's bytes after the call (for a
write, no bytes).  `none` when a call has undefined behaviour. -/
def runFifo : CosFifo_t → TaskMem → List FifoCall → Option (List (Int × List Nat))
  | _, _, [] => some []
  | q, mem, FifoCall.write data :: rest =>
    match _qWriteSingleSlot q data mem with
    | none => none
    | some r => (runFifo r.q r.mem rest).map (fun obs => (r.retval, []) :: obs)
  | q, mem, FifoCall.read out :: rest =>
    match _qReadSingleSlot q out mem with
    | none => none
    | some r => (runFifo r.q r.mem rest).map (fun obs => (r.retval, r.data) :: obs)

/-- The FIFO and the task memory after the calls made one after the other on
the FIFO `q`; `none` when a call has undefined behaviour. -/
def runFifoState : CosFifo_t → TaskMem → List FifoCall → Option (CosFifo_t × TaskMem)
  | q, mem, [] => some (q, mem)
  | q, mem, FifoCall.write data :: rest =>
    match _qWriteSingleSlot q data mem with
    | none => none
    | some r => runFifoState r.q r.mem rest
  | q, mem, FifoCall.read out :: rest =>
    match _qReadSingleSlot q out mem with
    | none => none
    | some r => runFifoState r.q r.mem rest


/-- The same calls made on the bounded queue of the specification: a write
returns 1 when the slot was taken and 0 when the queue is full; a read
returns 1 and the oldest slot, or 0 and the caller's bytes as they were when
the queue is empty. -/
def runQueue : BoundedQueue → List FifoCall → List (Int × List Nat)
  | _, [] => []
  | b, FifoCall.write data :: rest =>
    ((b.write data).2, []) :: runQueue (b.write data).1 rest
  | b, FifoCall.read out :: rest =>
    match b.read with
    | (b1, none) => (0, out) :: runQueue b1 rest
    | (b1, some v) => (1, v) :: runQueue b1 rest

/-- A `CosFifo_t` variable before `COS_FifoCreate` (zero-initialised). -/
def fifoZero : CosFifo_t :=
  { buffer := none, maxSlots := 0, slotSize := 0, rIndex := 0, wIndex := 0,
    usedSlots := 0, isInitialized := 0,
    rSema := { count := 0, root_pt := [] }, wSema := { count := 0, root_pt := [] } }

/-- A FIFO of two slots of two bytes that holds the slots 1, 2 and 3, 4. -/
def demoFifoFull : CosFifo_t :=
  { buffer := some [1, 2, 3, 4], maxSlots := 2, slotSize := 2, rIndex := 0,
    wIndex := 0, usedSlots := 2, isInitialized := 1,
    rSema := { count := 2, root_pt := [] },
    wSema := { count := 2, root_pt := [] } }


/-- The calls `write, read` made `n` times. -/
def writeReadPairs : Nat → List FifoCall
  | 0 => []
  | n + 1 => FifoCall.write [7] :: FifoCall.read [0] :: writeReadPairs n

/-- A FIFO of one slot of one byte after 127 writes, each followed by a
read: every write has signalled `rSema` and every read `wSema`. -/
def demoFifoDrift : CosFifo_t :=
  { buffer := some [7], maxSlots := 1, slotSize := 1, rIndex := 0,
    wIndex := 0, usedSlots := 0, isInitialized := 1,
    rSema := { count := 127, root_pt := [] },
    wSema := { count := -128, root_pt := [] } }



/-- Position `x` of a ring of `n` slots, for `x < 2 * n`. -/
def wrapIdx (n x : Nat) : Nat := if x < n then x else x - n

/-- The FIFO `q` holds the slots `slots`, oldest first, in a buffer of
`s * n` bytes: the read index is at a slot position, the write index is
`slots.length` slot positions further on in the ring, and the slots are the
bytes at the positions in between. -/
def FifoHolds (s n : Nat) (q : CosFifo_t) (slots : List (List Nat)) : Prop :=
  q.isInitialized = 1 ∧ q.maxSlots = n ∧ q.slotSize = s ∧
  q.usedSlots = slots.length ∧ slots.length ≤ n ∧
  ∃ buf ri, q.buffer = some buf ∧ buf.length = s * n ∧ ri < n ∧
    q.rIndex = s * ri ∧ q.wIndex = s * wrapIdx n (ri + slots.length) ∧
    ∀ j, j < slots.length →
      slots[j]? = some ((buf.drop (s * wrapIdx n (ri + j))).take s)

/-- The bytes handed to a call have the length of a slot. -/
def FifoCall.wellFormed (slotSize : Nat) : FifoCall → Prop
  | FifoCall.write data => data.length = slotSize
  | FifoCall.read out => out.length = slotSize

instance FifoCall.decidableWellFormed (slotSize : Nat) (c : FifoCall) :
    Decidable (c.wellFormed slotSize) :=
  match c with
  | FifoCall.write data => inferInstanceAs (Decidable (data.length = slotSize))
  | FifoCall.read out => inferInstanceAs (Decidable (out.length = slotSize))

/-! ## Sequences of semaphore operations -/

/-- The tasks `ts` execute `COS_SEM_WAIT` on the semaphore one after the
other, task `t` at source line `line t`. -/
def waitAll (line : TaskPtr → Nat) :
    CosSema_t → TaskMem → List TaskPtr → CosSema_t × TaskMem
  | s, mem, [] => (s, mem)
  | s, mem, t :: rest =>
    let r := COS_SEM_WAIT (line t) s t mem
    waitAll line r.sema r.mem rest

/-- The state after `n` calls of `COS_SEM_SIGNAL` in a row. -/
def signalN : Nat → CosSema_t × TaskMem → CosSema_t × TaskMem
  | 0, x => x
  | n + 1, x => COS_SEM_SIGNAL (signalN n x).1 (signalN n x).2

/-- A task memory in which every task is `Ready` with priority 1, used at
concrete instances. -/
def readyMem : TaskMem := fun _ =>
  { lastActivationTime_Ticks := 0, sleepTime_Ticks := 0, state := TASK_STATE_READY,
    prio := 1, lineCnt := 0, pData := 0, func := 0 }

/-- The task list is sorted by descending priority: every pair of adjacent
nodes `(a, b)` has `a.prio >= b.prio`. -/
def prioSorted (mem : TaskMem) (l : List TaskPtr) : Prop :=
  List.Chain' (fun a b => (mem a).prio ≥ (mem b).prio) l

/-- A task memory with a suspended task 10 of priority 9 and a task 11 of
priority 5 that was last activated at tick 65530 and sleeps for 10 ticks;
all other tasks as in `readyMem`. -/
def demoMem : TaskMem := fun p =>
  if p = 10 then
    { lastActivationTime_Ticks := 0, sleepTime_Ticks := 0, state := TASK_STATE_SUSPENDED,
      prio := 9, lineCnt := 0, pData := 0, func := 0 }
  else if p = 11 then
    { lastActivationTime_Ticks := 65530, sleepTime_Ticks := 10, state := TASK_STATE_READY,
      prio := 5, lineCnt := 0, pData := 0, func := 0 }
  else readyMem p

/-- A kernel state with the task list 10, 11, 12 over `demoMem`. -/
def demoKernel : Kernel :=
  { root_g := [10, 11, 12], mem := demoMem, cpuLoadPerCent_g := 100,
    cpuLoadCounter_g := 100, idleTask_pt_g := none, cpuLoadMeasureTask_pt_g := none }

/-- A call of `COS_SEM_WAIT` at source line `line` by the task `pt`, or of
`COS_SEM_SIGNAL`, on one semaphore. -/
inductive SemCall where
  | wait (line : Nat) (pt : TaskPtr)
  | signal
deriving DecidableEq, Repr

/-- The semaphore and the task memory after a call. -/
def SemCall.apply (c : SemCall) (s : CosSema_t) (mem : TaskMem) : CosSema_t × TaskMem :=
  match c with
  | .wait line pt => ((COS_SEM_WAIT line s pt mem).sema, (COS_SEM_WAIT line s pt mem).mem)
  | .signal => COS_SEM_SIGNAL s mem

/-- The semaphore and the task memory after a sequence of calls. -/
def runSem (s : CosSema_t) (mem : TaskMem) : List SemCall → CosSema_t × TaskMem
  | [] => (s, mem)
  | c :: rest => runSem (c.apply s mem).1 (c.apply s mem).2 rest

/-- The call keeps the count inside the `int8_t` range (the decrement starts
above -128, the increment below 127), and a `COS_SEM_WAIT` is made by a task
that is not Blocked. -/
def SemCall.inRange (c : SemCall) (s : CosSema_t) (mem : TaskMem) : Bool :=
  match c with
  | .wait _ pt => decide (-128 < s.count) && decide ((mem pt).state ≠ TASK_STATE_BLOCKED)
  | .signal => decide (s.count < 127)

/-- Every call of the sequence is `inRange` in the state it is made in. -/
def runSemInRange (s : CosSema_t) (mem : TaskMem) : List SemCall → Bool
  | [] => true
  | c :: rest =>
    c.inRange s mem && runSemInRange (c.apply s mem).1 (c.apply s mem).2 rest

/-- The waiter list matches the count: it has `max(0, -count)` nodes, no
task has two nodes, and the count is an `int8_t` value. -/
def semCountMatches (s : CosSema_t) : Prop :=
  (s.root_pt.length : Int) = max 0 (-s.count) ∧ s.root_pt.Nodup ∧
  -128 ≤ s.count ∧ s.count ≤ 127


/-! ## Tasks that use a FIFO through the blocking macros -/

/-- A FIFO shared by tasks that use it only through
`COS_FifoBlockingWriteSingleSlot` and `COS_FifoBlockingReadSingleSlot`.
`writers` are the tasks that have executed the `COS_SEM_WAIT` of a
`COS_FifoBlockingWriteSingleSlot` and not yet its `_qWriteSingleSlot` (their
`lineCnt` is the line of the macro), `readers` the same for
`COS_FifoBlockingReadSingleSlot`; `results` are the values returned by the
`_q...` calls made so far, the latest first. -/
structure FifoWorld where
  q : CosFifo_t
  mem : TaskMem
  writers : List TaskPtr
  readers : List TaskPtr
  results : List Int

/-- A call of the function of task `pt` by the scheduler in which the task
executes one half of a blocking macro: the `COS_SEM_WAIT` of a macro at
source line `line`, or the `_q...` call behind it. -/
inductive FifoStep where
  | waitWrite (line : Nat) (pt : TaskPtr)
  | write (pt : TaskPtr) (data : List Nat)
  | waitRead (line : Nat) (pt : TaskPtr)
  | read (pt : TaskPtr) (out : List Nat)
deriving DecidableEq, Repr

/-- The task that makes the step. -/
def FifoStep.task : FifoStep → TaskPtr
  | .waitWrite _ pt => pt
  | .write pt _ => pt
  | .waitRead _ pt => pt
  | .read pt _ => pt

/-- The step can happen in the state `w`: the scheduler calls only the
function of a Ready task (the test of the dispatch loop), the task is one of
the participants `tasks`, and it starts a macro when it is inside none and
goes on with the `_q...` call of the macro it is inside. -/
def FifoStep.enabled (tasks : List TaskPtr) (w : FifoWorld) (c : FifoStep) : Bool :=
  decide (c.task ∈ tasks) && decide ((w.mem c.task).state = TASK_STATE_READY) &&
  match c with
  | .waitWrite _ pt => decide (pt ∉ w.writers) && decide (pt ∉ w.readers)
  | .write pt _ => decide (pt ∈ w.writers)
  | .waitRead _ pt => decide (pt ∉ w.writers) && decide (pt ∉ w.readers)
  | .read pt _ => decide (pt ∈ w.readers)

/-- The state after the step; `none` when the `_q...` call is undefined. -/
def FifoStep.apply (w : FifoWorld) : FifoStep → Option FifoWorld
  | .waitWrite line pt =>
    let r := COS_FifoBlockingWriteSingleSlot_wait line w.q pt w.mem
    some { w with q := r.1, mem := r.2.1, writers := pt :: w.writers }
  | .write pt data =>
    match COS_FifoBlockingWriteSingleSlot_call w.q data w.mem with
    | none => none
    | some r =>
      some { w with q := r.q, mem := r.mem, writers := w.writers.erase pt,
                    results := r.retval :: w.results }
  | .waitRead line pt =>
    let r := COS_FifoBlockingReadSingleSlot_wait line w.q pt w.mem
    some { w with q := r.1, mem := r.2.1, readers := pt :: w.readers }
  | .read pt out =>
    match COS_FifoBlockingReadSingleSlot_call w.q out w.mem with
    | none => none
    | some r =>
      some { w with q := r.q, mem := r.mem, readers := w.readers.erase pt,
                    results := r.retval :: w.results }

/-- The state after a sequence of steps; `none` when a call is undefined. -/
def runSteps : FifoWorld → List FifoStep → Option FifoWorld
  | w, [] => some w
  | w, c :: rest =>
    match c.apply w with
    | none => none
    | some w1 => runSteps w1 rest

/-- Every step of the sequence is enabled in the state it is made in (as
far as the states are defined). -/
def enabledRun (tasks : List TaskPtr) : FifoWorld → List FifoStep → Bool
  | _, [] => true
  | w, c :: rest =>
    c.enabled tasks w &&
    match c.apply w with
    | none => true
    | some w1 => enabledRun tasks w1 rest

/-- The state in which the tasks start to use the FIFO `q`. -/
def fifoWorldInit (q : CosFifo_t) (mem : TaskMem) : FifoWorld :=
  { q := q, mem := mem, writers := [], readers := [], results := [] }

/-- The tasks `first`, `first + 1`, ... (`n` of them) each execute the
`COS_SEM_WAIT` of a `COS_FifoBlockingReadSingleSlot` at line `line`. -/
def waitReads (line : Nat) (first : TaskPtr) : Nat → List FifoStep
  | 0 => []
  | n + 1 => FifoStep.waitRead line first :: waitReads line (first + 1) n

/-- The writers that are behind the `COS_SEM_WAIT` of their macro and not
blocked in it. -/
def FifoWorld.passedWriters (w : FifoWorld) : List TaskPtr :=
  w.writers.filter (fun t => decide (t ∉ w.q.wSema.root_pt))

/-- The readers that are behind the `COS_SEM_WAIT` of their macro and not
blocked in it. -/
def FifoWorld.passedReaders (w : FifoWorld) : List TaskPtr :=
  w.readers.filter (fun t => decide (t ∉ w.q.rSema.root_pt))

/-- What holds of a FIFO of `n` slots used by the tasks `tasks` through the
blocking macros, as long as the semaphore counts have not wrapped: the
counts account for the slots used and the tasks inside a macro, the waiter
lists match the counts, the waiting tasks are Blocked tasks inside the
macro, no task is inside two macros, and every `_q...` call so far has
returned 1. -/
structure FifoWorldOk (n : Nat) (tasks : List TaskPtr) (w : FifoWorld) : Prop where
  isInit : w.q.isInitialized ≠ 0
  maxEq : w.q.maxSlots = n
  usedLe : w.q.usedSlots ≤ n
  wCount : w.q.wSema.count = (n : Int) - (w.q.usedSlots : Int) - (w.writers.length : Int)
  rCount : w.q.rSema.count = (w.q.usedSlots : Int) - (w.readers.length : Int)
  wMatch : semCountMatches w.q.wSema
  rMatch : semCountMatches w.q.rSema
  wBlocked : ∀ t ∈ w.q.wSema.root_pt,
    t ∈ w.writers ∧ (w.mem t).state = TASK_STATE_BLOCKED
  rBlocked : ∀ t ∈ w.q.rSema.root_pt,
    t ∈ w.readers ∧ (w.mem t).state = TASK_STATE_BLOCKED
  noDup : (w.writers ++ w.readers).Nodup
  inTasks : ∀ t ∈ w.writers ++ w.readers, t ∈ tasks
  allOne : ∀ r ∈ w.results, r = 1

/-- The step is a `_q...` call (and not the wait of a macro). -/
def FifoStep.isCall : FifoStep → Bool
  | .waitWrite _ _ => false
  | .write _ _ => true
  | .waitRead _ _ => false
  | .read _ _ => true

/-- The bytes handed to the `_q...` call of the step have the length of a
slot. -/
def FifoStep.wellFormed (slotSize : Nat) : FifoStep → Bool
  | .waitWrite _ _ => true
  | .write _ data => decide (data.length = slotSize)
  | .waitRead _ _ => true
  | .read _ out => decide (out.length = slotSize)


/-! ## The kernel together with the semaphores of the application -/

/-- The kernel and the semaphore variables of the application; a semaphore
is named by its position in `semas`. -/
structure World where
  k : Kernel
  semas : List CosSema_t

/-- A call of a task function of the kernel or of a semaphore operation.
`semCreate s n` initialises the semaphore variable `s` (a new variable when
`s` is not a position of `semas`); `semWait line s pt` is `COS_SEM_WAIT`
executed by the task `pt` at source line `line`. -/
inductive WorldCall where
  | createTask (prio pData func : Nat) (alloc : Option TaskPtr) (ticks : Nat)
  | semCreate (s : Nat) (n_start : Int)
  | semWait (line : Nat) (s : Nat) (pt : TaskPtr)
  | semSignal (s : Nat)
  | suspend (task_pt : TaskPtr)
  | resume (task_pt : TaskPtr)
deriving DecidableEq

/-- The state after a call.  A wait or signal on a position that is no
semaphore variable changes nothing. -/
def WorldCall.apply (c : WorldCall) (w : World) : World :=
  match c with
  | .createTask prio pData func alloc ticks =>
    { w with k := (COS_CreateTask w.k prio pData func alloc ticks).1 }
  | .semCreate s n_start =>
    if s < w.semas.length then
      { w with semas := w.semas.set s (COS_SemCreate n_start).1 }
    else
      { w with semas := w.semas ++ [(COS_SemCreate n_start).1] }
  | .semWait line s pt =>
    match w.semas[s]? with
    | none => w
    | some sem =>
      { k := { w.k with mem := (COS_SEM_WAIT line sem pt w.k.mem).mem },
        semas := w.semas.set s (COS_SEM_WAIT line sem pt w.k.mem).sema }
  | .semSignal s =>
    match w.semas[s]? with
    | none => w
    | some sem =>
      { k := { w.k with mem := (COS_SEM_SIGNAL sem w.k.mem).2 },
        semas := w.semas.set s (COS_SEM_SIGNAL sem w.k.mem).1 }
  | .suspend task_pt => { w with k := (COS_SuspendTask w.k task_pt).1 }
  | .resume task_pt => { w with k := (COS_ResumeTask w.k task_pt).1 }

/-- The state after a sequence of calls. -/
def runWorld (w : World) : List WorldCall → World
  | [] => w
  | c :: rest => runWorld (c.apply w) rest

/-- Number of nodes in the waiter lists of all semaphores whose payload is
the task `t`. -/
def waiterNodes (semas : List CosSema_t) (t : TaskPtr) : Nat :=
  (semas.map (fun s => s.root_pt.count t)).sum

/-- Number of semaphores in whose waiter list the task `t` appears. -/
def waitingAt (semas : List CosSema_t) (t : TaskPtr) : Nat :=
  (semas.filter (fun s => decide (t ∈ s.root_pt))).length

/-- The conditions under which a call is made in the amended claim C15: a
task struct is allocated at an address that is not in use by a task of the
list, `COS_SemCreate` is applied to a new semaphore or to one without
waiters, `COS_SEM_WAIT` is executed by a `Ready` task of the task list, and
`COS_SuspendTask` and `COS_ResumeTask` are applied to tasks that are not
`Blocked`. -/
def WorldCall.admissible (w : World) : WorldCall → Prop
  | .createTask _ _ _ alloc _ =>
    match alloc with
    | none => True
    | some p => p ∉ w.k.root_g
  | .semCreate s _ =>
    match w.semas[s]? with
    | none => True
    | some sem => sem.root_pt = []
  | .semWait _ _ pt => pt ∈ w.k.root_g ∧ (w.k.mem pt).state = TASK_STATE_READY
  | .semSignal _ => True
  | .suspend task_pt => (w.k.mem task_pt).state ≠ TASK_STATE_BLOCKED
  | .resume task_pt => (w.k.mem task_pt).state ≠ TASK_STATE_BLOCKED

instance WorldCall.decidableAdmissible (w : World) (c : WorldCall) :
    Decidable (c.admissible w) :=
  match c with
  | .createTask _ _ _ alloc _ =>
    match alloc with
    | none => isTrue trivial
    | some p => inferInstanceAs (Decidable (p ∉ w.k.root_g))
  | .semCreate s _ =>
    match h : w.semas[s]? with
    | none => isTrue (by simp only [WorldCall.admissible, h])
    | some sem =>
      if he : sem.root_pt = [] then isTrue (by simp only [WorldCall.admissible, h]; exact he)
      else isFalse (by simp only [WorldCall.admissible, h]; exact he)
  | .semWait _ _ pt =>
    inferInstanceAs (Decidable (pt ∈ w.k.root_g ∧ (w.k.mem pt).state = TASK_STATE_READY))
  | .semSignal _ => isTrue trivial
  | .suspend task_pt =>
    inferInstanceAs (Decidable ((w.k.mem task_pt).state ≠ TASK_STATE_BLOCKED))
  | .resume task_pt =>
    inferInstanceAs (Decidable ((w.k.mem task_pt).state ≠ TASK_STATE_BLOCKED))

/-- Every call of the sequence is admissible in the state it is made in. -/
def admissibleRun : World → List WorldCall → Prop
  | _, [] => True
  | w, c :: rest => c.admissible w ∧ admissibleRun (c.apply w) rest

instance admissibleRun.decidable : (w : World) → (cs : List WorldCall) →
    Decidable (admissibleRun w cs)
  | _, [] => isTrue trivial
  | w, c :: rest =>
    @instDecidableAnd _ _ (WorldCall.decidableAdmissible w c)
      (admissibleRun.decidable (c.apply w) rest)

/-- The state in which every task of the task list is `Blocked` exactly when
it is the payload of one waiter node, and only tasks of the task list are
waiters. -/
def BlockedIffWaiting (w : World) : Prop :=
  (∀ t ∈ w.k.root_g,
    ((w.k.mem t).state = TASK_STATE_BLOCKED ∧ waiterNodes w.semas t = 1) ∨
    ((w.k.mem t).state ≠ TASK_STATE_BLOCKED ∧ waiterNodes w.semas t = 0)) ∧
  (∀ t, t ∉ w.k.root_g → waiterNodes w.semas t = 0)


/-! # Properties -/

/-! ## Auxiliary facts: task memory, machine integers, semaphores -/

theorem TaskMem.set_same (m : TaskMem) (p : TaskPtr) (v : CosTask_t) : (m.set p v) p = v := by
  simp [TaskMem.set]

theorem TaskMem.set_other (m : TaskMem) (p q : TaskPtr) (v : CosTask_t) (h : q ≠ p) :
    (m.set p v) q = m q := by
  simp [TaskMem.set, h]

theorem toI8_of_range (x : Int) (h1 : -128 ≤ x) (h2 : x ≤ 127) : toI8 x = x := by
  unfold toI8; omega

theorem unlink_head (t : TaskPtr) (rest : List TaskPtr) :
    _unlinkTaskFromTaskList (t :: rest) t = rest := by
  simp [_unlinkTaskFromTaskList, _searchTaskInList]

theorem sem_signal_cons (c : Int) (h : TaskPtr) (rest : List TaskPtr) (mem : TaskMem) :
    COS_SEM_SIGNAL { count := c, root_pt := h :: rest } mem =
      ({ count := toI8 (c + 1), root_pt := rest },
       mem.set h { mem h with state := TASK_STATE_READY }) := by
  simp [COS_SEM_SIGNAL, unlink_head]

theorem sem_signal_nil (c : Int) (mem : TaskMem) :
    COS_SEM_SIGNAL { count := c, root_pt := [] } mem =
      ({ count := toI8 (c + 1), root_pt := [] }, mem) := by
  simp [COS_SEM_SIGNAL]

theorem sem_wait_mem_other (line : Nat) (s : CosSema_t) (t p : TaskPtr) (mem : TaskMem)
    (h : p ≠ t) : (COS_SEM_WAIT line s t mem).mem p = mem p := by
  unfold COS_SEM_WAIT
  by_cases hc : s.count ≤ 0 <;> simp [hc, TaskMem.set, h]

theorem sem_wait_blocked (line : Nat) (s : CosSema_t) (t : TaskPtr) (mem : TaskMem)
    (hc : s.count ≤ 0) :
    (COS_SEM_WAIT line s t mem).sema.root_pt = t :: s.root_pt ∧
    ((COS_SEM_WAIT line s t mem).mem t).state = TASK_STATE_BLOCKED := by
  simp [COS_SEM_WAIT, hc, TaskMem.set, _addTaskAtBeginningOfTaskList]

theorem sem_wait_not_blocked (line : Nat) (s : CosSema_t) (t : TaskPtr) (mem : TaskMem)
    (hc : ¬ s.count ≤ 0) :
    (COS_SEM_WAIT line s t mem).sema.root_pt = s.root_pt ∧
    ((COS_SEM_WAIT line s t mem).mem t).state = (mem t).state := by
  simp [COS_SEM_WAIT, hc, TaskMem.set]

theorem waitAll_mem_other (line : TaskPtr → Nat) (ts : List TaskPtr) :
    ∀ (s : CosSema_t) (mem : TaskMem) (p : TaskPtr), p ∉ ts →
      (waitAll line s mem ts).2 p = mem p := by
  induction ts with
  | nil => intro s mem p _; rfl
  | cons t rest ih =>
    intro s mem p hp
    have hpt : p ≠ t := fun h => hp (h ▸ List.mem_cons_self _ _)
    have hpr : p ∉ rest := fun h => hp (List.mem_cons_of_mem _ h)
    show (waitAll line _ _ rest).2 p = mem p
    rw [ih _ _ p hpr, sem_wait_mem_other _ _ _ _ _ hpt]

/-- Tasks that are `Ready` and all end up `Blocked` have been put in front of
the waiter list one after the other. -/
theorem waitAll_waiters (line : TaskPtr → Nat) (ts : List TaskPtr) :
    ∀ (s : CosSema_t) (mem : TaskMem), ts.Nodup →
      (∀ t ∈ ts, (mem t).state = TASK_STATE_READY) →
      (∀ t ∈ ts, ((waitAll line s mem ts).2 t).state = TASK_STATE_BLOCKED) →
      (waitAll line s mem ts).1.root_pt = ts.reverse ++ s.root_pt := by
  induction ts with
  | nil => intro s mem _ _ _; rfl
  | cons t rest ih =>
    intro s mem hnd hready hblocked
    have hnd' := List.nodup_cons.mp hnd
    have hrest_ready : ∀ u ∈ rest, ((COS_SEM_WAIT (line t) s t mem).mem u).state
        = TASK_STATE_READY := by
      intro u hu
      have hut : u ≠ t := fun h => hnd'.1 (h ▸ hu)
      rw [sem_wait_mem_other _ _ _ _ _ hut]
      exact hready u (List.mem_cons_of_mem _ hu)
    have hrest_blocked : ∀ u ∈ rest,
        ((waitAll line (COS_SEM_WAIT (line t) s t mem).sema
          (COS_SEM_WAIT (line t) s t mem).mem rest).2 u).state = TASK_STATE_BLOCKED :=
      fun u hu => hblocked u (List.mem_cons_of_mem _ hu)
    have hrec := ih _ _ hnd'.2 hrest_ready hrest_blocked
    show (waitAll line _ _ rest).1.root_pt = _
    rw [hrec]
    by_cases hc : s.count ≤ 0
    · rw [(sem_wait_blocked _ _ _ _ hc).1]
      simp
    · exfalso
      have h1 := hblocked t (List.mem_cons_self _ _)
      have h2 : ((waitAll line (COS_SEM_WAIT (line t) s t mem).sema
          (COS_SEM_WAIT (line t) s t mem).mem rest).2 t).state = TASK_STATE_BLOCKED := h1
      rw [waitAll_mem_other _ _ _ _ _ hnd'.1, (sem_wait_not_blocked _ _ _ _ hc).2,
        hready t (List.mem_cons_self _ _)] at h2
      exact absurd h2 (by decide)

theorem signalN_waiters (ws : List TaskPtr) (n : Nat) :
    ∀ (x : CosSema_t × TaskMem), x.1.root_pt = ws →
      (signalN n x).1.root_pt = ws.drop n := by
  induction n with
  | zero => intro x hx; simpa [signalN] using hx
  | succ n ih =>
    intro x hx
    have h := ih x hx
    show (COS_SEM_SIGNAL (signalN n x).1 (signalN n x).2).1.root_pt = _
    generalize signalN n x = y at h
    obtain ⟨⟨c, r⟩, m⟩ := y
    simp only at h
    subst h
    cases hd : List.drop n ws with
    | nil =>
      rw [sem_signal_nil]
      have : ws.drop (n + 1) = (ws.drop n).drop 1 := by simp [List.drop_drop, Nat.add_comm]
      rw [this, hd]; rfl
    | cons a l =>
      rw [sem_signal_cons]
      have : ws.drop (n + 1) = (ws.drop n).drop 1 := by simp [List.drop_drop, Nat.add_comm]
      rw [this, hd]; rfl

theorem signalN_mem_other (ws : List TaskPtr) (n : Nat) :
    ∀ (x : CosSema_t × TaskMem), x.1.root_pt = ws → ∀ p, p ∉ ws.take n →
      (signalN n x).2 p = x.2 p := by
  induction n with
  | zero => intro x _ p _; rfl
  | succ n ih =>
    intro x hx p hp
    have hw := signalN_waiters ws n x hx
    have hp' : p ∉ ws.take n := fun h => hp (List.take_subset_take_left ws (Nat.le_succ n) h)
    have h := ih x hx p hp'
    show (COS_SEM_SIGNAL (signalN n x).1 (signalN n x).2).2 p = _
    rw [← h]
    generalize signalN n x = y at hw
    obtain ⟨⟨c, r⟩, m⟩ := y
    simp only at hw
    subst hw
    cases hd : List.drop n ws with
    | nil => rw [sem_signal_nil]
    | cons a l =>
      rw [sem_signal_cons]
      have hpa : p ≠ a := by
        intro hpa
        apply hp
        rw [List.take_succ]
        have : ws[n]? = some a := by
          have := List.head?_drop ws n
          rw [hd] at this
          simpa using this.symm
        simp [this, hpa]
      simp [TaskMem.set, hpa]

/-! ## Semaphores: `COS_SEM_WAIT` and `COS_SEM_SIGNAL` (C2 to C5) -/

/-- C2 (as stated, refuted): at the smallest `int8_t` count, -128, the
decrement of `COS_SEM_WAIT` wraps to 127.  The count is not decremented by
one, and the `Ready` caller is set to `Blocked` and put on the waiter list
although the count after the decrement is not negative. -/
theorem sem_wait_at_min_count :
    (readyMem 3).state = TASK_STATE_READY ∧
    (COS_SEM_WAIT 7 { count := -128, root_pt := [] } 3 readyMem).sema.count = 127 ∧
    (COS_SEM_WAIT 7 { count := -128, root_pt := [] } 3 readyMem).sema.count ≠ -128 - 1 ∧
    ((COS_SEM_WAIT 7 { count := -128, root_pt := [] } 3 readyMem).mem 3).state
      = TASK_STATE_BLOCKED ∧
    (COS_SEM_WAIT 7 { count := -128, root_pt := [] } 3 readyMem).sema.root_pt = [3] ∧
    ¬ (COS_SEM_WAIT 7 { count := -128, root_pt := [] } 3 readyMem).sema.count < 0 := by
  decide

/-- C2 (amended): for every count `c` with `-128 < c ≤ 127` and every `Ready`
task `t`, `COS_SEM_WAIT` decrements the count by exactly one; `t` is set to
`Blocked` and put in front of the waiter list if and only if the count after
the decrement is negative; when it is not negative, the state of `t` and the
waiter list are unchanged. -/
theorem sem_wait_effect (line : Nat) (c : Int) (ws : List TaskPtr) (t : TaskPtr)
    (mem : TaskMem) (hlo : -128 < c) (hhi : c ≤ 127)
    (hready : (mem t).state = TASK_STATE_READY) :
    (COS_SEM_WAIT line { count := c, root_pt := ws } t mem).sema.count = c - 1 ∧
    ((((COS_SEM_WAIT line { count := c, root_pt := ws } t mem).mem t).state
        = TASK_STATE_BLOCKED ∧
      (COS_SEM_WAIT line { count := c, root_pt := ws } t mem).sema.root_pt = t :: ws) ↔
     (COS_SEM_WAIT line { count := c, root_pt := ws } t mem).sema.count < 0) ∧
    (¬ (COS_SEM_WAIT line { count := c, root_pt := ws } t mem).sema.count < 0 →
      ((COS_SEM_WAIT line { count := c, root_pt := ws } t mem).mem t).state = (mem t).state ∧
      (COS_SEM_WAIT line { count := c, root_pt := ws } t mem).sema.root_pt = ws) := by
  have hc : (COS_SEM_WAIT line { count := c, root_pt := ws } t mem).sema.count = c - 1 := by
    show toI8 (c - 1) = c - 1
    exact toI8_of_range _ (by omega) (by omega)
  refine ⟨hc, ?_, ?_⟩
  · rw [hc]
    by_cases h : c ≤ 0
    · have hb := sem_wait_blocked line { count := c, root_pt := ws } t mem h
      constructor
      · intro _; omega
      · intro _; exact ⟨hb.2, hb.1⟩
    · have hn := sem_wait_not_blocked line { count := c, root_pt := ws } t mem h
      constructor
      · intro hb
        rw [hn.2, hready] at hb
        exact absurd hb.1 (by decide)
      · intro _; omega
  · rw [hc]
    intro hn
    have h : ¬ c ≤ 0 := by omega
    have hnb := sem_wait_not_blocked line { count := c, root_pt := ws } t mem h
    exact ⟨hnb.2, hnb.1⟩

/-- Instance of `sem_wait_effect`: task 3 waits at line 7 on a semaphore with
count 0 and no waiters. -/
theorem sem_wait_effect_witness :
    (COS_SEM_WAIT 7 { count := 0, root_pt := [] } 3 readyMem).sema.count = 0 - 1 ∧
    ((((COS_SEM_WAIT 7 { count := 0, root_pt := [] } 3 readyMem).mem 3).state
        = TASK_STATE_BLOCKED ∧
      (COS_SEM_WAIT 7 { count := 0, root_pt := [] } 3 readyMem).sema.root_pt = 3 :: []) ↔
     (COS_SEM_WAIT 7 { count := 0, root_pt := [] } 3 readyMem).sema.count < 0) ∧
    (¬ (COS_SEM_WAIT 7 { count := 0, root_pt := [] } 3 readyMem).sema.count < 0 →
      ((COS_SEM_WAIT 7 { count := 0, root_pt := [] } 3 readyMem).mem 3).state
        = (readyMem 3).state ∧
      (COS_SEM_WAIT 7 { count := 0, root_pt := [] } 3 readyMem).sema.root_pt = []) :=
  sem_wait_effect 7 0 [] 3 readyMem (by decide) (by decide) rfl

/-- C3 (as stated, refuted): on a semaphore with the positive count 1 the
caller is not blocked, yet `COS_SEM_WAIT` leaves the task function by
`return`: it does not fall through to the statement after the wait. -/
theorem sem_wait_returns_at_count_one :
    ((COS_SEM_WAIT 7 { count := 1, root_pt := [] } 3 readyMem).mem 3).state
      = TASK_STATE_READY ∧
    (COS_SEM_WAIT 7 { count := 1, root_pt := [] } 3 readyMem).ctl = Ctl.returned ∧
    (COS_SEM_WAIT 7 { count := 1, root_pt := [] } 3 readyMem).ctl ≠ Ctl.fallsThrough := by
  decide

/-- C3 (amended): when `COS_SEM_WAIT` is executed on a semaphore whose count
is positive, the caller is not blocked (its state is unchanged and it is not
put on the waiter list), but the wait still returns control to the
scheduler; the line of the wait is recorded as re-entry point, so that the
`switch` of `COS_TASK_BEGIN` continues with the statement following the wait
at the next invocation. -/
theorem sem_wait_positive_count (line : Nat) (s : CosSema_t) (t : TaskPtr)
    (mem : TaskMem) (hpos : 0 < s.count) :
    ((COS_SEM_WAIT line s t mem).mem t).state = (mem t).state ∧
    (COS_SEM_WAIT line s t mem).sema.root_pt = s.root_pt ∧
    (COS_SEM_WAIT line s t mem).ctl = Ctl.returned ∧
    COS_TASK_BEGIN (COS_SEM_WAIT line s t mem).mem t = line := by
  have h : ¬ s.count ≤ 0 := by omega
  have hnb := sem_wait_not_blocked line s t mem h
  refine ⟨hnb.2, hnb.1, rfl, ?_⟩
  simp [COS_TASK_BEGIN, COS_SEM_WAIT, h, TaskMem.set]

/-- Instance of `sem_wait_positive_count`: task 3 waits at line 7 on a
semaphore with count 2. -/
theorem sem_wait_positive_count_witness :
    (0 : Int) < 2 ∧
    ((COS_SEM_WAIT 7 { count := 2, root_pt := [] } 3 readyMem).mem 3).state
      = (readyMem 3).state ∧
    (COS_SEM_WAIT 7 { count := 2, root_pt := [] } 3 readyMem).sema.root_pt = [] ∧
    (COS_SEM_WAIT 7 { count := 2, root_pt := [] } 3 readyMem).ctl = Ctl.returned ∧
    COS_TASK_BEGIN (COS_SEM_WAIT 7 { count := 2, root_pt := [] } 3 readyMem).mem 3 = 7 :=
  ⟨by decide, sem_wait_positive_count 7 { count := 2, root_pt := [] } 3 readyMem (by decide)⟩

/-- C4 (as stated, refuted): at the largest `int8_t` count, 127, the
increment of `COS_SEM_SIGNAL` wraps to -128: the count is not incremented by
one. -/
theorem sem_signal_at_max_count :
    (COS_SEM_SIGNAL { count := 127, root_pt := [] } readyMem).1.count = -128 ∧
    (COS_SEM_SIGNAL { count := 127, root_pt := [] } readyMem).1.count ≠ 127 + 1 := by
  decide

/-- C4 (amended): for every semaphore state with `-128 ≤ count < 127`,
`COS_SEM_SIGNAL` increments the count by exactly one; if the waiter list is
non-empty it removes exactly the head waiter and sets the state of that task
to `Ready`, leaving the remaining waiters in the same order, every other
field of that task and every other task record unchanged; if the waiter list
is empty nothing but the count changes. -/
theorem sem_signal_effect (s : CosSema_t) (mem : TaskMem)
    (hlo : -128 ≤ s.count) (hhi : s.count < 127) :
    (COS_SEM_SIGNAL s mem).1.count = s.count + 1 ∧
    (∀ h rest, s.root_pt = h :: rest →
      (COS_SEM_SIGNAL s mem).1.root_pt = rest ∧
      (COS_SEM_SIGNAL s mem).2 h = { mem h with state := TASK_STATE_READY } ∧
      ∀ p, p ≠ h → (COS_SEM_SIGNAL s mem).2 p = mem p) ∧
    (s.root_pt = [] →
      (COS_SEM_SIGNAL s mem).1.root_pt = [] ∧ (COS_SEM_SIGNAL s mem).2 = mem) := by
  obtain ⟨c, ws⟩ := s
  simp only at hlo hhi
  have hc : toI8 (c + 1) = c + 1 := toI8_of_range _ (by omega) (by omega)
  refine ⟨?_, ?_, ?_⟩
  · cases ws with
    | nil => rw [sem_signal_nil]; exact hc
    | cons a l => rw [sem_signal_cons]; exact hc
  · intro h rest hw
    simp only at hw
    subst hw
    rw [sem_signal_cons]
    refine ⟨rfl, TaskMem.set_same _ _ _, ?_⟩
    intro p hp
    exact TaskMem.set_other _ _ _ _ hp
  · intro hw
    simp only at hw
    subst hw
    rw [sem_signal_nil]
    exact ⟨rfl, rfl⟩

/-- Instance of `sem_signal_effect`: a signal on a semaphore with count -2
and the waiters 5 and 4. -/
theorem sem_signal_effect_witness :
    ((-128 : Int) ≤ -2 ∧ (-2 : Int) < 127) ∧
    (COS_SEM_SIGNAL { count := -2, root_pt := [5, 4] } readyMem).1.count = -2 + 1 ∧
    (∀ h rest, [5, 4] = h :: rest →
      (COS_SEM_SIGNAL { count := -2, root_pt := [5, 4] } readyMem).1.root_pt = rest ∧
      (COS_SEM_SIGNAL { count := -2, root_pt := [5, 4] } readyMem).2 h
        = { readyMem h with state := TASK_STATE_READY } ∧
      ∀ p, p ≠ h → (COS_SEM_SIGNAL { count := -2, root_pt := [5, 4] } readyMem).2 p
        = readyMem p) ∧
    (([5, 4] : List TaskPtr) = [] →
      (COS_SEM_SIGNAL { count := -2, root_pt := [5, 4] } readyMem).1.root_pt = [] ∧
      (COS_SEM_SIGNAL { count := -2, root_pt := [5, 4] } readyMem).2 = readyMem) :=
  ⟨by decide, sem_signal_effect { count := -2, root_pt := [5, 4] } readyMem
    (by decide) (by decide)⟩

/-- C5: let the distinct `Ready` tasks `ts = [t1, ..., tn]` execute
`COS_SEM_WAIT`, in that order, on a semaphore created with count 0, and let
all of them block.  Then for every `i` in `1..n` the `i`-th following
`COS_SEM_SIGNAL` makes `Ready` exactly the task `t(n+1-i)` (position `n - i`
of `ts`, counted from 0), which was `Blocked` before that signal, and changes
no other task record: waiters are released one per signal, last blocked
first. -/
theorem sem_signal_lifo (line : TaskPtr → Nat) (mem : TaskMem) (ts : List TaskPtr)
    (hnd : ts.Nodup)
    (hready : ∀ t ∈ ts, (mem t).state = TASK_STATE_READY)
    (hblocked : ∀ t ∈ ts,
      ((waitAll line (COS_SemCreate 0).1 mem ts).2 t).state = TASK_STATE_BLOCKED)
    (i : Nat) (h1 : 1 ≤ i) (h2 : i ≤ ts.length) :
    ∃ t, ts[ts.length - i]? = some t ∧
      ((signalN (i - 1) (waitAll line (COS_SemCreate 0).1 mem ts)).2 t).state
        = TASK_STATE_BLOCKED ∧
      ((signalN i (waitAll line (COS_SemCreate 0).1 mem ts)).2 t).state
        = TASK_STATE_READY ∧
      ∀ p, p ≠ t →
        (signalN i (waitAll line (COS_SemCreate 0).1 mem ts)).2 p
          = (signalN (i - 1) (waitAll line (COS_SemCreate 0).1 mem ts)).2 p := by
  obtain ⟨j, rfl⟩ : ∃ j, i = j + 1 := ⟨i - 1, by omega⟩
  have hw : (waitAll line (COS_SemCreate 0).1 mem ts).1.root_pt = ts.reverse := by
    have := waitAll_waiters line ts (COS_SemCreate 0).1 mem hnd hready hblocked
    simpa [COS_SemCreate] using this
  have hj : j < ts.reverse.length := by simp; omega
  have hdrop : List.drop j ts.reverse = ts.reverse[j] :: List.drop (j + 1) ts.reverse :=
    List.drop_eq_getElem_cons hj
  have hidx : ts.length - (j + 1) < ts.length := by omega
  have hget : ts.reverse[j] = ts[ts.length - (j + 1)] := by
    rw [List.getElem_reverse]
    congr 1
    omega
  have htmem : ts.reverse[j] ∈ ts := by
    rw [hget]; exact List.getElem_mem _
  have hnotin : ts.reverse[j] ∉ List.take j ts.reverse := by
    intro hin
    have hnd' : ts.reverse.Nodup := List.nodup_reverse.mpr hnd
    rw [← List.take_append_drop j ts.reverse, hdrop] at hnd'
    have := List.nodup_append.mp hnd'
    exact this.2.2 hin (List.mem_cons_self _ _)
  have hbefore_w := signalN_waiters ts.reverse j _ hw
  have hbefore_m := signalN_mem_other ts.reverse j _ hw _ hnotin
  refine ⟨ts.reverse[j], ?_, ?_, ?_, ?_⟩
  · rw [hget]; exact List.getElem?_eq_getElem hidx
  · show ((signalN j _).2 _).state = _
    rw [hbefore_m]
    exact hblocked _ htmem
  · show ((COS_SEM_SIGNAL (signalN j _).1 (signalN j _).2).2 _).state = _
    generalize signalN j (waitAll line (COS_SemCreate 0).1 mem ts) = y at hbefore_w
    obtain ⟨⟨c, r⟩, m⟩ := y
    simp only at hbefore_w
    subst hbefore_w
    rw [hdrop, sem_signal_cons]
    show ((TaskMem.set m _ _) _).state = _
    rw [TaskMem.set_same]
  · intro p hp
    show (COS_SEM_SIGNAL (signalN j _).1 (signalN j _).2).2 p = (signalN j _).2 p
    generalize signalN j (waitAll line (COS_SemCreate 0).1 mem ts) = y at hbefore_w
    obtain ⟨⟨c, r⟩, m⟩ := y
    simp only at hbefore_w
    subst hbefore_w
    rw [hdrop, sem_signal_cons]
    exact TaskMem.set_other _ _ _ _ hp

/-- Instance of `sem_signal_lifo`: the tasks 4, 5, 6 block in that order; the
first signal releases task 6. -/
theorem sem_signal_lifo_witness :
    ∃ t, ([4, 5, 6] : List TaskPtr)[([4, 5, 6] : List TaskPtr).length - 1]? = some t ∧
      ((signalN (1 - 1) (waitAll (fun _ => 7) (COS_SemCreate 0).1 readyMem [4, 5, 6])).2 t).state
        = TASK_STATE_BLOCKED ∧
      ((signalN 1 (waitAll (fun _ => 7) (COS_SemCreate 0).1 readyMem [4, 5, 6])).2 t).state
        = TASK_STATE_READY ∧
      ∀ p, p ≠ t →
        (signalN 1 (waitAll (fun _ => 7) (COS_SemCreate 0).1 readyMem [4, 5, 6])).2 p
          = (signalN (1 - 1) (waitAll (fun _ => 7) (COS_SemCreate 0).1 readyMem [4, 5, 6])).2 p :=
  sem_signal_lifo (fun _ => 7) readyMem [4, 5, 6] (by decide) (by intro t _; rfl)
    (by decide) 1 (by decide) (by decide)


/-! ## The dispatch loop (C6 to C9) -/

theorem timeToRun_iff (t_Ticks : Nat) (T : CosTask_t) :
    timeToRun t_Ticks T = true ↔
      (T.state = TASK_STATE_READY ∧
       toU16 ((t_Ticks : Int) - (T.lastActivationTime_Ticks : Int)) ≥ T.sleepTime_Ticks) := by
  simp [timeToRun, and_comm]

theorem prioSorted_iff_pairwise (mem : TaskMem) (l : List TaskPtr) :
    prioSorted mem l ↔ l.Pairwise (fun a b => (mem a).prio ≥ (mem b).prio) := by
  haveI : IsTrans TaskPtr (fun a b => (mem a).prio ≥ (mem b).prio) :=
    ⟨fun _ _ _ h1 h2 => le_trans h2 h1⟩
  exact List.chain'_iff_pairwise

theorem rootPointer_of_node (k : Kernel) (i : Nat) (t : TaskPtr)
    (h : k.root_g[i]? = some t) : COS_GetTaskListRootPointer k = some 0 := by
  unfold COS_GetTaskListRootPointer
  cases hk : k.root_g with
  | nil => rw [hk] at h; simp at h
  | cons a l => rfl

theorem schedulerIteration_call {α : Type}
    (body : Nat → TaskPtr → Kernel × α → Kernel × α) (millis : Nat) (s : Sched α)
    (i : Nat) (t : TaskPtr) (hpt : s.pt = some i) (hnode : s.k.root_g[i]? = some t)
    (h : timeToRun (toU16 millis) (s.k.mem t) = true) :
    schedulerIteration body millis s =
      some ({ k := (body ((prepareCall s.k t (toU16 millis)).mem t).func t
                      (prepareCall s.k t (toU16 millis), s.app)).1,
              app := (body ((prepareCall s.k t (toU16 millis)).mem t).func t
                      (prepareCall s.k t (toU16 millis), s.app)).2,
              pt := COS_GetTaskListRootPointer
                      (body ((prepareCall s.k t (toU16 millis)).mem t).func t
                        (prepareCall s.k t (toU16 millis), s.app)).1 }, some t) := by
  simp [schedulerIteration, hpt, hnode, h]

theorem schedulerIteration_skip {α : Type}
    (body : Nat → TaskPtr → Kernel × α → Kernel × α) (millis : Nat) (s : Sched α)
    (i : Nat) (t : TaskPtr) (hpt : s.pt = some i) (hnode : s.k.root_g[i]? = some t)
    (h : timeToRun (toU16 millis) (s.k.mem t) = false) :
    schedulerIteration body millis s =
      some ({ s with pt := if i + 1 < s.k.root_g.length then some (i + 1) else some 0 },
            none) := by
  simp [schedulerIteration, hpt, hnode, h, advanceCursor, rootPointer_of_node s.k i t hnode]

/-- With the cursor on node `c` and no task at the positions `c, ..., i - 1`
passing the test, the loop reaches node `i` and calls its task. -/
theorem runUntilCall_from {α : Type}
    (body : Nat → TaskPtr → Kernel × α → Kernel × α) (millis : Nat) (d : Nat) :
    ∀ (s : Sched α) (c i : Nat) (t : TaskPtr) (fuel : Nat),
      i = c + d → s.pt = some c → s.k.root_g[i]? = some t →
      timeToRun (toU16 millis) (s.k.mem t) = true →
      (∀ j u, c ≤ j → j < i → s.k.root_g[j]? = some u →
        timeToRun (toU16 millis) (s.k.mem u) = false) →
      d + 1 ≤ fuel →
      (runUntilCall body millis fuel s).map Prod.snd = some t := by
  induction d with
  | zero =>
    intro s c i t fuel hi hpt hnode ht _ hfuel
    obtain ⟨f, rfl⟩ : ∃ f, fuel = f + 1 := ⟨fuel - 1, by omega⟩
    have hic : i = c := by omega
    subst hic
    simp [runUntilCall, schedulerIteration_call body millis s i t hpt hnode ht]
  | succ d ih =>
    intro s c i t fuel hi hpt hnode ht hskip hfuel
    obtain ⟨f, rfl⟩ : ∃ f, fuel = f + 1 := ⟨fuel - 1, by omega⟩
    have hilen : i < s.k.root_g.length := by
      obtain ⟨h, _⟩ := List.getElem?_eq_some.mp hnode
      exact h
    have hclen : c < s.k.root_g.length := by omega
    have hcnode : s.k.root_g[c]? = some s.k.root_g[c] := List.getElem?_eq_getElem hclen
    have hc := hskip c _ (le_refl c) (by omega) hcnode
    have hstep := schedulerIteration_skip body millis s c _ hpt hcnode hc
    have hnext : c + 1 < s.k.root_g.length := by omega
    rw [if_pos hnext] at hstep
    simp only [runUntilCall, hstep]
    exact ih { s with pt := some (c + 1) } (c + 1) i t f (by omega) rfl hnode ht
      (fun j u hj1 hj2 hu => hskip j u (by omega) hj2 hu) (by omega)

/-- C6: for every task list and every fixed value of the tick counter, the
dispatch loop started with the cursor on the list head calls, as its first
task function, the first task in list order that is `Ready` and has
`(uint16_t)(now - lastActivationTime_Ticks) >= sleepTime_Ticks` (the task at
position `i`, no task in front of it passing the test); this takes `i + 1`
iterations.  If the list is sorted by descending priority, no task that
passes the test has a higher priority than the task called. -/
theorem scheduler_first_call {α : Type}
    (body : Nat → TaskPtr → Kernel × α → Kernel × α) (millis : Nat) (s : Sched α)
    (i : Nat) (t : TaskPtr) (fuel : Nat)
    (hpt : s.pt = COS_GetTaskListRootPointer s.k)
    (hnode : s.k.root_g[i]? = some t)
    (hready : (s.k.mem t).state = TASK_STATE_READY)
    (htime : toU16 ((toU16 millis : Int) - ((s.k.mem t).lastActivationTime_Ticks : Int))
      ≥ (s.k.mem t).sleepTime_Ticks)
    (hfirst : ∀ j u, j < i → s.k.root_g[j]? = some u →
      ¬ ((s.k.mem u).state = TASK_STATE_READY ∧
         toU16 ((toU16 millis : Int) - ((s.k.mem u).lastActivationTime_Ticks : Int))
           ≥ (s.k.mem u).sleepTime_Ticks))
    (hfuel : i + 1 ≤ fuel) :
    (runUntilCall body millis fuel s).map Prod.snd = some t ∧
    (prioSorted s.k.mem s.k.root_g →
      ∀ u ∈ s.k.root_g,
        ((s.k.mem u).state = TASK_STATE_READY ∧
         toU16 ((toU16 millis : Int) - ((s.k.mem u).lastActivationTime_Ticks : Int))
           ≥ (s.k.mem u).sleepTime_Ticks) →
        (s.k.mem u).prio ≤ (s.k.mem t).prio) := by
  have hpt0 : s.pt = some 0 := by rw [hpt]; exact rootPointer_of_node s.k i t hnode
  have ht : timeToRun (toU16 millis) (s.k.mem t) = true :=
    (timeToRun_iff _ _).mpr ⟨hready, htime⟩
  have hskip : ∀ j u, 0 ≤ j → j < i → s.k.root_g[j]? = some u →
      timeToRun (toU16 millis) (s.k.mem u) = false := by
    intro j u _ hj hu
    have := hfirst j u hj hu
    rw [← timeToRun_iff] at this
    simpa using this
  refine ⟨runUntilCall_from body millis i s 0 i t fuel (by omega) hpt0 hnode ht hskip hfuel, ?_⟩
  intro hsorted u hu helig
  rw [prioSorted_iff_pairwise, List.pairwise_iff_getElem] at hsorted
  obtain ⟨j, hj, hju⟩ := List.getElem_of_mem hu
  obtain ⟨hi, hit⟩ := List.getElem?_eq_some.mp hnode
  have hji : ¬ j < i := by
    intro hlt
    exact hfirst j u hlt (by rw [← hju]; exact List.getElem?_eq_getElem hj) helig
  rcases Nat.lt_or_ge i j with hlt | hge
  · have := hsorted i j hi hj hlt
    rw [hit, hju] at this
    exact this
  · have hij : i = j := by omega
    subst hij
    rw [← hju, ← hit]


/-- Instance of `scheduler_first_call`: in `demoKernel` at tick 4 the task 10
at the list head is suspended, and task 11 behind it is the first to pass
the test (its sleep of 10 ticks has ended across the wrap of the counter). -/
theorem scheduler_first_call_witness :
    (runUntilCall (fun _ _ (x : Kernel × Unit) => x) 4 2
        { k := demoKernel, app := (), pt := some 0 }).map Prod.snd = some 11 ∧
    (prioSorted demoKernel.mem demoKernel.root_g →
      ∀ u ∈ demoKernel.root_g,
        ((demoKernel.mem u).state = TASK_STATE_READY ∧
         toU16 ((toU16 4 : Int) - ((demoKernel.mem u).lastActivationTime_Ticks : Int))
           ≥ (demoKernel.mem u).sleepTime_Ticks) →
        (demoKernel.mem u).prio ≤ (demoKernel.mem 11).prio) :=
  scheduler_first_call (fun _ _ (x : Kernel × Unit) => x) 4
    { k := demoKernel, app := (), pt := some 0 } 1 11 2 rfl rfl rfl (by decide)
    (by
      intro j u hj hu
      have hj0 : j = 0 := by omega
      subst hj0
      have hu10 : u = 10 := by
        have h : (some 10 : Option TaskPtr) = some u := hu
        exact (Option.some.inj h).symm
      subst hu10
      decide)
    (by decide)

/-- C7: in a scheduler iteration with the cursor on the node of task `t`,
the task function of `t` is called if and only if `t` is `Ready` and
`(uint16_t)(now - lastActivationTime_Ticks) >= sleepTime_Ticks`; no other
task is called; a `Suspended` or `Blocked` task is not called; and when `t`
does not pass the test the iteration changes nothing but the cursor, which
moves to the next node, or to the list head after the last node. -/
theorem scheduler_iteration_rule {α : Type}
    (body : Nat → TaskPtr → Kernel × α → Kernel × α) (millis : Nat) (s : Sched α)
    (i : Nat) (t : TaskPtr) (hpt : s.pt = some i) (hnode : s.k.root_g[i]? = some t) :
    ((∃ s', schedulerIteration body millis s = some (s', some t)) ↔
      ((s.k.mem t).state = TASK_STATE_READY ∧
       toU16 ((toU16 millis : Int) - ((s.k.mem t).lastActivationTime_Ticks : Int))
         ≥ (s.k.mem t).sleepTime_Ticks)) ∧
    (∀ s' u, schedulerIteration body millis s = some (s', some u) → u = t) ∧
    (((s.k.mem t).state = TASK_STATE_SUSPENDED ∨ (s.k.mem t).state = TASK_STATE_BLOCKED) →
      ∃ s', schedulerIteration body millis s = some (s', none)) ∧
    (¬ ((s.k.mem t).state = TASK_STATE_READY ∧
        toU16 ((toU16 millis : Int) - ((s.k.mem t).lastActivationTime_Ticks : Int))
          ≥ (s.k.mem t).sleepTime_Ticks) →
      schedulerIteration body millis s =
        some ({ s with pt := if i + 1 < s.k.root_g.length then some (i + 1) else some 0 },
              none)) := by
  have hskip : ¬ ((s.k.mem t).state = TASK_STATE_READY ∧
        toU16 ((toU16 millis : Int) - ((s.k.mem t).lastActivationTime_Ticks : Int))
          ≥ (s.k.mem t).sleepTime_Ticks) →
      schedulerIteration body millis s =
        some ({ s with pt := if i + 1 < s.k.root_g.length then some (i + 1) else some 0 },
              none) := by
    intro hne
    rw [← timeToRun_iff] at hne
    exact schedulerIteration_skip body millis s i t hpt hnode (by simpa using hne)
  refine ⟨⟨?_, ?_⟩, ?_, ?_, hskip⟩
  · rintro ⟨s', hs'⟩
    by_contra hne
    rw [hskip hne] at hs'
    simp at hs'
  · intro he
    exact ⟨_, schedulerIteration_call body millis s i t hpt hnode ((timeToRun_iff _ _).mpr he)⟩
  · intro s' u hs'
    cases htr : timeToRun (toU16 millis) (s.k.mem t) with
    | true =>
      rw [schedulerIteration_call body millis s i t hpt hnode htr] at hs'
      simp only [Option.some.injEq, Prod.mk.injEq] at hs'
      exact hs'.2.symm
    | false =>
      rw [schedulerIteration_skip body millis s i t hpt hnode htr] at hs'
      simp at hs'
  · intro hst
    refine ⟨_, hskip ?_⟩
    rintro ⟨hr, _⟩
    rcases hst with h | h <;> rw [hr] at h <;> exact absurd h (by decide)

/-- Instance of `scheduler_iteration_rule`: the cursor is on the last node
(task 12) of `demoKernel`. -/
theorem scheduler_iteration_rule_witness :
    ((∃ s', schedulerIteration (fun _ _ (x : Kernel × Unit) => x) 4
        { k := demoKernel, app := (), pt := some 2 } = some (s', some 12)) ↔
      ((demoKernel.mem 12).state = TASK_STATE_READY ∧
       toU16 ((toU16 4 : Int) - ((demoKernel.mem 12).lastActivationTime_Ticks : Int))
         ≥ (demoKernel.mem 12).sleepTime_Ticks)) ∧
    (∀ s' u, schedulerIteration (fun _ _ (x : Kernel × Unit) => x) 4
        { k := demoKernel, app := (), pt := some 2 } = some (s', some u) → u = 12) ∧
    (((demoKernel.mem 12).state = TASK_STATE_SUSPENDED ∨
        (demoKernel.mem 12).state = TASK_STATE_BLOCKED) →
      ∃ s', schedulerIteration (fun _ _ (x : Kernel × Unit) => x) 4
        { k := demoKernel, app := (), pt := some 2 } = some (s', none)) ∧
    (¬ ((demoKernel.mem 12).state = TASK_STATE_READY ∧
        toU16 ((toU16 4 : Int) - ((demoKernel.mem 12).lastActivationTime_Ticks : Int))
          ≥ (demoKernel.mem 12).sleepTime_Ticks) →
      schedulerIteration (fun _ _ (x : Kernel × Unit) => x) 4
          { k := demoKernel, app := (), pt := some 2 } =
        some ({ k := demoKernel, app := (),
                pt := if 2 + 1 < demoKernel.root_g.length then some (2 + 1) else some 0 },
              none)) :=
  scheduler_iteration_rule (fun _ _ (x : Kernel × Unit) => x) 4
    { k := demoKernel, app := (), pt := some 2 } 2 12 rfl rfl

/-- C8: whenever a scheduler iteration calls a task function, the kernel
state the function is entered with has `sleepTime_Ticks = 0` and
`lastActivationTime_Ticks` equal to the tick value read in that iteration
for the task called, and after the function has returned the cursor is the
root pointer of the task list. -/
theorem scheduler_call_entry_state {α : Type}
    (body : Nat → TaskPtr → Kernel × α → Kernel × α) (millis : Nat) (s s' : Sched α)
    (u : TaskPtr) (h : schedulerIteration body millis s = some (s', some u)) :
    ((prepareCall s.k u (toU16 millis)).mem u).sleepTime_Ticks = 0 ∧
    ((prepareCall s.k u (toU16 millis)).mem u).lastActivationTime_Ticks = toU16 millis ∧
    s'.k = (body ((prepareCall s.k u (toU16 millis)).mem u).func u
              (prepareCall s.k u (toU16 millis), s.app)).1 ∧
    s'.app = (body ((prepareCall s.k u (toU16 millis)).mem u).func u
              (prepareCall s.k u (toU16 millis), s.app)).2 ∧
    s'.pt = COS_GetTaskListRootPointer s'.k := by
  refine ⟨by simp [prepareCall, TaskMem.set], by simp [prepareCall, TaskMem.set], ?_⟩
  unfold schedulerIteration at h
  cases hpt : s.pt with
  | none => rw [hpt] at h; simp at h
  | some i =>
    rw [hpt] at h
    cases hnode : s.k.root_g[i]? with
    | none => simp [hnode] at h
    | some t =>
      simp only [hnode] at h
      cases htr : timeToRun (toU16 millis) (s.k.mem t) with
      | false => simp [htr] at h
      | true =>
        simp only [htr, if_true, Option.some.injEq, Prod.mk.injEq] at h
        obtain ⟨hs, htu⟩ := h
        subst htu
        subst hs
        exact ⟨rfl, rfl, rfl⟩

/-- Instance of `scheduler_call_entry_state`: the task function records the
task struct it is entered with; the iteration at tick 4 with the cursor on
task 11 of `demoKernel` calls it. -/
theorem scheduler_call_entry_state_witness :
    ((prepareCall demoKernel 11 (toU16 4)).mem 11).sleepTime_Ticks = 0 ∧
    ((prepareCall demoKernel 11 (toU16 4)).mem 11).lastActivationTime_Ticks = toU16 4 ∧
    (prepareCall demoKernel 11 (toU16 4)) =
      ((fun _ t (x : Kernel × Option CosTask_t) => (x.1, some (x.1.mem t)))
        ((prepareCall demoKernel 11 (toU16 4)).mem 11).func 11
          (prepareCall demoKernel 11 (toU16 4), none)).1 ∧
    some ((prepareCall demoKernel 11 (toU16 4)).mem 11) =
      ((fun _ t (x : Kernel × Option CosTask_t) => (x.1, some (x.1.mem t)))
        ((prepareCall demoKernel 11 (toU16 4)).mem 11).func 11
          (prepareCall demoKernel 11 (toU16 4), none)).2 ∧
    some 0 = COS_GetTaskListRootPointer (prepareCall demoKernel 11 (toU16 4)) :=
  scheduler_call_entry_state
    (fun _ t (x : Kernel × Option CosTask_t) => (x.1, some (x.1.mem t))) 4
    { k := demoKernel, app := none, pt := some 1 }
    { k := prepareCall demoKernel 11 (toU16 4),
      app := some ((prepareCall demoKernel 11 (toU16 4)).mem 11),
      pt := some 0 }
    11 rfl

/-- C9: for every `lastActivationTime_Ticks`, every sleep `D` (in particular
every `D < 0x8000`) and every elapsed time `e < 65536`, with
`now = (last + e) mod 2^16` the test `(uint16_t)(now - last) >= D` of the
dispatch loop holds exactly when `e >= D`, also when `now` has wrapped round;
so a `Ready` task passes `timeToRun` exactly when its sleep has elapsed. -/
theorem tick_wraparound (T : CosTask_t) (e : Nat)
    (he : e < 65536) (hready : T.state = TASK_STATE_READY) :
    (toU16 ((((T.lastActivationTime_Ticks + e) % 65536 : Nat) : Int)
        - (T.lastActivationTime_Ticks : Int)) ≥ T.sleepTime_Ticks ↔ e ≥ T.sleepTime_Ticks) ∧
    (timeToRun ((T.lastActivationTime_Ticks + e) % 65536) T = true ↔ e ≥ T.sleepTime_Ticks) := by
  have key : toU16 ((((T.lastActivationTime_Ticks + e) % 65536 : Nat) : Int)
        - (T.lastActivationTime_Ticks : Int)) = e := by
    unfold toU16
    omega
  refine ⟨by rw [key], ?_⟩
  rw [timeToRun_iff, key]
  exact ⟨fun h => h.2, fun h => ⟨hready, h⟩⟩

/-- Instance of `tick_wraparound`: a task last activated at tick 65530 with a
sleep of 10 ticks, 10 ticks later (tick 4, after the wrap). -/
theorem tick_wraparound_witness :
    (toU16 (((((demoMem 11).lastActivationTime_Ticks + 10) % 65536 : Nat) : Int)
        - ((demoMem 11).lastActivationTime_Ticks : Int)) ≥ (demoMem 11).sleepTime_Ticks
      ↔ 10 ≥ (demoMem 11).sleepTime_Ticks) ∧
    (timeToRun (((demoMem 11).lastActivationTime_Ticks + 10) % 65536) (demoMem 11) = true
      ↔ 10 ≥ (demoMem 11).sleepTime_Ticks) :=
  tick_wraparound (demoMem 11) 10 (by decide) rfl

/-! ## The task list: unlinking and sorting -/

theorem searchTask_eq_none (l : List TaskPtr) (t : TaskPtr) :
    _searchTaskInList l t = none ↔ t ∉ l := by
  induction l with
  | nil => simp [_searchTaskInList]
  | cons p rest ih =>
    by_cases h : p = t
    · simp [_searchTaskInList, h]
    · have h' : ¬ t = p := fun e => h e.symm
      simp [_searchTaskInList, h, h', ih]

theorem searchPredecessorLoop_eq (rest : List TaskPtr) (t : TaskPtr) :
    ∀ p, searchPredecessorLoop (p :: rest) t = _searchTaskInList rest t := by
  induction rest with
  | nil => intro p; rfl
  | cons q rest' ih =>
    intro p
    simp only [searchPredecessorLoop, _searchTaskInList]
    by_cases h : q = t
    · simp [h]
    · simp only [h, if_false]
      exact congrArg (Option.map (· + 1)) (ih q)

theorem searchTask_erase (l : List TaskPtr) (t : TaskPtr) :
    ∀ k, _searchTaskInList l t = some k → l.take k ++ l.drop (k + 1) = l.erase t := by
  induction l with
  | nil => intro k h; simp [_searchTaskInList] at h
  | cons p rest ih =>
    intro k h
    by_cases hp : p = t
    · simp [_searchTaskInList, hp] at h
      subst h
      simp [hp]
    · simp only [_searchTaskInList, hp, if_false] at h
      cases hs : _searchTaskInList rest t with
      | none => rw [hs] at h; simp at h
      | some j =>
        rw [hs] at h
        simp at h
        subst h
        have := ih j hs
        simp [List.erase_cons, hp, this]

/-- `_unlinkTaskFromTaskList` removes the first node whose payload is the
given task, and nothing else. -/
theorem unlink_eq_erase (l : List TaskPtr) (t : TaskPtr) :
    _unlinkTaskFromTaskList l t = l.erase t := by
  unfold _unlinkTaskFromTaskList
  cases hs : _searchTaskInList l t with
  | none =>
    have := (searchTask_eq_none l t).mp hs
    simp [List.erase_of_not_mem this]
  | some i =>
    cases l with
    | nil => simp [_searchTaskInList] at hs
    | cons p rest =>
      by_cases hp : p = t
      · simp [_searchTaskInList, hp] at hs
        subst hs
        simp [hp]
      · have hs' := hs
        simp only [_searchTaskInList, hp, if_false] at hs
        cases hr : _searchTaskInList rest t with
        | none => rw [hr] at hs; simp at hs
        | some j =>
          rw [hr] at hs
          simp at hs
          subst hs
          simp only [Nat.add_one_ne_zero, if_false, _searchPredecessorTaskInList, hp,
            searchPredecessorLoop_eq, hr]
          exact searchTask_erase (p :: rest) t (j + 1) hs'

theorem prioSorted_congr (mem mem' : TaskMem) (l : List TaskPtr)
    (h : ∀ p, (mem' p).prio = (mem p).prio) :
    prioSorted mem l → prioSorted mem' l := by
  unfold prioSorted
  intro hs
  refine List.Chain'.imp ?_ hs
  intro a b hab
  rw [h a, h b]
  exact hab

theorem prioSorted_erase (mem : TaskMem) (l : List TaskPtr) (t : TaskPtr) :
    prioSorted mem l → prioSorted mem (l.erase t) := by
  rw [prioSorted_iff_pairwise, prioSorted_iff_pairwise]
  exact List.Pairwise.sublist (List.erase_sublist t l)

theorem sortPassFrom_perm (mem : TaskMem) (l : List TaskPtr) :
    ∀ x, List.Perm (sortPassFrom mem x l).1 (x :: l) := by
  induction l with
  | nil => intro x; exact List.Perm.refl _
  | cons y rest ih =>
    intro x
    simp only [sortPassFrom]
    by_cases h : (mem x).prio < (mem y).prio
    · simp only [h, if_true]
      exact ((ih x).cons y).trans (List.Perm.swap x y rest)
    · simp only [h, if_false]
      exact (ih y).cons x

/-- Every swap of a pass removes exactly one inversion. -/
theorem sortPassFrom_inversions (mem : TaskMem) (l : List TaskPtr) :
    ∀ x, inversions mem (sortPassFrom mem x l).1 + (sortPassFrom mem x l).2
      = inversions mem (x :: l) := by
  induction l with
  | nil => intro x; rfl
  | cons y rest ih =>
    intro x
    simp only [sortPassFrom]
    by_cases h : (mem x).prio < (mem y).prio
    · simp only [h, if_true]
      have hperm := (sortPassFrom_perm mem rest x).countP_eq
        (fun z => decide ((mem y).prio < (mem z).prio))
      have hyx : ¬ (mem y).prio < (mem x).prio := by omega
      have hih := ih x
      simp only [inversions, List.countP_cons, h, hyx, decide_True, decide_False, if_true]
        at hperm hih ⊢
      simp at hperm
      omega
    · simp only [h, if_false]
      have hperm := (sortPassFrom_perm mem rest y).countP_eq
        (fun z => decide ((mem x).prio < (mem z).prio))
      have hih := ih y
      simp only [inversions] at hih ⊢
      omega

theorem sortPassFrom_noswap (mem : TaskMem) (l : List TaskPtr) :
    ∀ x, (sortPassFrom mem x l).2 = 0 →
      (sortPassFrom mem x l).1 = x :: l ∧ prioSorted mem (x :: l) := by
  induction l with
  | nil => intro x _; exact ⟨rfl, List.chain'_singleton x⟩
  | cons y rest ih =>
    intro x
    simp only [sortPassFrom]
    by_cases h : (mem x).prio < (mem y).prio
    · simp [h]
    · simp only [h, if_false]
      intro h0
      obtain ⟨h1, h2⟩ := ih y h0
      refine ⟨by rw [h1], ?_⟩
      exact List.Chain'.cons (Nat.le_of_not_lt h) h2

theorem sortPass_inversions (mem : TaskMem) (l : List TaskPtr) :
    inversions mem (sortPass mem l).1 + (sortPass mem l).2 = inversions mem l := by
  cases l with
  | nil => rfl
  | cons x rest => exact sortPassFrom_inversions mem rest x

theorem sortPass_noswap (mem : TaskMem) (l : List TaskPtr) (h : (sortPass mem l).2 = 0) :
    (sortPass mem l).1 = l ∧ prioSorted mem l := by
  cases l with
  | nil => exact ⟨rfl, List.chain'_nil⟩
  | cons x rest => exact sortPassFrom_noswap mem rest x h

theorem sortPass_perm (mem : TaskMem) (l : List TaskPtr) :
    List.Perm (sortPass mem l).1 l := by
  cases l with
  | nil => exact List.Perm.refl _
  | cons x rest => exact sortPassFrom_perm mem rest x

/-- The `do ... while` loop of `_sortLinearListPrio` ends by its own exit test
within one pass more than there are inversions; its result is a permutation
of the payloads, sorted by descending priority. -/
theorem sortLoop_terminates (mem : TaskMem) (fuel : Nat) :
    ∀ l, inversions mem l < fuel →
      ∃ r, sortLoop mem fuel l = some r ∧ prioSorted mem r ∧ List.Perm r l := by
  induction fuel with
  | zero => intro l h; omega
  | succ fuel ih =>
    intro l h
    simp only [sortLoop]
    have hinv := sortPass_inversions mem l
    by_cases hs : (sortPass mem l).2 > 0
    · simp only [hs, if_true]
      obtain ⟨r, hr, hsorted, hperm⟩ := ih (sortPass mem l).1 (by omega)
      exact ⟨r, hr, hsorted, hperm.trans (sortPass_perm mem l)⟩
    · simp only [hs, if_false]
      have h0 : (sortPass mem l).2 = 0 := by omega
      obtain ⟨h1, h2⟩ := sortPass_noswap mem l h0
      exact ⟨_, rfl, by rw [h1]; exact h2, by rw [h1]⟩

theorem sortLinearListPrio_spec (mem : TaskMem) (l : List TaskPtr) :
    sortLoop mem (inversions mem l + 1) l = some (_sortLinearListPrio mem l) ∧
    prioSorted mem (_sortLinearListPrio mem l) ∧
    List.Perm (_sortLinearListPrio mem l) l := by
  obtain ⟨r, hr, hsorted, hperm⟩ := sortLoop_terminates mem (inversions mem l + 1) l (by omega)
  cases l with
  | nil =>
    refine ⟨rfl, List.chain'_nil, List.Perm.refl _⟩
  | cons x rest =>
    have : _sortLinearListPrio mem (x :: rest) = r := by
      simp [_sortLinearListPrio, hr]
    rw [this]
    exact ⟨hr, hsorted, hperm⟩

/-! ## The task list stays sorted (C10) -/

theorem createTask_sorted (k : Kernel) (prio pData func : Nat) (alloc : Option TaskPtr)
    (ticks : Nat) (h : prioSorted k.mem k.root_g) :
    prioSorted (COS_CreateTask k prio pData func alloc ticks).1.mem
      (COS_CreateTask k prio pData func alloc ticks).1.root_g := by
  cases alloc with
  | none => exact h
  | some p =>
    simp only [COS_CreateTask, _newTask]
    exact (sortLinearListPrio_spec _ _).2.1

theorem setNodeTaskState_sorted (k : Kernel) (i st : Nat) (h : prioSorted k.mem k.root_g) :
    prioSorted (setNodeTaskState k i st).mem (setNodeTaskState k i st).root_g := by
  unfold setNodeTaskState
  cases hn : k.root_g[i]? with
  | none => exact h
  | some t =>
    refine prioSorted_congr k.mem _ _ ?_ h
    intro p
    by_cases hp : p = t <;> simp [TaskMem.set, hp]

theorem taskCall_sorted (k : Kernel) (c : TaskCall) (h : prioSorted k.mem k.root_g) :
    prioSorted (c.apply k).mem (c.apply k).root_g := by
  cases c with
  | create prio pData func alloc ticks => exact createTask_sorted k prio pData func alloc ticks h
  | delete t =>
    show prioSorted k.mem (_unlinkTaskFromTaskList k.root_g t)
    rw [unlink_eq_erase]
    exact prioSorted_erase _ _ _ h
  | suspend t =>
    show prioSorted (COS_SuspendTask k t).1.mem (COS_SuspendTask k t).1.root_g
    unfold COS_SuspendTask
    cases _searchTaskInList k.root_g t with
    | none => exact h
    | some i => exact setNodeTaskState_sorted k i _ h
  | resume t =>
    show prioSorted (COS_ResumeTask k t).1.mem (COS_ResumeTask k t).1.root_g
    unfold COS_ResumeTask
    cases _searchTaskInList k.root_g t with
    | none => exact h
    | some i => exact setNodeTaskState_sorted k i _ h
  | setPrio t p =>
    show prioSorted (COS_SetTaskPrio k t p).1.mem (COS_SetTaskPrio k t p).1.root_g
    unfold COS_SetTaskPrio
    cases _searchTaskInList k.root_g t with
    | none => exact h
    | some i =>
      cases hn : k.root_g[i]? with
      | none => simp only [hn]; exact h
      | some u => simp only [hn]; exact (sortLinearListPrio_spec _ _).2.1

theorem runCalls_sorted (cs : List TaskCall) :
    ∀ k, prioSorted k.mem k.root_g →
      prioSorted (runCalls k cs).mem (runCalls k cs).root_g := by
  induction cs with
  | nil => intro k h; exact h
  | cons c rest ih => intro k h; exact ih _ (taskCall_sorted k c h)

/-- C10: after `COS_InitTaskList` and any finite sequence of calls of
`COS_CreateTask`, `COS_DeleteTask`, `COS_SuspendTask`, `COS_ResumeTask` and
`COS_SetTaskPrio`, every pair of adjacent nodes `(a, b)` of the task list
satisfies `a.prio >= b.prio`. -/
theorem task_list_sorted_after_calls (k0 : Kernel) (alloc1 : Option TaskPtr) (ticks1 : Nat)
    (alloc2 : Option TaskPtr) (ticks2 : Nat) (cs : List TaskCall) :
    List.Chain' (fun a b =>
        ((runCalls (COS_InitTaskList k0 alloc1 ticks1 alloc2 ticks2).1 cs).mem a).prio
          ≥ ((runCalls (COS_InitTaskList k0 alloc1 ticks1 alloc2 ticks2).1 cs).mem b).prio)
      (runCalls (COS_InitTaskList k0 alloc1 ticks1 alloc2 ticks2).1 cs).root_g := by
  apply runCalls_sorted
  exact (sortLinearListPrio_spec _ _).2.1

/-! ## The FIFO against the bounded queue (C1) -/

set_option maxRecDepth 100000 in
/-- C1 (the code at a failing input): on a FIFO created with `slotSize = 128`
and `nSlots = 3`, three writes of 128 bytes each succeed, but the `uint8_t`
write index wraps from 256 to 0, so that the third write goes to the bytes of
the first slot, which has not been read: the first read returns the bytes
of the third write.  The bounded queue of capacity 3 returns the bytes of the
first write. -/
theorem fifo_index_wrap_overwrites :
    runFifo (COS_FifoCreate fifoZero 128 3 (some (List.replicate 384 0))).1 readyMem
        [FifoCall.write (List.replicate 128 1), FifoCall.write (List.replicate 128 2),
         FifoCall.write (List.replicate 128 3), FifoCall.read (List.replicate 128 0)]
      = some [(1, []), (1, []), (1, []), (1, List.replicate 128 3)] ∧
    runQueue { capacity := 3, slots := [] }
        [FifoCall.write (List.replicate 128 1), FifoCall.write (List.replicate 128 2),
         FifoCall.write (List.replicate 128 3), FifoCall.read (List.replicate 128 0)]
      = [(1, []), (1, []), (1, []), (1, List.replicate 128 1)] := by
  decide


/-! ## The FIFO with a buffer of at most 256 bytes -/

theorem toU8_natCast (k : Nat) : toU8 (k : Int) = k % 256 := by
  unfold toU8; omega

theorem wrapIdx_lt (n x : Nat) (hx : x < 2 * n) : wrapIdx n x < n := by
  unfold wrapIdx; split <;> omega

/-- The index update `idx += slotSize; idx %= maxSlots * slotSize` on a
buffer of at most 256 bytes moves a slot position to the next slot position,
the last one to 0. -/
theorem index_advance (s n x : Nat) (hM : s * n ≤ 256) (hx : x < n) :
    toU8 ((toU8 (((s * x : Nat) : Int) + (s : Int)) : Int) % ((n : Int) * (s : Int)))
      = s * wrapIdx n (x + 1) := by
  rcases Nat.eq_zero_or_pos s with hs | hs
  · subst hs; simp [toU8]
  have h1 : ((s * x : Nat) : Int) + (s : Int) = ((s * (x + 1) : Nat) : Int) := by
    push_cast; ring
  have h2 : (n : Int) * (s : Int) = ((s * n : Nat) : Int) := by push_cast; ring
  rw [h1, toU8_natCast, h2, ← Int.natCast_mod, toU8_natCast]
  have hle : s * (x + 1) ≤ s * n := Nat.mul_le_mul_left s (by omega)
  by_cases hlast : x + 1 = n
  · have hw : wrapIdx n (x + 1) = 0 := by unfold wrapIdx; split <;> omega
    rw [hw, hlast, Nat.mul_zero]
    by_cases h256 : s * n = 256
    · rw [h256]
    · have : s * n % 256 = s * n := Nat.mod_eq_of_lt (by omega)
      rw [this, Nat.mod_self]
  · have hw : wrapIdx n (x + 1) = x + 1 := by unfold wrapIdx; split <;> omega
    have hlt : s * (x + 1) < s * n := Nat.mul_lt_mul_of_pos_left (by omega) hs
    rw [hw, Nat.mod_eq_of_lt (by omega : s * (x + 1) < 256), Nat.mod_eq_of_lt hlt,
      Nat.mod_eq_of_lt (by omega : s * (x + 1) < 256)]

theorem getElem?_overwrite (buf data : List Nat) (w k : Nat)
    (hw : w + data.length ≤ buf.length) (hk : k < w ∨ w + data.length ≤ k) :
    (buf.take w ++ data ++ buf.drop (w + data.length))[k]? = buf[k]? := by
  have hlen : (buf.take w).length = w := by simp; omega
  rcases hk with hk | hk
  · rw [List.append_assoc, List.getElem?_append_left (by omega)]
    rw [List.getElem?_take]
    simp [hk]
  · rw [List.getElem?_append_right (by simp; omega)]
    rw [List.getElem?_drop]
    congr 1
    simp
    omega

theorem slot_overwrite_same (buf data : List Nat) (w : Nat)
    (hw : w + data.length ≤ buf.length) :
    ((buf.take w ++ data ++ buf.drop (w + data.length)).drop w).take data.length = data := by
  have hlen : (buf.take w).length = w := by simp; omega
  rw [List.append_assoc]
  have : (buf.take w ++ (data ++ buf.drop (w + data.length))).drop w
      = data ++ buf.drop (w + data.length) := by
    exact List.drop_left' hlen
  rw [this]
  exact List.take_left' rfl

theorem slot_overwrite_other (buf data : List Nat) (w p : Nat)
    (hw : w + data.length ≤ buf.length)
    (hp : p + data.length ≤ w ∨ w + data.length ≤ p) :
    ((buf.take w ++ data ++ buf.drop (w + data.length)).drop p).take data.length
      = (buf.drop p).take data.length := by
  apply List.ext_getElem?
  intro i
  by_cases hi : i < data.length
  · rw [List.getElem?_take_of_lt hi, List.getElem?_take_of_lt hi, List.getElem?_drop,
      List.getElem?_drop]
    exact getElem?_overwrite buf data w (p + i) hw (by omega)
  · rw [List.getElem?_eq_none (by simp; omega), List.getElem?_eq_none (by simp; omega)]


theorem memcpyInto_eq (buf data : List Nat) (w : Nat) (h : w + data.length ≤ buf.length) :
    memcpyInto buf w data data.length
      = some (buf.take w ++ data ++ buf.drop (w + data.length)) := by
  simp [memcpyInto, h]

theorem memcpyFrom_eq (out buf : List Nat) (r : Nat) (h : r + out.length ≤ buf.length) :
    memcpyFrom out buf r out.length = some ((buf.drop r).take out.length) := by
  simp [memcpyFrom, h]

theorem slot_position_bound (s n x : Nat) (hx : x < n) : s * x + s ≤ s * n := by
  have h := Nat.mul_le_mul_left s (by omega : x + 1 ≤ n)
  have e : s * (x + 1) = s * x + s := by ring
  omega

theorem slot_positions_apart (s x y : Nat) (hxy : x ≠ y) :
    s * x + s ≤ s * y ∨ s * y + s ≤ s * x := by
  rcases Nat.lt_or_gt_of_ne hxy with h | h
  · left
    have h1 := Nat.mul_le_mul_left s (by omega : x + 1 ≤ y)
    have e : s * (x + 1) = s * x + s := by ring
    omega
  · right
    have h1 := Nat.mul_le_mul_left s (by omega : y + 1 ≤ x)
    have e : s * (y + 1) = s * y + s := by ring
    omega

/-- A write to a FIFO that is not full stores the slot behind the slots
held. -/
theorem write_step (s n : Nat) (q : CosFifo_t) (slots : List (List Nat))
    (data : List Nat) (mem : TaskMem) (hs : 1 ≤ s) (hn : n ≤ 255) (hM : s * n ≤ 256)
    (hinv : FifoHolds s n q slots) (hd : data.length = s) (hfree : slots.length < n) :
    ∃ r, _qWriteSingleSlot q data mem = some r ∧ r.retval = 1 ∧
      FifoHolds s n r.q (slots ++ [data]) := by
  obtain ⟨hinit, hmax, hsize, hused, _, buf, ri, hbuf, hlen, hri, hr, hw, hslots⟩ := hinv
  subst hd
  have hwi : wrapIdx n (ri + slots.length) < n := wrapIdx_lt n _ (by omega)
  have hbound := slot_position_bound data.length n _ hwi
  have hcopy := memcpyInto_eq buf data (data.length * wrapIdx n (ri + slots.length))
    (by omega)
  have hmod : ¬ (n * data.length = 0) := by
    have : 0 < n * data.length := Nat.mul_pos (by omega) (by omega)
    omega
  have hadv := index_advance data.length n _ hM hwi
  have hfull : ¬ (q.usedSlots ≥ q.maxSlots) := by rw [hused, hmax]; omega
  have hinit0 : ¬ (q.isInitialized = 0) := by rw [hinit]; decide
  have hres : _qWriteSingleSlot q data mem = some
      { q := { q with
                buffer := some (buf.take (data.length * wrapIdx n (ri + slots.length)) ++ data
                  ++ buf.drop (data.length * wrapIdx n (ri + slots.length) + data.length)),
                wIndex := toU8 ((toU8 ((q.wIndex : Int) + (q.slotSize : Int)) : Int)
                  % ((q.maxSlots : Int) * (q.slotSize : Int))),
                usedSlots := toU8 ((q.usedSlots : Int) + 1),
                rSema := (COS_SEM_SIGNAL q.rSema mem).1 },
        mem := (COS_SEM_SIGNAL q.rSema mem).2, retval := 1 } := by
    unfold _qWriteSingleSlot
    rw [if_neg hinit0, if_neg hfull]
    simp only [hbuf, hsize, hw, hcopy, hmax, hmod, if_false]
  refine ⟨_, hres, rfl, ?_⟩
  · refine ⟨hinit, hmax, hsize, ?_, ?_, _, ri, rfl, ?_, hri, hr, ?_, ?_⟩
    · show toU8 ((q.usedSlots : Int) + 1) = (slots ++ [data]).length
      rw [hused]
      simp only [List.length_append, List.length_singleton]
      unfold toU8
      omega
    · simp only [List.length_append, List.length_singleton]; omega
    · simp only [List.length_append, List.length_take, List.length_drop]
      omega
    · dsimp only
      rw [hmax, hsize, hw, hadv]
      congr 1
      simp only [List.length_append, List.length_singleton, wrapIdx]
      split_ifs <;> omega
    · intro j hj
      simp only [List.length_append, List.length_singleton] at hj
      by_cases hjl : j < slots.length
      · rw [List.getElem?_append_left hjl, hslots j hjl]
        congr 1
        symm
        apply slot_overwrite_other buf data _ _ (by omega)
        apply slot_positions_apart
        simp only [wrapIdx]
        split_ifs <;> omega
      · have hjeq : j = slots.length := by omega
        subst hjeq
        rw [List.getElem?_append_right (le_refl _)]
        simp only [Nat.sub_self, List.getElem?_cons_zero]
        congr 1
        symm
        exact slot_overwrite_same buf data _ (by omega)

/-- A read from a FIFO that is not empty delivers the oldest slot. -/
theorem read_step (s n : Nat) (q : CosFifo_t) (v : List Nat) (rest : List (List Nat))
    (out : List Nat) (mem : TaskMem) (hs : 1 ≤ s) (hn : n ≤ 255) (hM : s * n ≤ 256)
    (hinv : FifoHolds s n q (v :: rest)) (ho : out.length = s) :
    ∃ r, _qReadSingleSlot q out mem = some r ∧ r.retval = 1 ∧ r.data = v ∧
      FifoHolds s n r.q rest := by
  obtain ⟨hinit, hmax, hsize, hused, hle, buf, ri, hbuf, hlen, hri, hr, hw, hslots⟩ := hinv
  subst ho
  simp only [List.length_cons] at hused hle hw hslots
  have hbound := slot_position_bound out.length n ri hri
  have hcopy := memcpyFrom_eq out buf (out.length * ri) (by omega)
  have hmod : ¬ (n * out.length = 0) := by
    have : 0 < n * out.length := Nat.mul_pos (by omega) (by omega)
    omega
  have hadv := index_advance out.length n ri hM hri
  have hempty : ¬ (q.usedSlots ≤ 0) := by rw [hused]; omega
  have hinit0 : ¬ (q.isInitialized = 0) := by rw [hinit]; decide
  have hv : v = (buf.drop (out.length * ri)).take out.length := by
    have h0 := hslots 0 (by omega)
    simp only [List.getElem?_cons_zero, Option.some.injEq, Nat.add_zero] at h0
    rw [h0]
    congr 3
    simp only [wrapIdx, hri, if_true]
  have hres : _qReadSingleSlot q out mem = some
      { q := { q with
                rIndex := toU8 ((toU8 ((q.rIndex : Int) + (q.slotSize : Int)) : Int)
                  % ((q.maxSlots : Int) * (q.slotSize : Int))),
                usedSlots := toU8 ((q.usedSlots : Int) - 1),
                wSema := (COS_SEM_SIGNAL q.wSema mem).1 },
        data := (buf.drop (out.length * ri)).take out.length,
        mem := (COS_SEM_SIGNAL q.wSema mem).2, retval := 1 } := by
    unfold _qReadSingleSlot
    rw [if_neg hinit0, if_neg hempty]
    simp only [hbuf, hsize, hr, hcopy, hmax, hmod, if_false]
  refine ⟨_, hres, rfl, hv.symm, ?_⟩
  · refine ⟨hinit, hmax, hsize, ?_, by omega, buf, wrapIdx n (ri + 1), hbuf, hlen,
      wrapIdx_lt n _ (by omega), ?_, ?_, ?_⟩
    · show toU8 ((q.usedSlots : Int) - 1) = rest.length
      rw [hused]
      unfold toU8
      omega
    · dsimp only
      rw [hmax, hsize, hr, hadv]
    · show q.wIndex = _
      rw [hw]
      congr 1
      simp only [wrapIdx]
      split_ifs <;> omega
    · intro j hj
      have hj1 := hslots (j + 1) (by omega)
      simp only [List.getElem?_cons_succ] at hj1
      rw [hj1]
      congr 4
      simp only [wrapIdx]
      split_ifs <;> omega

/-- On a buffer of at most 256 bytes the FIFO and the bounded queue answer
every sequence of calls alike. -/
theorem runFifo_eq_runQueue (s n : Nat) (hs : 1 ≤ s) (hn : n ≤ 255) (hM : s * n ≤ 256)
    (calls : List FifoCall) :
    ∀ (q : CosFifo_t) (slots : List (List Nat)) (mem : TaskMem),
      FifoHolds s n q slots → (∀ c ∈ calls, c.wellFormed s) →
      runFifo q mem calls = some (runQueue { capacity := n, slots := slots } calls) := by
  induction calls with
  | nil => intro q slots mem _ _; rfl
  | cons c rest ih =>
    intro q slots mem hinv hwf
    have hrest : ∀ c' ∈ rest, c'.wellFormed s := fun c' hc' => hwf c' (List.mem_cons_of_mem _ hc')
    have hc := hwf c (List.mem_cons_self _ _)
    cases c with
    | write data =>
      have hd : data.length = s := hc
      by_cases hfree : slots.length < n
      · obtain ⟨r, hr, hret, hinv'⟩ := write_step s n q slots data mem hs hn hM hinv hd hfree
        simp only [runFifo, hr, runQueue, BoundedQueue.write, hfree, if_true]
        rw [ih r.q (slots ++ [data]) r.mem hinv' hrest, hret]
        rfl
      · have hfull : q.usedSlots ≥ q.maxSlots := by
          rw [hinv.2.2.2.1, hinv.2.1]; omega
        have hinit0 : ¬ (q.isInitialized = 0) := by rw [hinv.1]; decide
        simp only [runFifo, _qWriteSingleSlot, if_neg hinit0, if_pos hfull, runQueue,
          BoundedQueue.write, hfree, if_false]
        rw [ih q slots mem hinv hrest]
        rfl
    | read out =>
      have ho : out.length = s := hc
      cases slots with
      | nil =>
        have hempty : q.usedSlots ≤ 0 := by rw [hinv.2.2.2.1]; simp
        have hinit0 : ¬ (q.isInitialized = 0) := by rw [hinv.1]; decide
        simp only [runFifo, _qReadSingleSlot, if_neg hinit0, if_pos hempty, runQueue,
          BoundedQueue.read]
        rw [ih q [] mem hinv hrest]
        rfl
      | cons v vs =>
        obtain ⟨r, hr, hret, hdata, hinv'⟩ := read_step s n q v vs out mem hs hn hM hinv ho
        simp only [runFifo, hr, runQueue, BoundedQueue.read]
        rw [ih r.q vs r.mem hinv' hrest, hret, hdata]
        rfl

theorem fifoCreate_holds (q0 : CosFifo_t) (s n : Nat) (buf : List Nat) (hn : 1 ≤ n)
    (hbuf : buf.length = s * n) :
    (COS_FifoCreate q0 s n (some buf)).2 = 0 ∧
    FifoHolds s n (COS_FifoCreate q0 s n (some buf)).1 [] := by
  refine ⟨by simp [COS_FifoCreate, COS_SemCreate], ?_⟩
  simp only [COS_FifoCreate, COS_SemCreate]
  refine ⟨rfl, rfl, rfl, rfl, by simp, buf, 0, rfl, hbuf, by omega, by simp, ?_, ?_⟩
  · simp [wrapIdx]
  · intro j hj; simp at hj

/-- The FIFO on a buffer of at most 256 bytes: for every `slotSize >= 1` and
`nSlots` in `1..255` with `slotSize * nSlots <= 256` and every sequence of
`_qWriteSingleSlot` / `_qReadSingleSlot` calls (each handed `slotSize`
bytes) on a FIFO freshly made by `COS_FifoCreate`, every call is defined
and returns what the bounded queue of capacity `nSlots` returns: a write is
taken while fewer than `nSlots` slots are held, and every successful read
returns the bytes of the oldest successful write not yet read. -/
theorem fifo_refines_queue_upto_256 (q0 : CosFifo_t) (slotSize nSlots : Nat)
    (buf : List Nat) (mem : TaskMem) (calls : List FifoCall)
    (hs : 1 ≤ slotSize) (hn : 1 ≤ nSlots) (hn255 : nSlots ≤ 255)
    (hM : slotSize * nSlots ≤ 256) (hbuf : buf.length = slotSize * nSlots)
    (hwf : ∀ c ∈ calls, c.wellFormed slotSize) :
    runFifo (COS_FifoCreate q0 slotSize nSlots (some buf)).1 mem calls
      = some (runQueue { capacity := nSlots, slots := [] } calls) :=
  runFifo_eq_runQueue slotSize nSlots hs hn255 hM calls _ [] mem
    (fifoCreate_holds q0 slotSize nSlots buf hn hbuf).2 hwf

/-- Instance of `fifo_refines_queue_upto_256`: two slots of two bytes; the
third write finds the FIFO full, the reads return the slots in the order
written, and the third read finds the FIFO empty. -/
theorem fifo_refines_queue_upto_256_witness :
    runFifo (COS_FifoCreate fifoZero 2 2 (some [0, 0, 0, 0])).1 readyMem
        [FifoCall.write [1, 2], FifoCall.write [3, 4], FifoCall.write [5, 6],
         FifoCall.read [0, 0], FifoCall.read [0, 0], FifoCall.read [9, 9]]
      = some (runQueue { capacity := 2, slots := [] }
        [FifoCall.write [1, 2], FifoCall.write [3, 4], FifoCall.write [5, 6],
         FifoCall.read [0, 0], FifoCall.read [0, 0], FifoCall.read [9, 9]]) :=
  fifo_refines_queue_upto_256 fifoZero 2 2 [0, 0, 0, 0] readyMem _
    (by decide) (by decide) (by decide) (by decide) rfl (by decide)


/-! ## `_sortLinearListPrio`: sorted permutation and stability (C11, C12) -/

theorem sortLoop_succ (mem : TaskMem) (fuel : Nat) :
    ∀ l r, sortLoop mem fuel l = some r → sortLoop mem (fuel + 1) l = some r := by
  induction fuel with
  | zero => intro l r h; simp [sortLoop] at h
  | succ fuel ih =>
    intro l r h
    simp only [sortLoop] at h
    rw [sortLoop]
    by_cases hs : (sortPass mem l).2 > 0
    · simp only [hs, if_true] at h ⊢
      exact ih _ _ h
    · simp only [hs, if_false] at h ⊢
      exact h

theorem sortLoop_add (mem : TaskMem) (l r : List TaskPtr) (fuel extra : Nat)
    (h : sortLoop mem fuel l = some r) : sortLoop mem (fuel + extra) l = some r := by
  induction extra with
  | zero => exact h
  | succ extra ih => exact sortLoop_succ mem _ l r ih

/-- C11: for every task list, the `do ... while` loop of `_sortLinearListPrio`
ends: with one pass more than there are inversions, or any larger number of
passes, it yields the same list.  That list is sorted by `prio` in
descending order and is a permutation of the payloads before (no record lost
or duplicated), with the same number of nodes. -/
theorem sort_sorted_permutation (mem : TaskMem) (l : List TaskPtr) :
    (∀ extra, sortLoop mem (inversions mem l + 1 + extra) l
      = some (_sortLinearListPrio mem l)) ∧
    List.Chain' (fun a b => (mem a).prio ≥ (mem b).prio) (_sortLinearListPrio mem l) ∧
    List.Perm (_sortLinearListPrio mem l) l ∧
    (∀ t, (_sortLinearListPrio mem l).count t = l.count t) ∧
    (_sortLinearListPrio mem l).length = l.length := by
  obtain ⟨h1, h2, h3⟩ := sortLinearListPrio_spec mem l
  exact ⟨fun extra => sortLoop_add mem l _ _ extra h1, h2, h3,
    fun t => h3.count_eq t, h3.length_eq⟩

theorem sortPassFrom_filter (mem : TaskMem) (p : Nat) (l : List TaskPtr) :
    ∀ x, (sortPassFrom mem x l).1.filter (fun t => decide ((mem t).prio = p))
      = (x :: l).filter (fun t => decide ((mem t).prio = p)) := by
  induction l with
  | nil => intro x; rfl
  | cons y rest ih =>
    intro x
    simp only [sortPassFrom]
    by_cases h : (mem x).prio < (mem y).prio
    · simp only [h, if_true]
      have hih := ih x
      by_cases hy : (mem y).prio = p
      · have hx : ¬ (mem x).prio = p := by omega
        simp only [List.filter_cons, hy, hx, decide_True, decide_False, if_true] at hih ⊢
        simp only [Bool.false_eq_true, if_false] at hih ⊢
        rw [hih]
      · simp only [List.filter_cons, hy, decide_False] at hih ⊢
        simp only [Bool.false_eq_true, if_false] at hih ⊢
        rw [hih]
    · simp only [h, if_false]
      have hih := ih y
      simp only [List.filter_cons] at hih ⊢
      rw [hih]

theorem sortPass_filter (mem : TaskMem) (p : Nat) (l : List TaskPtr) :
    (sortPass mem l).1.filter (fun t => decide ((mem t).prio = p))
      = l.filter (fun t => decide ((mem t).prio = p)) := by
  cases l with
  | nil => rfl
  | cons x rest => exact sortPassFrom_filter mem p rest x

theorem sortLoop_filter (mem : TaskMem) (p : Nat) (fuel : Nat) :
    ∀ l r, sortLoop mem fuel l = some r →
      r.filter (fun t => decide ((mem t).prio = p))
        = l.filter (fun t => decide ((mem t).prio = p)) := by
  induction fuel with
  | zero => intro l r h; simp [sortLoop] at h
  | succ fuel ih =>
    intro l r h
    simp only [sortLoop] at h
    by_cases hs : (sortPass mem l).2 > 0
    · simp only [hs, if_true] at h
      rw [ih _ _ h, sortPass_filter]
    · simp only [hs, if_false, Option.some.injEq] at h
      rw [← h, sortPass_filter]

/-- C12: `_sortLinearListPrio` is stable: for every priority `p`, the tasks of
priority `p` appear in the list after the sort in the same order as before
it. -/
theorem sort_stable (mem : TaskMem) (l : List TaskPtr) (p : Nat) :
    (_sortLinearListPrio mem l).filter (fun t => decide ((mem t).prio = p))
      = l.filter (fun t => decide ((mem t).prio = p)) :=
  sortLoop_filter mem p _ l _ (sortLinearListPrio_spec mem l).1

/-! ## The idle task and the task list (C13) -/

theorem mem_sortLinearListPrio (mem : TaskMem) (l : List TaskPtr) (t : TaskPtr) :
    t ∈ _sortLinearListPrio mem l ↔ t ∈ l :=
  (sortLinearListPrio_spec mem l).2.2.mem_iff

theorem createTask_some (k : Kernel) (prio pData func : Nat) (t : TaskPtr) (ticks : Nat) :
    COS_CreateTask k prio pData func (some t) ticks =
      ({ k with
          mem := k.mem.set t
            { lastActivationTime_Ticks := ticks, sleepTime_Ticks := 0,
              state := TASK_STATE_READY, prio := prio, lineCnt := 0,
              pData := pData, func := func },
          root_g := _sortLinearListPrio
            (k.mem.set t
              { lastActivationTime_Ticks := ticks, sleepTime_Ticks := 0,
                state := TASK_STATE_READY, prio := prio, lineCnt := 0,
                pData := pData, func := func })
            (t :: k.root_g) }, some t) := by
  simp [COS_CreateTask, _newTask, _addTaskAtBeginningOfTaskList]

theorem createTask_none (k : Kernel) (prio pData func : Nat) (ticks : Nat) :
    COS_CreateTask k prio pData func none ticks = (k, none) := by
  simp [COS_CreateTask, _newTask]

theorem createTask_keeps (k : Kernel) (prio pData func : Nat) (alloc : Option TaskPtr)
    (ticks : Nat) :
    (COS_CreateTask k prio pData func alloc ticks).1.idleTask_pt_g = k.idleTask_pt_g ∧
    ∀ u, u ∈ k.root_g → u ∈ (COS_CreateTask k prio pData func alloc ticks).1.root_g := by
  cases alloc with
  | none => rw [createTask_none]; exact ⟨rfl, fun _ h => h⟩
  | some t =>
    rw [createTask_some]
    refine ⟨rfl, fun u hu => ?_⟩
    exact (mem_sortLinearListPrio _ _ _).mpr (List.mem_cons_of_mem _ hu)

theorem setNodeTaskState_keeps (k : Kernel) (i st : Nat) :
    (setNodeTaskState k i st).idleTask_pt_g = k.idleTask_pt_g ∧
    (setNodeTaskState k i st).root_g = k.root_g := by
  unfold setNodeTaskState
  cases k.root_g[i]? <;> exact ⟨rfl, rfl⟩

theorem taskCall_keeps_idle (k : Kernel) (c : TaskCall) (pIdle : TaskPtr)
    (hc : c ≠ TaskCall.delete pIdle)
    (h : k.idleTask_pt_g = some pIdle ∧ pIdle ∈ k.root_g) :
    (c.apply k).idleTask_pt_g = some pIdle ∧ pIdle ∈ (c.apply k).root_g := by
  obtain ⟨h1, h2⟩ := h
  cases c with
  | create prio pData func alloc ticks =>
    have hk := createTask_keeps k prio pData func alloc ticks
    exact ⟨hk.1.trans h1, hk.2 _ h2⟩
  | delete t =>
    have hne : pIdle ≠ t := fun e => hc (by rw [e])
    refine ⟨h1, ?_⟩
    show pIdle ∈ _unlinkTaskFromTaskList k.root_g t
    rw [unlink_eq_erase]
    exact (List.mem_erase_of_ne hne).mpr h2
  | suspend t =>
    show (COS_SuspendTask k t).1.idleTask_pt_g = _ ∧ pIdle ∈ (COS_SuspendTask k t).1.root_g
    unfold COS_SuspendTask
    cases _searchTaskInList k.root_g t with
    | none => exact ⟨h1, h2⟩
    | some i =>
      have hs := setNodeTaskState_keeps k i TASK_STATE_SUSPENDED
      exact ⟨hs.1.trans h1, by rw [hs.2]; exact h2⟩
  | resume t =>
    show (COS_ResumeTask k t).1.idleTask_pt_g = _ ∧ pIdle ∈ (COS_ResumeTask k t).1.root_g
    unfold COS_ResumeTask
    cases _searchTaskInList k.root_g t with
    | none => exact ⟨h1, h2⟩
    | some i =>
      have hs := setNodeTaskState_keeps k i TASK_STATE_READY
      exact ⟨hs.1.trans h1, by rw [hs.2]; exact h2⟩
  | setPrio t p =>
    show (COS_SetTaskPrio k t p).1.idleTask_pt_g = _ ∧ pIdle ∈ (COS_SetTaskPrio k t p).1.root_g
    unfold COS_SetTaskPrio
    cases _searchTaskInList k.root_g t with
    | none => exact ⟨h1, h2⟩
    | some i =>
      cases hn : k.root_g[i]? with
      | none => simp only [hn]; exact ⟨h1, h2⟩
      | some u =>
        simp only [hn]
        exact ⟨h1, (mem_sortLinearListPrio _ _ _).mpr h2⟩

theorem runCalls_keeps_idle (pIdle : TaskPtr) (cs : List TaskCall) :
    ∀ k, (∀ c ∈ cs, c ≠ TaskCall.delete pIdle) →
      (k.idleTask_pt_g = some pIdle ∧ pIdle ∈ k.root_g) →
      (runCalls k cs).idleTask_pt_g = some pIdle ∧ pIdle ∈ (runCalls k cs).root_g := by
  induction cs with
  | nil => intro k _ h; exact h
  | cons c rest ih =>
    intro k hcs h
    exact ih _ (fun c' hc' => hcs c' (List.mem_cons_of_mem _ hc'))
      (taskCall_keeps_idle k c pIdle (hcs c (List.mem_cons_self _ _)) h)

theorem initTaskList_idle (k0 : Kernel) (pIdle : TaskPtr) (ticks1 : Nat)
    (alloc2 : Option TaskPtr) (ticks2 : Nat) :
    (COS_InitTaskList k0 (some pIdle) ticks1 alloc2 ticks2).1.idleTask_pt_g = some pIdle ∧
    pIdle ∈ (COS_InitTaskList k0 (some pIdle) ticks1 alloc2 ticks2).1.root_g := by
  unfold COS_InitTaskList
  simp only [createTask_some]
  refine ⟨?_, ?_⟩
  · exact (createTask_keeps _ _ _ _ alloc2 _).1
  · apply (mem_sortLinearListPrio _ _ _).mpr
    apply (createTask_keeps _ _ _ _ alloc2 _).2
    dsimp only
    exact (mem_sortLinearListPrio _ _ _).mpr (List.mem_cons_self _ _)

/-- C13 (as stated, refuted): `COS_DeleteTask` has no guard for the idle
task.  After `COS_InitTaskList` (idle task at address 1, load-measure task at
address 2) the call `COS_DeleteTask` on the idle task's handle removes the
idle task from the task list, and a second call on the other handle leaves
the task list empty. -/
theorem delete_idle_task_removes_it :
    (COS_InitTaskList demoKernel (some 1) 0 (some 2) 0).1.idleTask_pt_g = some 1 ∧
    (COS_InitTaskList demoKernel (some 1) 0 (some 2) 0).1.root_g = [2, 1] ∧
    (runCalls (COS_InitTaskList demoKernel (some 1) 0 (some 2) 0).1
      [TaskCall.delete 1]).root_g = [2] ∧
    (1 : TaskPtr) ∉ (runCalls (COS_InitTaskList demoKernel (some 1) 0 (some 2) 0).1
      [TaskCall.delete 1]).root_g ∧
    (runCalls (COS_InitTaskList demoKernel (some 1) 0 (some 2) 0).1
      [TaskCall.delete 1, TaskCall.delete 2]).root_g = [] := by
  decide

/-- C13 (amended): after a `COS_InitTaskList` in which the idle task was
allocated and any finite sequence of calls of `COS_CreateTask`,
`COS_DeleteTask` on handles other than the idle task's, `COS_SuspendTask`,
`COS_ResumeTask` and `COS_SetTaskPrio`, the task list contains at least one
task and the idle task is still in it. -/
theorem idle_task_stays_in_list (k0 : Kernel) (pIdle : TaskPtr) (ticks1 : Nat)
    (alloc2 : Option TaskPtr) (ticks2 : Nat) (cs : List TaskCall)
    (hcs : ∀ c ∈ cs, c ≠ TaskCall.delete pIdle) :
    (runCalls (COS_InitTaskList k0 (some pIdle) ticks1 alloc2 ticks2).1 cs).idleTask_pt_g
      = some pIdle ∧
    pIdle ∈ (runCalls (COS_InitTaskList k0 (some pIdle) ticks1 alloc2 ticks2).1 cs).root_g ∧
    1 ≤ (runCalls (COS_InitTaskList k0 (some pIdle) ticks1 alloc2 ticks2).1 cs).root_g.length := by
  have h := runCalls_keeps_idle pIdle cs _ hcs
    (initTaskList_idle k0 pIdle ticks1 alloc2 ticks2)
  exact ⟨h.1, h.2, List.length_pos_of_mem h.2⟩

/-- Instance of `idle_task_stays_in_list`: a task is created at address 3,
the load-measure task (address 2) is deleted and the new task suspended. -/
theorem idle_task_stays_in_list_witness :
    (runCalls (COS_InitTaskList demoKernel (some 1) 0 (some 2) 0).1
      [TaskCall.create 5 0 9 (some 3) 0, TaskCall.delete 2,
       TaskCall.suspend 3]).idleTask_pt_g = some 1 ∧
    1 ∈ (runCalls (COS_InitTaskList demoKernel (some 1) 0 (some 2) 0).1
      [TaskCall.create 5 0 9 (some 3) 0, TaskCall.delete 2, TaskCall.suspend 3]).root_g ∧
    1 ≤ (runCalls (COS_InitTaskList demoKernel (some 1) 0 (some 2) 0).1
      [TaskCall.create 5 0 9 (some 3) 0, TaskCall.delete 2,
       TaskCall.suspend 3]).root_g.length :=
  idle_task_stays_in_list demoKernel 1 0 (some 2) 0
    [TaskCall.create 5 0 9 (some 3) 0, TaskCall.delete 2, TaskCall.suspend 3] (by decide)

/-! ## Creating and deleting a task (C14) -/

theorem sortPassFrom_of_sorted (mem : TaskMem) (l : List TaskPtr) :
    ∀ x, prioSorted mem (x :: l) → sortPassFrom mem x l = (x :: l, 0) := by
  induction l with
  | nil => intro x _; rfl
  | cons y rest ih =>
    intro x h
    have h' := List.chain'_cons.mp h
    have hxy : ¬ (mem x).prio < (mem y).prio := Nat.not_lt.mpr h'.1
    simp only [sortPassFrom, hxy, if_false, ih y h'.2]

theorem sortPassFrom_sorted (mem : TaskMem) (l : List TaskPtr) :
    ∀ x, prioSorted mem l → prioSorted mem (sortPassFrom mem x l).1 := by
  induction l with
  | nil => intro x _; exact List.chain'_singleton x
  | cons y rest ih =>
    intro x h
    simp only [sortPassFrom]
    by_cases hxy : (mem x).prio < (mem y).prio
    · simp only [hxy, if_true]
      have hrest : prioSorted mem rest := List.Chain'.tail h
      have hih := ih x hrest
      rw [prioSorted_iff_pairwise] at h hih ⊢
      refine List.pairwise_cons.mpr ⟨?_, hih⟩
      intro z hz
      have hz' := (sortPassFrom_perm mem rest x).mem_iff.mp hz
      rcases List.mem_cons.mp hz' with hzx | hzr
      · rw [hzx]; exact Nat.le_of_lt hxy
      · exact (List.pairwise_cons.mp h).1 z hzr
    · simp only [hxy, if_false]
      have hxl : prioSorted mem (x :: y :: rest) :=
        List.Chain'.cons (Nat.le_of_not_lt hxy) h
      rw [sortPassFrom_of_sorted mem rest y h]
      exact hxl

theorem sortPassFrom_erase (mem : TaskMem) (t : TaskPtr) (l : List TaskPtr) :
    prioSorted mem l → t ∉ l → (sortPassFrom mem t l).1.erase t = l := by
  induction l with
  | nil => intro _ _; simp [sortPassFrom]
  | cons y rest ih =>
    intro h hnot
    have hyt : y ≠ t := fun e => hnot (e ▸ List.mem_cons_self _ _)
    have hrest : t ∉ rest := fun hm => hnot (List.mem_cons_of_mem _ hm)
    simp only [sortPassFrom]
    by_cases hty : (mem t).prio < (mem y).prio
    · simp only [hty, if_true]
      rw [List.erase_cons_tail (by simpa using hyt), ih (List.Chain'.tail h) hrest]
    · simp only [hty, if_false]
      rw [List.erase_cons_head, sortPassFrom_of_sorted mem rest y h]

theorem sortLoop_of_sorted_pass (mem : TaskMem) (l r : List TaskPtr) (fuel : Nat)
    (hs : prioSorted mem (sortPass mem l).1) (h : sortLoop mem fuel l = some r) :
    r = (sortPass mem l).1 := by
  cases fuel with
  | zero => simp [sortLoop] at h
  | succ fuel =>
    simp only [sortLoop] at h
    by_cases hsw : (sortPass mem l).2 > 0
    · simp only [hsw, if_true] at h
      cases fuel with
      | zero => simp [sortLoop] at h
      | succ fuel =>
        simp only [sortLoop] at h
        have hp : sortPass mem (sortPass mem l).1 = ((sortPass mem l).1, 0) := by
          cases hl : (sortPass mem l).1 with
          | nil => rfl
          | cons a as =>
            rw [hl] at hs
            exact sortPassFrom_of_sorted mem as a hs
        rw [hp] at h
        simpa using h.symm
    · simp only [hsw, if_false, Option.some.injEq] at h
      exact h.symm

/-- Sorting a sorted list with a new task in front and unlinking the new
task again gives the list back. -/
theorem sort_cons_erase (mem : TaskMem) (t : TaskPtr) (l : List TaskPtr)
    (hs : prioSorted mem l) (hnot : t ∉ l) :
    (_sortLinearListPrio mem (t :: l)).erase t = l := by
  have hspec := (sortLinearListPrio_spec mem (t :: l)).1
  have hsorted : prioSorted mem (sortPass mem (t :: l)).1 := sortPassFrom_sorted mem l t hs
  rw [sortLoop_of_sorted_pass mem _ _ _ hsorted hspec]
  exact sortPassFrom_erase mem t l hs hnot

/-- C14: for every priority-sorted task list `L` and every priority `p`, a
successful `COS_CreateTask(p, data, body)` that returns the task `t` (a
newly allocated record, not a payload of `L`), followed immediately by
`COS_DeleteTask(t)`, yields the task list `L` again: the same payloads in the
same order, with unchanged task records; both calls succeed. -/
theorem create_then_delete (k : Kernel) (prio pData func : Nat) (t : TaskPtr) (ticks : Nat)
    (hsorted : prioSorted k.mem k.root_g) (hfresh : t ∉ k.root_g) :
    (COS_CreateTask k prio pData func (some t) ticks).2 = some t ∧
    (COS_DeleteTask (COS_CreateTask k prio pData func (some t) ticks).1 t).2 = 0 ∧
    (COS_DeleteTask (COS_CreateTask k prio pData func (some t) ticks).1 t).1.root_g
      = k.root_g ∧
    ∀ u ∈ k.root_g,
      (COS_DeleteTask (COS_CreateTask k prio pData func (some t) ticks).1 t).1.mem u
        = k.mem u := by
  rw [createTask_some]
  refine ⟨rfl, rfl, ?_, ?_⟩
  · show _unlinkTaskFromTaskList (_sortLinearListPrio _ (t :: k.root_g)) t = k.root_g
    rw [unlink_eq_erase]
    apply sort_cons_erase _ _ _ ?_ hfresh
    rw [prioSorted_iff_pairwise] at hsorted ⊢
    refine List.Pairwise.imp_of_mem ?_ hsorted
    intro a b ha hb hab
    have hat : a ≠ t := fun e => hfresh (e ▸ ha)
    have hbt : b ≠ t := fun e => hfresh (e ▸ hb)
    simp only [TaskMem.set, hat, hbt, if_false]
    exact hab
  · intro u hu
    have hut : u ≠ t := fun e => hfresh (e ▸ hu)
    show (TaskMem.set k.mem t _) u = k.mem u
    exact TaskMem.set_other _ _ _ _ hut

/-- Instance of `create_then_delete`: a task of priority 7 is created at
address 3 in `demoKernel` (task list 10, 11, 12 of priorities 9, 5, 1) and
deleted again. -/
theorem create_then_delete_witness :
    (COS_CreateTask demoKernel 7 0 9 (some 3) 0).1.root_g = [10, 3, 11, 12] ∧
    (COS_CreateTask demoKernel 7 0 9 (some 3) 0).2 = some 3 ∧
    (COS_DeleteTask (COS_CreateTask demoKernel 7 0 9 (some 3) 0).1 3).2 = 0 ∧
    (COS_DeleteTask (COS_CreateTask demoKernel 7 0 9 (some 3) 0).1 3).1.root_g
      = demoKernel.root_g ∧
    ∀ u ∈ demoKernel.root_g,
      (COS_DeleteTask (COS_CreateTask demoKernel 7 0 9 (some 3) 0).1 3).1.mem u
        = demoKernel.mem u :=
  ⟨by decide, create_then_delete demoKernel 7 0 9 3 0
    (List.Chain'.cons (by decide) (List.Chain'.cons (by decide) (List.chain'_singleton 12)))
    (by decide)⟩

/-! ## `COS_FifoCreate` (C16, C17) -/

theorem fifoCreate_some (q : CosFifo_t) (slotSize nSlots : Nat) (buf : List Nat) :
    COS_FifoCreate q slotSize nSlots (some buf) =
      ({ buffer := some buf, maxSlots := nSlots, slotSize := slotSize, rIndex := 0,
         wIndex := 0, usedSlots := 0, isInitialized := 1,
         rSema := { count := 0, root_pt := [] },
         wSema := { count := toI8 nSlots, root_pt := [] } }, 0) := by
  simp [COS_FifoCreate, COS_SemCreate]

theorem fifoCreate_none (q : CosFifo_t) (slotSize nSlots : Nat) :
    COS_FifoCreate q slotSize nSlots none = ({ q with buffer := none }, 255) := by
  simp [COS_FifoCreate]

/-- With at most 127 slots a successful `COS_FifoCreate` leaves the write
semaphore with the count `nSlots`. -/
theorem fifoCreate_upto_127 (q : CosFifo_t) (slotSize nSlots : Nat) (buf : List Nat)
    (hn : nSlots ≤ 127) :
    (COS_FifoCreate q slotSize nSlots (some buf)).1.wSema.count = nSlots := by
  rw [fifoCreate_some]
  exact toI8_of_range _ (by omega) (by omega)

/-- C16 (the code at a failing input): `COS_FifoCreate(q, 1, 200)` with a
successful allocation returns 0 and marks the FIFO initialized with
`maxSlots = 200`, indices and `usedSlots` 0 and the read semaphore at 0, but
the count of the write semaphore is -56: `nSlots` is handed to the `int8_t`
parameter of `COS_SemCreate`. -/
theorem fifo_create_200_slots :
    (COS_FifoCreate fifoZero 1 200 (some (List.replicate 200 0))).2 = 0 ∧
    (COS_FifoCreate fifoZero 1 200 (some (List.replicate 200 0))).1.isInitialized = 1 ∧
    (COS_FifoCreate fifoZero 1 200 (some (List.replicate 200 0))).1.maxSlots = 200 ∧
    (COS_FifoCreate fifoZero 1 200 (some (List.replicate 200 0))).1.slotSize = 1 ∧
    (COS_FifoCreate fifoZero 1 200 (some (List.replicate 200 0))).1.rIndex = 0 ∧
    (COS_FifoCreate fifoZero 1 200 (some (List.replicate 200 0))).1.wIndex = 0 ∧
    (COS_FifoCreate fifoZero 1 200 (some (List.replicate 200 0))).1.usedSlots = 0 ∧
    (COS_FifoCreate fifoZero 1 200 (some (List.replicate 200 0))).1.rSema
      = { count := 0, root_pt := [] } ∧
    (COS_FifoCreate fifoZero 1 200 (some (List.replicate 200 0))).1.wSema
      = { count := -56, root_pt := [] } ∧
    (COS_FifoCreate fifoZero 1 200 (some (List.replicate 200 0))).1.wSema.count ≠ 200 := by
  rw [fifoCreate_some]
  decide

/-- C17 (as stated, refuted): `COS_FifoCreate` with `slotSize = 0`, and with
`nSlots = 0`, and a successful allocation returns 0 and marks the FIFO
initialized. -/
theorem fifo_create_zero_size_succeeds :
    (COS_FifoCreate fifoZero 0 5 (some [])).2 = 0 ∧
    (COS_FifoCreate fifoZero 0 5 (some [])).1.isInitialized = 1 ∧
    (COS_FifoCreate fifoZero 5 0 (some [])).2 = 0 ∧
    (COS_FifoCreate fifoZero 5 0 (some [])).1.isInitialized = 1 := by
  decide

/-- C17 (amended): `COS_FifoCreate` checks the allocation only.  For every
`slotSize` and `nSlots`, 0 included, it fails, returning the non-zero status
255 and leaving the initialized flag as it was, when the buffer allocation
fails; when the allocation succeeds it returns 0 and marks the FIFO as
initialized. -/
theorem fifo_create_fails_only_on_alloc (q : CosFifo_t) (slotSize nSlots : Nat) :
    ((COS_FifoCreate q slotSize nSlots none).2 = 255 ∧
     (COS_FifoCreate q slotSize nSlots none).2 ≠ 0 ∧
     (COS_FifoCreate q slotSize nSlots none).1.isInitialized = q.isInitialized) ∧
    ∀ buf, (COS_FifoCreate q slotSize nSlots (some buf)).2 = 0 ∧
      (COS_FifoCreate q slotSize nSlots (some buf)).1.isInitialized = 1 := by
  refine ⟨?_, fun buf => ?_⟩
  · rw [fifoCreate_none]; exact ⟨rfl, by simp, rfl⟩
  · rw [fifoCreate_some]; exact ⟨rfl, rfl⟩

/-! ## `COS_CreateTask` and the reserved priorities (C18) -/

/-- C18 (as stated, refuted): `COS_CreateTask` with `prio = 0`, and with
`prio = 255`, and a successful allocation returns the handle of the new task
(address 3) and puts the task into the task list of `demoKernel`. -/
theorem create_task_reserved_prio_accepted :
    (COS_CreateTask demoKernel 0 0 9 (some 3) 0).2 = some 3 ∧
    (COS_CreateTask demoKernel 0 0 9 (some 3) 0).1.root_g = [10, 11, 12, 3] ∧
    (COS_CreateTask demoKernel 255 0 9 (some 3) 0).2 = some 3 ∧
    (COS_CreateTask demoKernel 255 0 9 (some 3) 0).1.root_g = [3, 10, 11, 12] := by
  decide

/-- C18 (amended): `COS_CreateTask` checks the allocation only.  For every
`prio`, 0 and 255 included, it returns the error result `NULL` and leaves the
kernel state unchanged when the allocation of the task struct fails; when the
allocation succeeds it returns the handle of the new task, whose record
carries the priority given, and the task list is a permutation of the old
list and the new task. -/
theorem create_task_fails_only_on_alloc (k : Kernel) (prio pData func ticks : Nat) :
    COS_CreateTask k prio pData func none ticks = (k, none) ∧
    ∀ t, (COS_CreateTask k prio pData func (some t) ticks).2 = some t ∧
      t ∈ (COS_CreateTask k prio pData func (some t) ticks).1.root_g ∧
      List.Perm (COS_CreateTask k prio pData func (some t) ticks).1.root_g (t :: k.root_g) ∧
      ((COS_CreateTask k prio pData func (some t) ticks).1.mem t).prio = prio := by
  refine ⟨createTask_none k prio pData func ticks, fun t => ?_⟩
  rw [createTask_some]
  refine ⟨rfl, ?_, ?_, ?_⟩
  · exact (mem_sortLinearListPrio _ _ _).mpr (List.mem_cons_self _ _)
  · dsimp only
    exact (sortLinearListPrio_spec _ _).2.2
  · show ((TaskMem.set k.mem t _) t).prio = prio
    rw [TaskMem.set_same]

/-! ## Calls on a task that is not in the task list (C19) -/

/-- C19: for every task handle `h` that is not in the task list,
`COS_SuspendTask(h)`, `COS_ResumeTask(h)` and `COS_SetTaskPrio(h, p)` each
return the negative status -1 and leave the kernel state (the task list and
every task record, the one of `h` included) unchanged. -/
theorem calls_on_absent_task (k : Kernel) (h : TaskPtr) (p : Nat) (habsent : h ∉ k.root_g) :
    COS_SuspendTask k h = (k, -1) ∧
    COS_ResumeTask k h = (k, -1) ∧
    COS_SetTaskPrio k h p = (k, -1) ∧
    (-1 : Int) < 0 := by
  have hs : _searchTaskInList k.root_g h = none := (searchTask_eq_none _ _).mpr habsent
  refine ⟨?_, ?_, ?_, by decide⟩
  · simp [COS_SuspendTask, hs]
  · simp [COS_ResumeTask, hs]
  · simp [COS_SetTaskPrio, hs]

/-- Instance of `calls_on_absent_task`: the handle 3 is not in the task list
of `demoKernel`. -/
theorem calls_on_absent_task_witness :
    (3 : TaskPtr) ∉ demoKernel.root_g ∧
    COS_SuspendTask demoKernel 3 = (demoKernel, -1) ∧
    COS_ResumeTask demoKernel 3 = (demoKernel, -1) ∧
    COS_SetTaskPrio demoKernel 3 200 = (demoKernel, -1) ∧
    (-1 : Int) < 0 :=
  ⟨by decide, calls_on_absent_task demoKernel 3 200 (by decide)⟩

/-! ## Calls on a FIFO that is not initialized (C20) -/

/-- On a FIFO whose initialized flag is 0, `COS_FifoIsEmpty`, `COS_FifoIsFull`,
`_qWriteSingleSlot` and `_qReadSingleSlot` return -1 and `COS_FifoDestroy`
returns 255; the FIFO, the task memory and the caller's bytes are left as
they are. -/
theorem fifo_not_initialized (q : CosFifo_t) (data : List Nat) (mem : TaskMem)
    (h : q.isInitialized = 0) :
    COS_FifoDestroy q = (q, 255) ∧
    COS_FifoIsEmpty q = -1 ∧
    COS_FifoIsFull q = -1 ∧
    _qWriteSingleSlot q data mem = some { q := q, mem := mem, retval := -1 } ∧
    _qReadSingleSlot q data mem = some { q := q, data := data, mem := mem, retval := -1 } := by
  simp [COS_FifoDestroy, COS_FifoIsEmpty, COS_FifoIsFull, _qWriteSingleSlot,
    _qReadSingleSlot, h]

/-- C20 (the code at a failing input): on the FIFO `fifoZero`, which was
never created, `COS_FifoDestroy` leaves the FIFO unchanged but returns 255,
the `uint8_t` value of `return -1`, which is not negative.  The other four
operations return -1 and change neither the FIFO nor the caller's bytes. -/
theorem fifo_destroy_status_not_negative :
    COS_FifoDestroy fifoZero = (fifoZero, 255) ∧
    ¬ (((COS_FifoDestroy fifoZero).2 : Nat) : Int) < 0 ∧
    COS_FifoIsEmpty fifoZero = -1 ∧
    COS_FifoIsFull fifoZero = -1 ∧
    (_qWriteSingleSlot fifoZero [1, 2] readyMem).map (fun r => (r.q, r.retval))
      = some (fifoZero, -1) ∧
    (_qReadSingleSlot fifoZero [1, 2] readyMem).map (fun r => (r.q, r.data, r.retval))
      = some (fifoZero, [1, 2], -1) := by
  decide

/-! ## `Blocked` tasks and waiter lists (C15) -/

/-- C15 (as stated, refuted): after `COS_InitTaskList`, a task is created at
address 3, a semaphore is created with count 0 and the task blocks on it by
`COS_SEM_WAIT`; `COS_ResumeTask` then sets the task to `Ready` although it is
still in the waiter list of the semaphore. -/
theorem resume_of_blocked_task :
    ((runWorld { k := (COS_InitTaskList demoKernel (some 1) 0 (some 2) 0).1, semas := [] }
        [WorldCall.createTask 5 0 9 (some 3) 0, WorldCall.semCreate 0 0,
         WorldCall.semWait 7 0 3]).k.mem 3).state = TASK_STATE_BLOCKED ∧
    (3 : TaskPtr) ∈ (runWorld
        { k := (COS_InitTaskList demoKernel (some 1) 0 (some 2) 0).1, semas := [] }
        [WorldCall.createTask 5 0 9 (some 3) 0, WorldCall.semCreate 0 0,
         WorldCall.semWait 7 0 3, WorldCall.resume 3]).k.root_g ∧
    ((runWorld { k := (COS_InitTaskList demoKernel (some 1) 0 (some 2) 0).1, semas := [] }
        [WorldCall.createTask 5 0 9 (some 3) 0, WorldCall.semCreate 0 0,
         WorldCall.semWait 7 0 3, WorldCall.resume 3]).k.mem 3).state = TASK_STATE_READY ∧
    (runWorld { k := (COS_InitTaskList demoKernel (some 1) 0 (some 2) 0).1, semas := [] }
        [WorldCall.createTask 5 0 9 (some 3) 0, WorldCall.semCreate 0 0,
         WorldCall.semWait 7 0 3, WorldCall.resume 3]).semas
      = [{ count := -1, root_pt := [3] }] ∧
    waitingAt (runWorld
        { k := (COS_InitTaskList demoKernel (some 1) 0 (some 2) 0).1, semas := [] }
        [WorldCall.createTask 5 0 9 (some 3) 0, WorldCall.semCreate 0 0,
         WorldCall.semWait 7 0 3, WorldCall.resume 3]).semas 3 = 1 := by
  decide

theorem waiterNodes_set (t : TaskPtr) (sem' : CosSema_t) (semas : List CosSema_t) :
    ∀ (s : Nat) (sem : CosSema_t), semas[s]? = some sem →
      waiterNodes (semas.set s sem') t + sem.root_pt.count t
        = waiterNodes semas t + sem'.root_pt.count t := by
  induction semas with
  | nil => intro s sem h; simp at h
  | cons a l ih =>
    intro s sem h
    cases s with
    | zero =>
      simp only [List.getElem?_cons_zero, Option.some.injEq] at h
      subst h
      simp only [waiterNodes, List.set_cons_zero, List.map_cons, List.sum_cons]
      omega
    | succ s =>
      simp only [List.getElem?_cons_succ] at h
      have := ih s sem h
      simp only [waiterNodes, List.set_cons_succ, List.map_cons, List.sum_cons] at this ⊢
      omega

theorem waiterNodes_append (t : TaskPtr) (semas : List CosSema_t) (x : CosSema_t) :
    waiterNodes (semas ++ [x]) t = waiterNodes semas t + x.root_pt.count t := by
  simp [waiterNodes]

theorem waitingAt_of_waiterNodes (t : TaskPtr) (semas : List CosSema_t) :
    (waiterNodes semas t = 0 → waitingAt semas t = 0) ∧
    (waiterNodes semas t = 1 → waitingAt semas t = 1) := by
  induction semas with
  | nil => simp [waiterNodes, waitingAt]
  | cons a l ih =>
    simp only [waiterNodes, waitingAt, List.map_cons, List.sum_cons, List.filter_cons] at ih ⊢
    by_cases hmem : t ∈ a.root_pt
    · have hpos : 0 < a.root_pt.count t := List.count_pos_iff.mpr hmem
      simp only [hmem, decide_True, if_true, List.length_cons]
      constructor
      · intro h; omega
      · intro h
        have := ih.1 (by omega)
        omega
    · have hzero : a.root_pt.count t = 0 := List.count_eq_zero.mpr hmem
      simp only [hmem, decide_False, Bool.false_eq_true, if_false, hzero, Nat.zero_add]
      exact ih

theorem searchTask_getElem (l : List TaskPtr) (t : TaskPtr) :
    ∀ i, _searchTaskInList l t = some i → l[i]? = some t := by
  induction l with
  | nil => intro i h; simp [_searchTaskInList] at h
  | cons p rest ih =>
    intro i h
    by_cases hp : p = t
    · simp [_searchTaskInList, hp] at h
      subst h
      simp [hp]
    · simp only [_searchTaskInList, hp, if_false] at h
      cases hs : _searchTaskInList rest t with
      | none => rw [hs] at h; simp at h
      | some j =>
        rw [hs] at h
        simp at h
        subst h
        simpa using ih j hs

theorem blockedIffWaiting_congr (w w' : World) (hroot : w'.k.root_g = w.k.root_g)
    (hstate : ∀ t, (w'.k.mem t).state = (w.k.mem t).state)
    (hnodes : ∀ t, waiterNodes w'.semas t = waiterNodes w.semas t)
    (h : BlockedIffWaiting w) : BlockedIffWaiting w' := by
  unfold BlockedIffWaiting at h ⊢
  simp only [hroot, hstate, hnodes]
  exact h

theorem count_cons_eq (t pt : TaskPtr) (l : List TaskPtr) :
    List.count t (pt :: l) = List.count t l + (if pt = t then 1 else 0) := by
  simp [List.count_cons]

theorem createTask_blockedIffWaiting (w : World) (prio pData func : Nat)
    (alloc : Option TaskPtr) (ticks : Nat)
    (hadm : ∀ p, alloc = some p → p ∉ w.k.root_g) (h : BlockedIffWaiting w) :
    BlockedIffWaiting { w with k := (COS_CreateTask w.k prio pData func alloc ticks).1 } := by
  cases alloc with
  | none => rw [createTask_none]; exact h
  | some p =>
    have hfresh := hadm p rfl
    rw [createTask_some]
    obtain ⟨h1, h2⟩ := h
    refine ⟨?_, ?_⟩
    · intro t ht
      have ht' : t ∈ p :: w.k.root_g := (mem_sortLinearListPrio _ _ _).mp ht
      by_cases htp : t = p
      · right
        subst htp
        refine ⟨?_, h2 t hfresh⟩
        show ((TaskMem.set w.k.mem t _) t).state ≠ _
        rw [TaskMem.set_same]
        exact (by decide : TASK_STATE_READY ≠ TASK_STATE_BLOCKED)
      · have htr : t ∈ w.k.root_g := by
          rcases List.mem_cons.mp ht' with e | e
          · exact absurd e htp
          · exact e
        have hm : (TaskMem.set w.k.mem p
            { lastActivationTime_Ticks := ticks, sleepTime_Ticks := 0,
              state := TASK_STATE_READY, prio := prio, lineCnt := 0,
              pData := pData, func := func }) t = w.k.mem t :=
          TaskMem.set_other _ _ _ _ htp
        dsimp only
        rw [hm]
        exact h1 t htr
    · intro t ht
      apply h2
      intro htr
      exact ht ((mem_sortLinearListPrio _ _ _).mpr (List.mem_cons_of_mem _ htr))

theorem semCreate_blockedIffWaiting (w : World) (s : Nat) (n_start : Int)
    (hadm : ∀ sem, w.semas[s]? = some sem → sem.root_pt = []) (h : BlockedIffWaiting w) :
    BlockedIffWaiting ((WorldCall.semCreate s n_start).apply w) := by
  apply blockedIffWaiting_congr w _ _ _ _ h
  · simp only [WorldCall.apply]; split <;> rfl
  · intro t; simp only [WorldCall.apply]; split <;> rfl
  · intro t
    simp only [WorldCall.apply]
    split
    · rename_i hlt
      have hget : w.semas[s]? = some w.semas[s] := List.getElem?_eq_getElem hlt
      have hempty := hadm _ hget
      have := waiterNodes_set t (COS_SemCreate n_start).1 w.semas s _ hget
      simp only [hempty, COS_SemCreate, List.count_nil, Nat.add_zero] at this ⊢
      exact this
    · simp [waiterNodes_append, COS_SemCreate]

theorem semWait_blockedIffWaiting (w : World) (line s : Nat) (pt : TaskPtr)
    (hin : pt ∈ w.k.root_g) (hready : (w.k.mem pt).state = TASK_STATE_READY)
    (h : BlockedIffWaiting w) :
    BlockedIffWaiting ((WorldCall.semWait line s pt).apply w) := by
  simp only [WorldCall.apply]
  cases hget : w.semas[s]? with
  | none => exact h
  | some sem =>
    simp only []
    have hset := fun t => waiterNodes_set t (COS_SEM_WAIT line sem pt w.k.mem).sema w.semas s sem hget
    by_cases hc : sem.count ≤ 0
    · have hb := sem_wait_blocked line sem pt w.k.mem hc
      obtain ⟨h1, h2⟩ := h
      have hpt0 : waiterNodes w.semas pt = 0 := by
        rcases h1 pt hin with ⟨hs, _⟩ | ⟨_, hn⟩
        · rw [hready] at hs; exact absurd hs (by decide)
        · exact hn
      refine ⟨?_, ?_⟩
      · intro t ht
        have hst := hset t
        rw [hb.1, count_cons_eq] at hst
        by_cases htp : t = pt
        · left
          rw [htp] at hst ⊢
          simp only [if_true] at hst
          exact ⟨hb.2, by show waiterNodes (w.semas.set s _) pt = 1; omega⟩
        · have hne : pt ≠ t := fun e => htp e.symm
          simp only [hne, if_false] at hst
          have hm := sem_wait_mem_other line sem pt t w.k.mem htp
          have hn : waiterNodes (w.semas.set s (COS_SEM_WAIT line sem pt w.k.mem).sema) t
              = waiterNodes w.semas t := by omega
          dsimp only
          rw [hm, hn]
          exact h1 t ht
      · intro t ht
        have hst := hset t
        rw [hb.1, count_cons_eq] at hst
        have htp : pt ≠ t := fun e => ht (e ▸ hin)
        simp only [htp, if_false] at hst
        have := h2 t ht
        show waiterNodes (w.semas.set s _) t = 0
        omega
    · have hnb := sem_wait_not_blocked line sem pt w.k.mem hc
      refine blockedIffWaiting_congr w _ ?_ ?_ ?_ h
      · rfl
      · intro t
        by_cases htp : t = pt
        · subst htp; exact hnb.2
        · show ((COS_SEM_WAIT line sem pt w.k.mem).mem t).state = _
          rw [sem_wait_mem_other _ _ _ _ _ htp]
      · intro t
        have hst := hset t
        rw [hnb.1] at hst
        show waiterNodes (w.semas.set s _) t = _
        omega

theorem semSignal_blockedIffWaiting (w : World) (s : Nat) (h : BlockedIffWaiting w) :
    BlockedIffWaiting ((WorldCall.semSignal s).apply w) := by
  simp only [WorldCall.apply]
  cases hget : w.semas[s]? with
  | none => exact h
  | some sem =>
    simp only []
    have hset := fun t => waiterNodes_set t (COS_SEM_SIGNAL sem w.k.mem).1 w.semas s sem hget
    obtain ⟨c, ws⟩ := sem
    cases ws with
    | nil =>
      rw [sem_signal_nil] at hset ⊢
      dsimp only at hset
      refine blockedIffWaiting_congr w _ ?_ ?_ ?_ h
      · rfl
      · intro t; rfl
      intro t
      have := hset t
      simp only [List.count_nil] at this
      dsimp only
      omega
    | cons hd rest =>
      rw [sem_signal_cons] at hset ⊢
      dsimp only at hset
      obtain ⟨h1, h2⟩ := h
      have hhd : hd ∈ w.k.root_g ∧ waiterNodes w.semas hd = 1 := by
        have hst := hset hd
        rw [count_cons_eq] at hst
        simp only [if_true] at hst
        have hin : hd ∈ w.k.root_g := by
          by_contra hnot
          have := h2 hd hnot
          omega
        rcases h1 hd hin with ⟨_, hn⟩ | ⟨_, hn⟩
        · exact ⟨hin, hn⟩
        · omega
      refine ⟨?_, ?_⟩
      · intro t ht
        have hst := hset t
        rw [count_cons_eq] at hst
        by_cases hth : t = hd
        · right
          rw [hth] at hst ⊢
          simp only [if_true] at hst
          refine ⟨?_, ?_⟩
          · show ((TaskMem.set w.k.mem hd _) hd).state ≠ _
            rw [TaskMem.set_same]
            exact (by decide : TASK_STATE_READY ≠ TASK_STATE_BLOCKED)
          · have := hhd.2
            dsimp only
            omega
        · have hne : hd ≠ t := fun e => hth e.symm
          simp only [hne, if_false] at hst
          have hn : waiterNodes (w.semas.set s { count := toI8 (c + 1), root_pt := rest }) t
              = waiterNodes w.semas t := by omega
          dsimp only
          rw [TaskMem.set_other _ _ _ _ hth, hn]
          exact h1 t ht
      · intro t ht
        have hst := hset t
        have hne : hd ≠ t := fun e => ht (e ▸ hhd.1)
        rw [count_cons_eq] at hst
        simp only [hne, if_false] at hst
        have := h2 t ht
        dsimp only
        omega

theorem setNodeTaskState_blockedIffWaiting (w : World) (t0 : TaskPtr) (i st : Nat)
    (hst : st ≠ TASK_STATE_BLOCKED) (hadm : (w.k.mem t0).state ≠ TASK_STATE_BLOCKED)
    (hs : _searchTaskInList w.k.root_g t0 = some i) (h : BlockedIffWaiting w) :
    BlockedIffWaiting { w with k := setNodeTaskState w.k i st } := by
  have hnode := searchTask_getElem _ _ _ hs
  have hin : t0 ∈ w.k.root_g := by
    obtain ⟨hi, he⟩ := List.getElem?_eq_some.mp hnode
    exact he ▸ List.getElem_mem hi
  obtain ⟨h1, h2⟩ := h
  have hzero : waiterNodes w.semas t0 = 0 := by
    rcases h1 t0 hin with ⟨hb, _⟩ | ⟨_, hn⟩
    · exact absurd hb hadm
    · exact hn
  unfold setNodeTaskState
  simp only [hnode]
  refine ⟨?_, h2⟩
  intro t ht
  by_cases htt : t = t0
  · right
    subst htt
    refine ⟨?_, hzero⟩
    show ((TaskMem.set w.k.mem t _) t).state ≠ _
    rw [TaskMem.set_same]
    exact hst
  · dsimp only
    rw [TaskMem.set_other _ _ _ _ htt]
    exact h1 t ht

theorem call_blockedIffWaiting (w : World) (c : WorldCall) (hadm : c.admissible w)
    (h : BlockedIffWaiting w) : BlockedIffWaiting (c.apply w) := by
  cases c with
  | createTask prio pData func alloc ticks =>
    refine createTask_blockedIffWaiting w prio pData func alloc ticks ?_ h
    intro p hp
    subst hp
    exact hadm
  | semCreate s n_start =>
    refine semCreate_blockedIffWaiting w s n_start ?_ h
    intro sem hsem
    simp only [WorldCall.admissible, hsem] at hadm
    exact hadm
  | semWait line s pt => exact semWait_blockedIffWaiting w line s pt hadm.1 hadm.2 h
  | semSignal s => exact semSignal_blockedIffWaiting w s h
  | suspend t0 =>
    show BlockedIffWaiting { w with k := (COS_SuspendTask w.k t0).1 }
    unfold COS_SuspendTask
    cases hs : _searchTaskInList w.k.root_g t0 with
    | none => exact h
    | some i =>
      exact setNodeTaskState_blockedIffWaiting w t0 i _ (by decide) hadm hs h
  | resume t0 =>
    show BlockedIffWaiting { w with k := (COS_ResumeTask w.k t0).1 }
    unfold COS_ResumeTask
    cases hs : _searchTaskInList w.k.root_g t0 with
    | none => exact h
    | some i =>
      exact setNodeTaskState_blockedIffWaiting w t0 i _ (by decide) hadm hs h

theorem runWorld_blockedIffWaiting (cs : List WorldCall) :
    ∀ w, admissibleRun w cs → BlockedIffWaiting w → BlockedIffWaiting (runWorld w cs) := by
  induction cs with
  | nil => intro w _ h; exact h
  | cons c rest ih =>
    intro w hadm h
    exact ih _ hadm.2 (call_blockedIffWaiting w c hadm.1 h)

theorem createTask_ready (k : Kernel) (prio pData func : Nat) (alloc : Option TaskPtr)
    (ticks : Nat) (h : ∀ t ∈ k.root_g, (k.mem t).state = TASK_STATE_READY) :
    ∀ t ∈ (COS_CreateTask k prio pData func alloc ticks).1.root_g,
      ((COS_CreateTask k prio pData func alloc ticks).1.mem t).state = TASK_STATE_READY := by
  cases alloc with
  | none => rw [createTask_none]; exact h
  | some p =>
    rw [createTask_some]
    intro t ht
    have ht' : t ∈ p :: k.root_g := (mem_sortLinearListPrio _ _ _).mp ht
    dsimp only
    by_cases htp : t = p
    · rw [htp, TaskMem.set_same]
    · rw [TaskMem.set_other _ _ _ _ htp]
      rcases List.mem_cons.mp ht' with e | e
      · exact absurd e htp
      · exact h t e

theorem initTaskList_ready (k0 : Kernel) (alloc1 : Option TaskPtr) (ticks1 : Nat)
    (alloc2 : Option TaskPtr) (ticks2 : Nat) :
    ∀ t ∈ (COS_InitTaskList k0 alloc1 ticks1 alloc2 ticks2).1.root_g,
      ((COS_InitTaskList k0 alloc1 ticks1 alloc2 ticks2).1.mem t).state
        = TASK_STATE_READY := by
  intro t ht
  unfold COS_InitTaskList at ht ⊢
  dsimp only at ht ⊢
  have ht' := (mem_sortLinearListPrio _ _ _).mp ht
  refine createTask_ready _ _ _ _ alloc2 _ ?_ t ht'
  intro u hu
  refine createTask_ready _ _ _ _ alloc1 _ ?_ u hu
  intro v hv
  simp at hv

/-- C15 (amended): in every state reached from `COS_InitTaskList` by
`COS_CreateTask` (the task struct at an address not in use by a task of the
list), `COS_SemCreate` of a new semaphore or of one without waiters,
`COS_SEM_WAIT` executed by a `Ready` task of the task list, `COS_SEM_SIGNAL`,
and `COS_SuspendTask` and `COS_ResumeTask` applied to tasks that are not
`Blocked`, each task `t` of the task list is `Blocked` if and only if it
appears in the waiter list of exactly one semaphore, and it is then the
payload of exactly one waiter node. -/
theorem blocked_iff_in_one_waiter_list (k0 : Kernel) (alloc1 : Option TaskPtr)
    (ticks1 : Nat) (alloc2 : Option TaskPtr) (ticks2 : Nat) (cs : List WorldCall)
    (hadm : admissibleRun
      { k := (COS_InitTaskList k0 alloc1 ticks1 alloc2 ticks2).1, semas := [] } cs)
    (t : TaskPtr)
    (ht : t ∈ (runWorld
      { k := (COS_InitTaskList k0 alloc1 ticks1 alloc2 ticks2).1, semas := [] } cs).k.root_g) :
    (((runWorld { k := (COS_InitTaskList k0 alloc1 ticks1 alloc2 ticks2).1, semas := [] }
          cs).k.mem t).state = TASK_STATE_BLOCKED ↔
      waitingAt (runWorld
        { k := (COS_InitTaskList k0 alloc1 ticks1 alloc2 ticks2).1, semas := [] } cs).semas t
        = 1) ∧
    (((runWorld { k := (COS_InitTaskList k0 alloc1 ticks1 alloc2 ticks2).1, semas := [] }
          cs).k.mem t).state = TASK_STATE_BLOCKED ↔
      waiterNodes (runWorld
        { k := (COS_InitTaskList k0 alloc1 ticks1 alloc2 ticks2).1, semas := [] } cs).semas t
        = 1) := by
  have hinit : BlockedIffWaiting
      { k := (COS_InitTaskList k0 alloc1 ticks1 alloc2 ticks2).1, semas := [] } := by
    refine ⟨?_, fun _ _ => rfl⟩
    intro u hu
    right
    refine ⟨?_, rfl⟩
    rw [initTaskList_ready k0 alloc1 ticks1 alloc2 ticks2 u hu]
    decide
  have hinv := runWorld_blockedIffWaiting cs _ hadm hinit
  have hw := waitingAt_of_waiterNodes t (runWorld
    { k := (COS_InitTaskList k0 alloc1 ticks1 alloc2 ticks2).1, semas := [] } cs).semas
  rcases hinv.1 t ht with ⟨hb, hn⟩ | ⟨hb, hn⟩
  · exact ⟨⟨fun _ => hw.2 hn, fun _ => hb⟩, ⟨fun _ => hn, fun _ => hb⟩⟩
  · have h0 := hw.1 hn
    exact ⟨⟨fun h => absurd h hb, fun h => by omega⟩,
      ⟨fun h => absurd h hb, fun h => by omega⟩⟩

/-- Instance of `blocked_iff_in_one_waiter_list`: the tasks at the addresses
3 and 4 are created, both block on a semaphore created with count 0, the
idle task (address 1) is suspended and one signal releases task 4; task 3
is still `Blocked` and in the waiter list. -/
theorem blocked_iff_in_one_waiter_list_witness :
    (((runWorld { k := (COS_InitTaskList demoKernel (some 1) 0 (some 2) 0).1, semas := [] }
          [WorldCall.createTask 5 0 9 (some 3) 0, WorldCall.createTask 6 0 9 (some 4) 0,
           WorldCall.semCreate 0 0, WorldCall.semWait 7 0 3, WorldCall.semWait 8 0 4,
           WorldCall.suspend 1, WorldCall.semSignal 0]).k.mem 3).state
        = TASK_STATE_BLOCKED ↔
      waitingAt (runWorld
        { k := (COS_InitTaskList demoKernel (some 1) 0 (some 2) 0).1, semas := [] }
          [WorldCall.createTask 5 0 9 (some 3) 0, WorldCall.createTask 6 0 9 (some 4) 0,
           WorldCall.semCreate 0 0, WorldCall.semWait 7 0 3, WorldCall.semWait 8 0 4,
           WorldCall.suspend 1, WorldCall.semSignal 0]).semas 3 = 1) ∧
    (((runWorld { k := (COS_InitTaskList demoKernel (some 1) 0 (some 2) 0).1, semas := [] }
          [WorldCall.createTask 5 0 9 (some 3) 0, WorldCall.createTask 6 0 9 (some 4) 0,
           WorldCall.semCreate 0 0, WorldCall.semWait 7 0 3, WorldCall.semWait 8 0 4,
           WorldCall.suspend 1, WorldCall.semSignal 0]).k.mem 3).state
        = TASK_STATE_BLOCKED ↔
      waiterNodes (runWorld
        { k := (COS_InitTaskList demoKernel (some 1) 0 (some 2) 0).1, semas := [] }
          [WorldCall.createTask 5 0 9 (some 3) 0, WorldCall.createTask 6 0 9 (some 4) 0,
           WorldCall.semCreate 0 0, WorldCall.semWait 7 0 3, WorldCall.semWait 8 0 4,
           WorldCall.suspend 1, WorldCall.semSignal 0]).semas 3 = 1) :=
  blocked_iff_in_one_waiter_list demoKernel (some 1) 0 (some 2) 0
    [WorldCall.createTask 5 0 9 (some 3) 0, WorldCall.createTask 6 0 9 (some 4) 0,
     WorldCall.semCreate 0 0, WorldCall.semWait 7 0 3, WorldCall.semWait 8 0 4,
     WorldCall.suspend 1, WorldCall.semSignal 0] (by decide) 3 (by decide)

/-! ## The FIFO counters (C21) -/

theorem write_keeps_bound (q : CosFifo_t) (data : List Nat) (mem : TaskMem) (r : WriteResult)
    (hmax : q.maxSlots ≤ 255) (hused : q.usedSlots ≤ q.maxSlots)
    (h : _qWriteSingleSlot q data mem = some r) :
    r.q.maxSlots = q.maxSlots ∧ r.q.usedSlots ≤ q.maxSlots := by
  unfold _qWriteSingleSlot at h
  by_cases h0 : q.isInitialized = 0
  · rw [if_pos h0] at h
    cases h; exact ⟨rfl, hused⟩
  · rw [if_neg h0] at h
    by_cases hfull : q.usedSlots ≥ q.maxSlots
    · rw [if_pos hfull] at h
      cases h; exact ⟨rfl, hused⟩
    · rw [if_neg hfull] at h
      cases hb : q.buffer with
      | none => simp [hb] at h
      | some buf =>
        cases hc : memcpyInto buf q.wIndex data q.slotSize with
        | none => simp [hb, hc] at h
        | some buf1 =>
          by_cases hz : q.maxSlots * q.slotSize = 0
          · simp [hb, hc, hz] at h
          · simp only [hb, hc, if_neg hz, Option.some.injEq] at h
            subst h
            refine ⟨rfl, ?_⟩
            dsimp only
            unfold toU8
            omega

theorem read_keeps_bound (q : CosFifo_t) (out : List Nat) (mem : TaskMem) (r : ReadResult)
    (hmax : q.maxSlots ≤ 255) (hused : q.usedSlots ≤ q.maxSlots)
    (h : _qReadSingleSlot q out mem = some r) :
    r.q.maxSlots = q.maxSlots ∧ r.q.usedSlots ≤ q.maxSlots := by
  unfold _qReadSingleSlot at h
  by_cases h0 : q.isInitialized = 0
  · rw [if_pos h0] at h
    cases h; exact ⟨rfl, hused⟩
  · rw [if_neg h0] at h
    by_cases hempty : q.usedSlots ≤ 0
    · rw [if_pos hempty] at h
      cases h; exact ⟨rfl, hused⟩
    · rw [if_neg hempty] at h
      cases hb : q.buffer with
      | none => simp [hb] at h
      | some buf =>
        cases hc : memcpyFrom out buf q.rIndex q.slotSize with
        | none => simp [hb, hc] at h
        | some data1 =>
          by_cases hz : q.maxSlots * q.slotSize = 0
          · simp [hb, hc, hz] at h
          · simp only [hb, hc, if_neg hz, Option.some.injEq] at h
            subst h
            refine ⟨rfl, ?_⟩
            dsimp only
            unfold toU8
            omega

theorem runFifoState_keeps_bound (calls : List FifoCall) :
    ∀ (q : CosFifo_t) (mem : TaskMem) (q1 : CosFifo_t) (mem1 : TaskMem),
      q.maxSlots ≤ 255 → q.usedSlots ≤ q.maxSlots →
      runFifoState q mem calls = some (q1, mem1) →
      q1.maxSlots = q.maxSlots ∧ q1.usedSlots ≤ q.maxSlots := by
  induction calls with
  | nil =>
    intro q mem q1 mem1 _ hused h
    simp only [runFifoState, Option.some.injEq, Prod.mk.injEq] at h
    rw [← h.1]; exact ⟨rfl, hused⟩
  | cons c rest ih =>
    intro q mem q1 mem1 hmax hused h
    cases c with
    | write data =>
      cases hw : _qWriteSingleSlot q data mem with
      | none => simp [runFifoState, hw] at h
      | some r =>
        simp only [runFifoState, hw] at h
        obtain ⟨hm, hu⟩ := write_keeps_bound q data mem r hmax hused hw
        have := ih r.q r.mem q1 mem1 (by omega) (by omega) h
        rw [hm] at this
        exact this
    | read out =>
      cases hr : _qReadSingleSlot q out mem with
      | none => simp [runFifoState, hr] at h
      | some r =>
        simp only [runFifoState, hr] at h
        obtain ⟨hm, hu⟩ := read_keeps_bound q out mem r hmax hused hr
        have := ih r.q r.mem q1 mem1 (by omega) (by omega) h
        rw [hm] at this
        exact this

theorem runFifoState_isSome (calls : List FifoCall) :
    ∀ (q : CosFifo_t) (mem : TaskMem),
      (runFifoState q mem calls).isSome = (runFifo q mem calls).isSome := by
  induction calls with
  | nil => intro q mem; rfl
  | cons c rest ih =>
    intro q mem
    cases c with
    | write data =>
      cases hw : _qWriteSingleSlot q data mem with
      | none => simp [runFifoState, runFifo, hw]
      | some r => simp [runFifoState, runFifo, hw, ih]
    | read out =>
      cases hr : _qReadSingleSlot q out mem with
      | none => simp [runFifoState, runFifo, hr]
      | some r => simp [runFifoState, runFifo, hr, ih]

/-- C21: for a FIFO made by a successful `COS_FifoCreate` with `nSlots` up
to 255 (the claim's 1..255 included) and every sequence of
`_qWriteSingleSlot` / `_qReadSingleSlot` calls, the state `q` reached
satisfies `0 <= usedSlots <= nSlots`, the free-slot count
`nSlots - usedSlots` is not negative and adds up with `usedSlots` to
`nSlots`, `COS_FifoGetUsedSlots` returns `usedSlots` and
`COS_FifoGetMaxSlots` returns `nSlots`.  A state is reached whenever no call
copies outside the buffer; that is so for every sequence of calls handed
`slotSize` bytes when the buffer has `slotSize * nSlots <= 256` bytes. -/
theorem fifo_used_slots_bounded (q0 : CosFifo_t) (slotSize nSlots : Nat)
    (buf : List Nat) (mem : TaskMem) (calls : List FifoCall) (hn : nSlots ≤ 255) :
    (∀ q mem1,
      runFifoState (COS_FifoCreate q0 slotSize nSlots (some buf)).1 mem calls
        = some (q, mem1) →
      0 ≤ q.usedSlots ∧ q.usedSlots ≤ nSlots ∧
      (0 : Int) ≤ (nSlots : Int) - (q.usedSlots : Int) ∧
      (q.usedSlots : Int) + ((nSlots : Int) - (q.usedSlots : Int)) = (nSlots : Int) ∧
      COS_FifoGetUsedSlots q = q.usedSlots ∧
      COS_FifoGetMaxSlots q = nSlots) ∧
    (1 ≤ slotSize → 1 ≤ nSlots → slotSize * nSlots ≤ 256 →
      buf.length = slotSize * nSlots → (∀ c ∈ calls, c.wellFormed slotSize) →
      (runFifoState (COS_FifoCreate q0 slotSize nSlots (some buf)).1 mem calls).isSome
        = true) := by
  constructor
  · intro q mem1 hrun
    rw [fifoCreate_some] at hrun
    obtain ⟨hm, hu⟩ := runFifoState_keeps_bound calls _ mem q mem1 hn (Nat.zero_le _) hrun
    dsimp only at hm hu
    refine ⟨Nat.zero_le _, hu, by omega, by omega, rfl, hm⟩
  · intro hs hn1 hM hbuf hwf
    rw [runFifoState_isSome,
      runFifo_eq_runQueue slotSize nSlots hs hn hM calls _ [] mem
        (fifoCreate_holds q0 slotSize nSlots buf hn1 hbuf).2 hwf]
    rfl

/-- Instance of `fifo_used_slots_bounded`: two slots of two bytes; after
three writes (the third finds the FIFO full) and one read, one slot is
used. -/
theorem fifo_used_slots_bounded_witness :
    (∃ q mem1,
      runFifoState (COS_FifoCreate fifoZero 2 2 (some [0, 0, 0, 0])).1 readyMem
        [FifoCall.write [1, 2], FifoCall.write [3, 4], FifoCall.write [5, 6],
         FifoCall.read [0, 0]] = some (q, mem1) ∧
      q.usedSlots ≤ 2 ∧ COS_FifoGetUsedSlots q = 1 ∧ COS_FifoGetMaxSlots q = 2) ∧
    (runFifoState (COS_FifoCreate fifoZero 2 2 (some [0, 0, 0, 0])).1 readyMem
        [FifoCall.write [1, 2], FifoCall.write [3, 4], FifoCall.write [5, 6],
         FifoCall.read [0, 0]]).isSome = true :=
  ⟨⟨_, _, rfl,
    ((fifo_used_slots_bounded fifoZero 2 2 [0, 0, 0, 0] readyMem
      [FifoCall.write [1, 2], FifoCall.write [3, 4], FifoCall.write [5, 6],
       FifoCall.read [0, 0]] (by decide)).1 _ _ rfl).2.1,
    by decide, by decide⟩,
   (fifo_used_slots_bounded fifoZero 2 2 [0, 0, 0, 0] readyMem
      [FifoCall.write [1, 2], FifoCall.write [3, 4], FifoCall.write [5, 6],
       FifoCall.read [0, 0]] (by decide)).2
     (by decide) (by decide) (by decide) rfl (by decide)⟩



/-! ## A FIFO call that cannot proceed (C22) -/

/-- The FIFO `demoFifoFull` is the state after two writes on a fresh FIFO of
two slots of two bytes. -/
theorem demoFifoFull_reached :
    runFifoState (COS_FifoCreate fifoZero 2 2 (some [0, 0, 0, 0])).1 readyMem
        [FifoCall.write [1, 2], FifoCall.write [3, 4]]
      = some (demoFifoFull, readyMem) := by
  rfl

/-- C22: on an initialized FIFO with `usedSlots = maxSlots`,
`_qWriteSingleSlot` returns 0 and leaves the FIFO (buffer, indices,
`usedSlots`, both semaphores) and the task memory as they were; on an
initialized FIFO with `usedSlots = 0`, `_qReadSingleSlot` returns 0 and
leaves the FIFO, the task memory and the caller's bytes as they were. -/
theorem fifo_call_cannot_proceed (q : CosFifo_t) (data : List Nat) (mem : TaskMem)
    (hinit : q.isInitialized ≠ 0) :
    (q.usedSlots = q.maxSlots →
      _qWriteSingleSlot q data mem = some { q := q, mem := mem, retval := 0 }) ∧
    (q.usedSlots = 0 →
      _qReadSingleSlot q data mem
        = some { q := q, data := data, mem := mem, retval := 0 }) := by
  constructor
  · intro h
    have hfull : q.usedSlots ≥ q.maxSlots := by omega
    simp only [_qWriteSingleSlot, if_neg hinit, if_pos hfull]
  · intro h
    have hempty : q.usedSlots ≤ 0 := by omega
    simp only [_qReadSingleSlot, if_neg hinit, if_pos hempty]

/-- Instance of `fifo_call_cannot_proceed`: a write on the full FIFO
`demoFifoFull` and a read on a fresh, empty FIFO. -/
theorem fifo_call_cannot_proceed_witness :
    demoFifoFull.isInitialized ≠ 0 ∧ demoFifoFull.usedSlots = demoFifoFull.maxSlots ∧
    _qWriteSingleSlot demoFifoFull [5, 6] readyMem
      = some { q := demoFifoFull, mem := readyMem, retval := 0 } ∧
    _qReadSingleSlot (COS_FifoCreate fifoZero 2 2 (some [0, 0, 0, 0])).1 [9, 9] readyMem
      = some { q := (COS_FifoCreate fifoZero 2 2 (some [0, 0, 0, 0])).1, data := [9, 9],
               mem := readyMem, retval := 0 } :=
  ⟨by decide, rfl,
   (fifo_call_cannot_proceed demoFifoFull [5, 6] readyMem (by decide)).1 rfl,
   (fifo_call_cannot_proceed (COS_FifoCreate fifoZero 2 2 (some [0, 0, 0, 0])).1 [9, 9]
      readyMem (by decide)).2 rfl⟩



/-! ## A FIFO call that proceeds (C23) -/

/-- C23 as stated fails for the count of the signalled semaphore: on the
FIFO `demoFifoDrift` (initialized, no slot used, `rSema.count = 127`) the
write returns 1 and `rSema.count` is -128 afterwards, not 128. -/
theorem fifo_write_wraps_read_sem :
    demoFifoDrift.isInitialized ≠ 0 ∧
    demoFifoDrift.usedSlots < demoFifoDrift.maxSlots ∧
    demoFifoDrift.rSema.count = 127 ∧
    (_qWriteSingleSlot demoFifoDrift [7] readyMem).map
      (fun r => (r.retval, r.q.usedSlots, r.q.rSema.count)) = some (1, 1, -128) := by
  decide

set_option maxRecDepth 100000 in
/-- The FIFO `demoFifoDrift` is the state after 127 write and read pairs on
a fresh FIFO of one slot of one byte. -/
theorem demoFifoDrift_reached :
    runFifoState (COS_FifoCreate fifoZero 1 1 (some [0])).1 readyMem (writeReadPairs 127)
      = some (demoFifoDrift, readyMem) := by
  rfl

/-- C23 (amended): on an initialized FIFO with an allocated buffer and a
modulus `maxSlots * slotSize` other than 0, handed at least `slotSize` bytes:
with `usedSlots < maxSlots` and the slot at `wIndex` inside the buffer,
`_qWriteSingleSlot` returns 1, increments `usedSlots` by exactly one and
makes exactly one `COS_SEM_SIGNAL` on `rSema` (the count becomes `count + 1`
in `int8_t` arithmetic, so `count + 1` below 127 and -128 at 127; the head
waiter, if any, is made Ready), leaving `wSema` and `rIndex` as they were;
with `usedSlots > 0` and the slot at `rIndex` inside the buffer,
`_qReadSingleSlot` returns 1, decrements `usedSlots` by one and makes
exactly one `COS_SEM_SIGNAL` on `wSema`, leaving `rSema` and `wIndex` as they
were. -/
theorem fifo_call_proceeds (q : CosFifo_t) (data : List Nat) (mem : TaskMem)
    (buf : List Nat) (hinit : q.isInitialized ≠ 0) (hmax : q.maxSlots ≤ 255)
    (hle : q.usedSlots ≤ q.maxSlots) (hbuf : q.buffer = some buf)
    (hmod : q.maxSlots * q.slotSize ≠ 0) (hdata : q.slotSize ≤ data.length) :
    (q.usedSlots < q.maxSlots → q.wIndex + q.slotSize ≤ buf.length →
      ∃ r, _qWriteSingleSlot q data mem = some r ∧ r.retval = 1 ∧
        r.q.usedSlots = q.usedSlots + 1 ∧
        (r.q.rSema, r.mem) = COS_SEM_SIGNAL q.rSema mem ∧
        r.q.rSema.count = toI8 (q.rSema.count + 1) ∧
        (q.rSema.count < 127 → -128 ≤ q.rSema.count →
          r.q.rSema.count = q.rSema.count + 1) ∧
        (∀ t rest, q.rSema.root_pt = t :: rest →
          (r.mem t).state = TASK_STATE_READY ∧ r.q.rSema.root_pt = rest) ∧
        r.q.wSema = q.wSema ∧ r.q.rIndex = q.rIndex) ∧
    (0 < q.usedSlots → q.rIndex + q.slotSize ≤ buf.length →
      ∃ r, _qReadSingleSlot q data mem = some r ∧ r.retval = 1 ∧
        r.q.usedSlots + 1 = q.usedSlots ∧
        (r.q.wSema, r.mem) = COS_SEM_SIGNAL q.wSema mem ∧
        r.q.wSema.count = toI8 (q.wSema.count + 1) ∧
        (q.wSema.count < 127 → -128 ≤ q.wSema.count →
          r.q.wSema.count = q.wSema.count + 1) ∧
        (∀ t rest, q.wSema.root_pt = t :: rest →
          (r.mem t).state = TASK_STATE_READY ∧ r.q.wSema.root_pt = rest) ∧
        r.q.rSema = q.rSema ∧ r.q.wIndex = q.wIndex) := by
  have hsig : ∀ s : CosSema_t,
      (COS_SEM_SIGNAL s mem).1.count = toI8 (s.count + 1) ∧
      (s.count < 127 → -128 ≤ s.count → (COS_SEM_SIGNAL s mem).1.count = s.count + 1) ∧
      (∀ t rest, s.root_pt = t :: rest →
        ((COS_SEM_SIGNAL s mem).2 t).state = TASK_STATE_READY ∧
        (COS_SEM_SIGNAL s mem).1.root_pt = rest) := by
    intro s
    have hc : (COS_SEM_SIGNAL s mem).1.count = toI8 (s.count + 1) := by
      unfold COS_SEM_SIGNAL
      cases hroot : s.root_pt <;> simp [hroot]
    refine ⟨hc, ?_, ?_⟩
    · intro h1 h2
      rw [hc]
      exact toI8_of_range _ (by omega) (by omega)
    · intro t rest hroot
      unfold COS_SEM_SIGNAL
      simp only [hroot]
      exact ⟨by rw [TaskMem.set_same], unlink_head t rest⟩
  constructor
  · intro hfree hin
    have hfull : ¬ (q.usedSlots ≥ q.maxSlots) := by omega
    have hcopy : memcpyInto buf q.wIndex data q.slotSize
        = some (buf.take q.wIndex ++ data.take q.slotSize
                  ++ buf.drop (q.wIndex + q.slotSize)) := by
      unfold memcpyInto
      rw [if_pos ⟨hin, hdata⟩]
    have hres : _qWriteSingleSlot q data mem =
        some { q := { q with
                 buffer := some (buf.take q.wIndex ++ data.take q.slotSize
                                   ++ buf.drop (q.wIndex + q.slotSize)),
                 wIndex := toU8 ((toU8 ((q.wIndex : Int) + (q.slotSize : Int)) : Int)
                             % ((q.maxSlots : Int) * (q.slotSize : Int))),
                 usedSlots := toU8 ((q.usedSlots : Int) + 1),
                 rSema := (COS_SEM_SIGNAL q.rSema mem).1 },
               mem := (COS_SEM_SIGNAL q.rSema mem).2, retval := 1 } := by
      simp only [_qWriteSingleSlot, if_neg hinit, if_neg hfull, hbuf, hcopy, if_neg hmod]
    refine ⟨_, hres, ?_⟩
    · refine ⟨rfl, ?_, rfl, (hsig q.rSema).1, (hsig q.rSema).2.1, (hsig q.rSema).2.2,
        rfl, rfl⟩
      dsimp only
      unfold toU8
      omega
  · intro hpos hin
    have hempty : ¬ (q.usedSlots ≤ 0) := by omega
    have hcopy : memcpyFrom data buf q.rIndex q.slotSize
        = some ((buf.drop q.rIndex).take q.slotSize ++ data.drop q.slotSize) := by
      unfold memcpyFrom
      rw [if_pos ⟨hin, hdata⟩]
    have hres : _qReadSingleSlot q data mem =
        some { q := { q with
                 rIndex := toU8 ((toU8 ((q.rIndex : Int) + (q.slotSize : Int)) : Int)
                             % ((q.maxSlots : Int) * (q.slotSize : Int))),
                 usedSlots := toU8 ((q.usedSlots : Int) - 1),
                 wSema := (COS_SEM_SIGNAL q.wSema mem).1 },
               data := (buf.drop q.rIndex).take q.slotSize ++ data.drop q.slotSize,
               mem := (COS_SEM_SIGNAL q.wSema mem).2, retval := 1 } := by
      simp only [_qReadSingleSlot, if_neg hinit, if_neg hempty, hbuf, hcopy, if_neg hmod]
    refine ⟨_, hres, ?_⟩
    · refine ⟨rfl, ?_, rfl, (hsig q.wSema).1, (hsig q.wSema).2.1, (hsig q.wSema).2.2,
        rfl, rfl⟩
      dsimp only
      unfold toU8
      omega

/-- Instance of `fifo_call_proceeds`: a write on a fresh FIFO of two slots
of two bytes and a read on the full FIFO `demoFifoFull`. -/
theorem fifo_call_proceeds_witness :
    (∃ r, _qWriteSingleSlot (COS_FifoCreate fifoZero 2 2 (some [0, 0, 0, 0])).1 [1, 2]
            readyMem = some r ∧
      r.retval = 1 ∧ r.q.usedSlots = 1 ∧ r.q.rSema.count = 1 ∧ r.q.rIndex = 0) ∧
    (∃ r, _qReadSingleSlot demoFifoFull [0, 0] readyMem = some r ∧
      r.retval = 1 ∧ r.q.usedSlots + 1 = 2 ∧ r.q.wSema.count = 3 ∧ r.q.wIndex = 0) := by
  constructor
  · obtain ⟨r, h1, h2, h3, _, h5, _, _, _, h9⟩ :=
      (fifo_call_proceeds (COS_FifoCreate fifoZero 2 2 (some [0, 0, 0, 0])).1 [1, 2]
        readyMem [0, 0, 0, 0] (by decide) (by decide) (by decide) rfl (by decide)
        (by decide)).1 (by decide) (by decide)
    exact ⟨r, h1, h2, h3, h5.trans (by decide), h9⟩
  · obtain ⟨r, h1, h2, h3, _, h5, _, _, _, h9⟩ :=
      (fifo_call_proceeds demoFifoFull [0, 0] readyMem [1, 2, 3, 4] (by decide)
        (by decide) (by decide) rfl (by decide) (by decide)).2 (by decide) (by decide)
    exact ⟨r, h1, h2, h3, h5.trans (by decide), h9⟩

/-! ## `COS_TASK_SLEEP` with 0 ticks (C30) -/

/-- C30: `COS_TASK_SLEEP(pt, 0)` has the same effect as `COS_TASK_SCHEDULE(pt)`
expanded at the same line: `sleepTime_Ticks` is 0, `lineCnt` is that line,
every other field of the task and every other task is as before, and the
task function returns to the scheduler; and a Ready task with
`sleepTime_Ticks = 0` passes the test of the dispatch loop for every value
of the tick counter and of `lastActivationTime_Ticks`. -/
theorem sleep_zero_is_schedule (line : Nat) (mem : TaskMem) (pt : TaskPtr) :
    COS_TASK_SLEEP line mem pt 0 = COS_TASK_SCHEDULE line mem pt ∧
    (COS_TASK_SCHEDULE line mem pt).1 pt
      = { mem pt with sleepTime_Ticks := 0, lineCnt := line } ∧
    (∀ p, p ≠ pt → (COS_TASK_SCHEDULE line mem pt).1 p = mem p) ∧
    (COS_TASK_SCHEDULE line mem pt).2 = Ctl.returned ∧
    (∀ (T : CosTask_t) (now : Nat), T.state = TASK_STATE_READY →
      T.sleepTime_Ticks = 0 → timeToRun now T = true) := by
  refine ⟨rfl, ?_, ?_, rfl, ?_⟩
  · simp only [COS_TASK_SCHEDULE, TaskMem.set_same]
  · intro p hp
    simp only [COS_TASK_SCHEDULE]
    rw [TaskMem.set_other _ _ _ _ hp, TaskMem.set_other _ _ _ _ hp]
  · intro T now hst hsl
    simp [timeToRun, hst, hsl]

/-- Instance of `sleep_zero_is_schedule`: task 11 of `demoMem` at line 42;
afterwards it passes the test at tick 7 although it was last activated at
tick 65530. -/
theorem sleep_zero_is_schedule_witness :
    COS_TASK_SLEEP 42 demoMem 11 0 = COS_TASK_SCHEDULE 42 demoMem 11 ∧
    ((COS_TASK_SLEEP 42 demoMem 11 0).1 11).state = TASK_STATE_READY ∧
    ((COS_TASK_SLEEP 42 demoMem 11 0).1 11).sleepTime_Ticks = 0 ∧
    timeToRun 7 ((COS_TASK_SLEEP 42 demoMem 11 0).1 11) = true :=
  ⟨(sleep_zero_is_schedule 42 demoMem 11).1, by decide, by decide,
   (sleep_zero_is_schedule 42 demoMem 11).2.2.2.2 _ 7 (by decide) (by decide)⟩

/-! ## Unlinking a task (C28) -/

/-- C28: `_unlinkTaskFromTaskList`, and with it `COS_DeleteTask`, removes
exactly the first node whose payload is `t` (the nodes `A` in front of it and
`B` behind it keep their order); a list without `t` is left as it is; and
`COS_DeleteTask` returns 0 and changes nothing but the list in both
cases. -/
theorem unlink_removes_first_node (L : List TaskPtr) (t : TaskPtr) (k : Kernel) :
    (∀ A B, L = A ++ t :: B → t ∉ A → _unlinkTaskFromTaskList L t = A ++ B) ∧
    (t ∉ L → _unlinkTaskFromTaskList L t = L) ∧
    COS_DeleteTask k t
      = ({ k with root_g := _unlinkTaskFromTaskList k.root_g t }, 0) ∧
    (t ∉ k.root_g → COS_DeleteTask k t = (k, 0)) := by
  refine ⟨?_, ?_, rfl, ?_⟩
  · intro A B hL hA
    rw [unlink_eq_erase, hL, List.erase_append_right _ hA, List.erase_cons_head]
  · intro h
    rw [unlink_eq_erase, List.erase_of_not_mem h]
  · intro h
    simp only [COS_DeleteTask]
    rw [unlink_eq_erase, List.erase_of_not_mem h]

/-- Instance of `unlink_removes_first_node`: of the two nodes for task 11 in
the list 10, 11, 12, 11 only the first is unlinked, and unlinking the absent
task 13 changes nothing. -/
theorem unlink_removes_first_node_witness :
    _unlinkTaskFromTaskList [10, 11, 12, 11] 11 = [10, 12, 11] ∧
    _unlinkTaskFromTaskList [10, 11, 12, 11] 13 = [10, 11, 12, 11] ∧
    COS_DeleteTask demoKernel 13 = (demoKernel, 0) :=
  ⟨(unlink_removes_first_node [10, 11, 12, 11] 11 demoKernel).1 [10] [12, 11] rfl
      (by decide),
   (unlink_removes_first_node [10, 11, 12, 11] 13 demoKernel).2.1 (by decide),
   (unlink_removes_first_node [10, 11, 12, 11] 13 demoKernel).2.2.2 (by decide)⟩



/-! ## The CPU load estimate (C24, C25) -/

theorem idleTask_load (k : Kernel) (pt : TaskPtr) :
    (_idleTask k pt).cpuLoadPerCent_g = k.cpuLoadPerCent_g ∧
    (_idleTask k pt).cpuLoadCounter_g ≤ k.cpuLoadCounter_g := by
  unfold _idleTask
  by_cases he : COS_TASK_BEGIN k.mem pt = 0 ∨ COS_TASK_BEGIN k.mem pt = idleTaskSleepLine
  · simp only [if_pos he]
    by_cases hc : k.cpuLoadCounter_g > 0
    · simp only [if_pos hc]
      refine ⟨trivial, ?_⟩
      show toU8 _ ≤ _
      unfold toU8
      omega
    · simp only [if_neg hc]
      exact ⟨trivial, Nat.le_refl _⟩
  · simp only [if_neg he]
    exact ⟨rfl, Nat.le_refl _⟩

theorem cpuLoadMeasureTask_load (k : Kernel) (pt : TaskPtr) :
    ((_cpuLoadMeasureTask k pt).cpuLoadPerCent_g = k.cpuLoadCounter_g ∧
     (_cpuLoadMeasureTask k pt).cpuLoadCounter_g = 100) ∨
    ((_cpuLoadMeasureTask k pt).cpuLoadPerCent_g = k.cpuLoadPerCent_g ∧
     (_cpuLoadMeasureTask k pt).cpuLoadCounter_g = k.cpuLoadCounter_g) := by
  unfold _cpuLoadMeasureTask
  by_cases he : COS_TASK_BEGIN k.mem pt = 0 ∨
      COS_TASK_BEGIN k.mem pt = cpuLoadMeasureTaskSleepLine
  · simp only [if_pos he]
    exact Or.inl ⟨trivial, trivial⟩
  · simp only [if_neg he]
    exact Or.inr ⟨rfl, rfl⟩

theorem runLoad_bound (runs : List LoadRun) :
    ∀ k : Kernel, k.cpuLoadCounter_g ≤ 100 → k.cpuLoadPerCent_g ≤ 100 →
      (runLoad k runs).cpuLoadCounter_g ≤ 100 ∧ (runLoad k runs).cpuLoadPerCent_g ≤ 100 := by
  induction runs with
  | nil => intro k hc hp; exact ⟨hc, hp⟩
  | cons r rest ih =>
    intro k hc hp
    simp only [runLoad]
    cases r with
    | idle pt =>
      have h := idleTask_load k pt
      apply ih
      · show (_idleTask k pt).cpuLoadCounter_g ≤ 100
        omega
      · show (_idleTask k pt).cpuLoadPerCent_g ≤ 100
        omega
    | measure pt =>
      have h := cpuLoadMeasureTask_load k pt
      apply ih
      · show (_cpuLoadMeasureTask k pt).cpuLoadCounter_g ≤ 100
        omega
      · show (_cpuLoadMeasureTask k pt).cpuLoadPerCent_g ≤ 100
        omega

/-- C24: starting from the initial values of the module variables
(`cpuLoadCounter_g = cpuLoadPerCent_g = 100`), after any sequence of calls
of `_idleTask` and `_cpuLoadMeasureTask` the value returned by
`COS_GetCPULoadInPercent` is in `[0, 100]` (and is `cpuLoadPerCent_g`), and
the counter is in `[0, 100]`. -/
theorem cpu_load_bounded (k : Kernel) (runs : List LoadRun)
    (hc : k.cpuLoadCounter_g = 100) (hp : k.cpuLoadPerCent_g = 100) :
    0 ≤ COS_GetCPULoadInPercent (runLoad k runs) ∧
    COS_GetCPULoadInPercent (runLoad k runs) ≤ 100 ∧
    COS_GetCPULoadInPercent (runLoad k runs) = ((runLoad k runs).cpuLoadPerCent_g : Int) ∧
    0 ≤ (runLoad k runs).cpuLoadCounter_g ∧
    (runLoad k runs).cpuLoadCounter_g ≤ 100 := by
  obtain ⟨h1, h2⟩ := runLoad_bound runs k (by omega) (by omega)
  have hget : COS_GetCPULoadInPercent (runLoad k runs)
      = ((runLoad k runs).cpuLoadPerCent_g : Int) := by
    unfold COS_GetCPULoadInPercent
    exact toI8_of_range _ (by omega) (by omega)
  refine ⟨?_, ?_, hget, Nat.zero_le _, h1⟩
  · rw [hget]; omega
  · rw [hget]; omega

/-- Instance of `cpu_load_bounded`: from `demoKernel`, three calls of
`_idleTask` on task 12 and then one of `_cpuLoadMeasureTask` on task 11
publish a load of 97. -/
theorem cpu_load_bounded_witness :
    demoKernel.cpuLoadCounter_g = 100 ∧ demoKernel.cpuLoadPerCent_g = 100 ∧
    COS_GetCPULoadInPercent (runLoad demoKernel
      [LoadRun.idle 12, LoadRun.idle 12, LoadRun.idle 12, LoadRun.measure 11]) = 97 ∧
    COS_GetCPULoadInPercent (runLoad demoKernel
      [LoadRun.idle 12, LoadRun.idle 12, LoadRun.idle 12, LoadRun.measure 11]) ≤ 100 :=
  ⟨rfl, rfl, by decide,
   (cpu_load_bounded demoKernel
      [LoadRun.idle 12, LoadRun.idle 12, LoadRun.idle 12, LoadRun.measure 11] rfl rfl).2.1⟩



theorem idle_period_ticks : toU16 (IDLE_TASK_PERIOD_TICKS : Int) = 10 := by decide

theorem load_measure_period_ticks : toU16 (LOAD_MEASURE_TASK_PERIOD_TICKS : Int) = 1000 := by
  decide

theorem task_sleep_same (line : Nat) (mem : TaskMem) (pt : TaskPtr) (t : Int) :
    (COS_TASK_SLEEP line mem pt t).1 pt
      = { mem pt with sleepTime_Ticks := toU16 t, lineCnt := line } := by
  simp only [COS_TASK_SLEEP, TaskMem.set_same]

theorem task_sleep_other (line : Nat) (mem : TaskMem) (pt p : TaskPtr) (t : Int)
    (h : p ≠ pt) : (COS_TASK_SLEEP line mem pt t).1 p = mem p := by
  simp only [COS_TASK_SLEEP]
  rw [TaskMem.set_other _ _ _ _ h, TaskMem.set_other _ _ _ _ h]

theorem idleTask_run (k : Kernel) (pt : TaskPtr) (hc : k.cpuLoadCounter_g ≤ 255)
    (he : (k.mem pt).lineCnt = 0 ∨ (k.mem pt).lineCnt = idleTaskSleepLine) :
    (_idleTask k pt).cpuLoadCounter_g = k.cpuLoadCounter_g - 1 ∧
    (_idleTask k pt).cpuLoadPerCent_g = k.cpuLoadPerCent_g ∧
    (_idleTask k pt).root_g = k.root_g ∧
    (_idleTask k pt).mem pt
      = { k.mem pt with sleepTime_Ticks := 10, lineCnt := idleTaskSleepLine } ∧
    (∀ p, p ≠ pt → (_idleTask k pt).mem p = k.mem p) := by
  have he1 : COS_TASK_BEGIN k.mem pt = 0 ∨ COS_TASK_BEGIN k.mem pt = idleTaskSleepLine := he
  unfold _idleTask
  simp only [if_pos he1]
  by_cases h0 : k.cpuLoadCounter_g > 0
  · simp only [if_pos h0]
    refine ⟨?_, trivial, trivial, ?_, ?_⟩
    · show toU8 _ = _
      unfold toU8
      omega
    · show (COS_TASK_SLEEP _ _ _ _).1 pt = _
      rw [task_sleep_same, idle_period_ticks]
    · intro p hp
      exact task_sleep_other _ _ _ _ _ hp
  · simp only [if_neg h0]
    refine ⟨?_, trivial, trivial, ?_, ?_⟩
    · show k.cpuLoadCounter_g = _
      omega
    · show (COS_TASK_SLEEP _ _ _ _).1 pt = _
      rw [task_sleep_same, idle_period_ticks]
    · intro p hp
      exact task_sleep_other _ _ _ _ _ hp

theorem cpuLoadMeasureTask_run (k : Kernel) (pt : TaskPtr)
    (he : (k.mem pt).lineCnt = 0 ∨ (k.mem pt).lineCnt = cpuLoadMeasureTaskSleepLine) :
    (_cpuLoadMeasureTask k pt).cpuLoadPerCent_g = k.cpuLoadCounter_g ∧
    (_cpuLoadMeasureTask k pt).cpuLoadCounter_g = 100 ∧
    (_cpuLoadMeasureTask k pt).root_g = k.root_g ∧
    (_cpuLoadMeasureTask k pt).mem pt
      = { k.mem pt with sleepTime_Ticks := 1000,
                        lineCnt := cpuLoadMeasureTaskSleepLine } ∧
    (∀ p, p ≠ pt → (_cpuLoadMeasureTask k pt).mem p = k.mem p) := by
  have he1 : COS_TASK_BEGIN k.mem pt = 0 ∨
      COS_TASK_BEGIN k.mem pt = cpuLoadMeasureTaskSleepLine := he
  unfold _cpuLoadMeasureTask
  simp only [if_pos he1]
  refine ⟨trivial, trivial, trivial, ?_, ?_⟩
  · show (COS_TASK_SLEEP _ _ _ _).1 pt = _
    rw [task_sleep_same, load_measure_period_ticks]
  · intro p hp
    exact task_sleep_other _ _ _ _ _ hp

theorem idleRuns_run (pt : TaskPtr) (n : Nat) :
    ∀ k : Kernel, k.cpuLoadCounter_g ≤ 255 →
      ((k.mem pt).lineCnt = 0 ∨ (k.mem pt).lineCnt = idleTaskSleepLine) →
      (idleRuns pt n k).cpuLoadCounter_g = k.cpuLoadCounter_g - n ∧
      (idleRuns pt n k).cpuLoadPerCent_g = k.cpuLoadPerCent_g ∧
      (idleRuns pt n k).root_g = k.root_g ∧
      (0 < n → (idleRuns pt n k).mem pt
        = { k.mem pt with sleepTime_Ticks := 10, lineCnt := idleTaskSleepLine }) ∧
      (∀ p, p ≠ pt → (idleRuns pt n k).mem p = k.mem p) := by
  induction n with
  | zero =>
    intro k _ _
    exact ⟨rfl, rfl, rfl, fun h => absurd h (Nat.lt_irrefl 0), fun _ _ => rfl⟩
  | succ n ih =>
    intro k hc he
    obtain ⟨h1, h2, h3, h4, h5⟩ := idleTask_run k pt hc he
    have he2 : ((_idleTask k pt).mem pt).lineCnt = 0 ∨
        ((_idleTask k pt).mem pt).lineCnt = idleTaskSleepLine := by
      rw [h4]; exact Or.inr rfl
    obtain ⟨i1, i2, i3, i4, i5⟩ := ih (_idleTask k pt) (by omega) he2
    simp only [idleRuns]
    refine ⟨by omega, by rw [i2, h2], by rw [i3, h3], ?_, ?_⟩
    · intro _
      rcases Nat.eq_zero_or_pos n with hn | hn
      · subst hn
        exact h4
      · rw [i4 hn, h4]
    · intro p hp
      rw [i5 p hp, h5 p hp]

/-- C25: after a call of `_cpuLoadMeasureTask`, `n` calls of `_idleTask`
and a second call of `_cpuLoadMeasureTask` (the idle task `pIdle` and the
load task `pLoad` being two tasks at their start or behind their
`COS_TASK_SLEEP`), `cpuLoadPerCent_g` and the value returned by
`COS_GetCPULoadInPercent` are `max(0, 100 - n)`, so 0 for `n >= 100` and 100
for `n = 0`, and the counter is 100 again; every call of `_idleTask` asks
for a sleep of 10 ticks and every call of `_cpuLoadMeasureTask` for one of
1000 ticks. -/
theorem cpu_load_after_idle_runs (k : Kernel) (pIdle pLoad : TaskPtr) (n : Nat)
    (hne : pIdle ≠ pLoad)
    (hIdle : (k.mem pIdle).lineCnt = 0 ∨ (k.mem pIdle).lineCnt = idleTaskSleepLine)
    (hLoad : (k.mem pLoad).lineCnt = 0 ∨
      (k.mem pLoad).lineCnt = cpuLoadMeasureTaskSleepLine) :
    ((_cpuLoadMeasureTask (idleRuns pIdle n (_cpuLoadMeasureTask k pLoad)) pLoad
        ).cpuLoadPerCent_g : Int) = max 0 (100 - (n : Int)) ∧
    COS_GetCPULoadInPercent
      (_cpuLoadMeasureTask (idleRuns pIdle n (_cpuLoadMeasureTask k pLoad)) pLoad)
      = max 0 (100 - (n : Int)) ∧
    (_cpuLoadMeasureTask (idleRuns pIdle n (_cpuLoadMeasureTask k pLoad)) pLoad
      ).cpuLoadCounter_g = 100 ∧
    ((_cpuLoadMeasureTask (idleRuns pIdle n (_cpuLoadMeasureTask k pLoad)) pLoad
      ).mem pLoad).sleepTime_Ticks = 1000 ∧
    (∀ m, m < n →
      ((_idleTask (idleRuns pIdle m (_cpuLoadMeasureTask k pLoad)) pIdle
        ).mem pIdle).sleepTime_Ticks = 10) := by
  obtain ⟨a1, a2, _, a4, a5⟩ := cpuLoadMeasureTask_run k pLoad hLoad
  have hIdle1 : ((_cpuLoadMeasureTask k pLoad).mem pIdle).lineCnt = 0 ∨
      ((_cpuLoadMeasureTask k pLoad).mem pIdle).lineCnt = idleTaskSleepLine := by
    rw [a5 pIdle hne]; exact hIdle
  have hruns : ∀ m, (idleRuns pIdle m (_cpuLoadMeasureTask k pLoad)).cpuLoadCounter_g
        = 100 - m ∧
      (((idleRuns pIdle m (_cpuLoadMeasureTask k pLoad)).mem pLoad).lineCnt = 0 ∨
       ((idleRuns pIdle m (_cpuLoadMeasureTask k pLoad)).mem pLoad).lineCnt
         = cpuLoadMeasureTaskSleepLine) ∧
      (((idleRuns pIdle m (_cpuLoadMeasureTask k pLoad)).mem pIdle).lineCnt = 0 ∨
       ((idleRuns pIdle m (_cpuLoadMeasureTask k pLoad)).mem pIdle).lineCnt
         = idleTaskSleepLine) := by
    intro m
    obtain ⟨b1, _, _, b4, b5⟩ :=
      idleRuns_run pIdle m (_cpuLoadMeasureTask k pLoad) (by omega) hIdle1
    refine ⟨by rw [b1, a2], ?_, ?_⟩
    · rw [b5 pLoad (Ne.symm hne), a4]; exact Or.inr rfl
    · rcases Nat.eq_zero_or_pos m with hm | hm
      · subst hm; exact hIdle1
      · rw [b4 hm]; exact Or.inr rfl
  obtain ⟨c1, c2, _, c4, _⟩ :=
    cpuLoadMeasureTask_run (idleRuns pIdle n (_cpuLoadMeasureTask k pLoad)) pLoad
      (hruns n).2.1
  have hper : ((_cpuLoadMeasureTask (idleRuns pIdle n (_cpuLoadMeasureTask k pLoad)) pLoad
        ).cpuLoadPerCent_g : Int) = max 0 (100 - (n : Int)) := by
    rw [c1, (hruns n).1]
    omega
  refine ⟨hper, ?_, c2, by rw [c4], ?_⟩
  · unfold COS_GetCPULoadInPercent
    rw [toI8_of_range _ (by omega) (by omega)]
    exact hper
  · intro m _
    obtain ⟨_, _, _, d4, _⟩ :=
      idleTask_run (idleRuns pIdle m (_cpuLoadMeasureTask k pLoad)) pIdle
        (by rw [(hruns m).1]; omega) (hruns m).2.2
    rw [d4]

/-- Instance of `cpu_load_after_idle_runs`: with task 12 of `demoKernel` as
the idle task and task 11 as the load task, 30 calls of `_idleTask` between
two calls of `_cpuLoadMeasureTask` give a load of 70. -/
theorem cpu_load_after_idle_runs_witness :
    (12 : TaskPtr) ≠ 11 ∧
    COS_GetCPULoadInPercent
      (_cpuLoadMeasureTask (idleRuns 12 30 (_cpuLoadMeasureTask demoKernel 11)) 11)
      = max 0 (100 - ((30 : Nat) : Int)) ∧
    max 0 (100 - ((30 : Nat) : Int)) = (70 : Int) :=
  ⟨by decide,
   (cpu_load_after_idle_runs demoKernel 12 11 30 (by decide) (Or.inl rfl) (Or.inl rfl)).2.1,
   by decide⟩



/-! ## Inserting a task into the sorted list (C26, C27) -/

theorem sortPassFrom_insert (mem : TaskMem) (t : TaskPtr) (l : List TaskPtr)
    (hs : prioSorted mem l) :
    (sortPassFrom mem t l).1
      = l.takeWhile (fun u => decide ((mem t).prio < (mem u).prio))
        ++ t :: l.dropWhile (fun u => decide ((mem t).prio < (mem u).prio)) := by
  induction l with
  | nil => rfl
  | cons y rest ih =>
    by_cases h : (mem t).prio < (mem y).prio
    · have hrest : prioSorted mem rest := (List.chain'_cons'.mp hs).2
      simp only [sortPassFrom, if_pos h, List.takeWhile_cons, List.dropWhile_cons,
        decide_eq_true h, if_true, ih hrest, List.cons_append]
    · simp only [sortPassFrom, if_neg h, List.takeWhile_cons, List.dropWhile_cons,
        decide_eq_false h, List.nil_append]
      rw [sortPassFrom_of_sorted mem rest y hs]
      rfl

theorem sort_cons_insert (mem : TaskMem) (t : TaskPtr) (l : List TaskPtr)
    (hs : prioSorted mem l) :
    _sortLinearListPrio mem (t :: l)
      = l.takeWhile (fun u => decide ((mem t).prio < (mem u).prio))
        ++ t :: l.dropWhile (fun u => decide ((mem t).prio < (mem u).prio)) := by
  have hspec := (sortLinearListPrio_spec mem (t :: l)).1
  have hsorted : prioSorted mem (sortPass mem (t :: l)).1 := sortPassFrom_sorted mem l t hs
  rw [sortLoop_of_sorted_pass mem _ _ _ hsorted hspec]
  exact sortPassFrom_insert mem t l hs

theorem takeWhile_congr_mem {α : Type} (l : List α) (f g : α → Bool)
    (h : ∀ u ∈ l, f u = g u) : l.takeWhile f = l.takeWhile g := by
  induction l with
  | nil => rfl
  | cons y rest ih =>
    have hy := h y (List.mem_cons_self _ _)
    have hr := ih (fun u hu => h u (List.mem_cons_of_mem _ hu))
    simp only [List.takeWhile_cons, hy, hr]

theorem dropWhile_congr_mem {α : Type} (l : List α) (f g : α → Bool)
    (h : ∀ u ∈ l, f u = g u) : l.dropWhile f = l.dropWhile g := by
  induction l with
  | nil => rfl
  | cons y rest ih =>
    have hy := h y (List.mem_cons_self _ _)
    have hr := ih (fun u hu => h u (List.mem_cons_of_mem _ hu))
    simp only [List.dropWhile_cons, hy, hr]

theorem prioSorted_set_fresh (mem : TaskMem) (t : TaskPtr) (v : CosTask_t)
    (l : List TaskPtr) (hs : prioSorted mem l) (hfresh : t ∉ l) :
    prioSorted (mem.set t v) l := by
  rw [prioSorted_iff_pairwise] at hs ⊢
  refine List.Pairwise.imp_of_mem ?_ hs
  intro a b ha hb hab
  have hat : a ≠ t := fun e => hfresh (e ▸ ha)
  have hbt : b ≠ t := fun e => hfresh (e ▸ hb)
  simp only [TaskMem.set, hat, hbt, if_false]
  exact hab

theorem createTask_list (k : Kernel) (p pData func : Nat) (t : TaskPtr) (ticks : Nat)
    (hsorted : prioSorted k.mem k.root_g) (hfresh : t ∉ k.root_g) :
    (COS_CreateTask k p pData func (some t) ticks).1.root_g
      = k.root_g.takeWhile (fun u => decide (p < (k.mem u).prio))
        ++ t :: k.root_g.dropWhile (fun u => decide (p < (k.mem u).prio)) := by
  rw [createTask_some]
  dsimp only
  have hmem : ∀ u ∈ k.root_g,
      (k.mem.set t
        { lastActivationTime_Ticks := ticks, sleepTime_Ticks := 0,
          state := TASK_STATE_READY, prio := p, lineCnt := 0,
          pData := pData, func := func }) u = k.mem u := by
    intro u hu
    exact TaskMem.set_other _ _ _ _ (fun h => hfresh (h ▸ hu))
  have hs1 : prioSorted
      (k.mem.set t
        { lastActivationTime_Ticks := ticks, sleepTime_Ticks := 0,
          state := TASK_STATE_READY, prio := p, lineCnt := 0,
          pData := pData, func := func }) k.root_g :=
    prioSorted_set_fresh _ _ _ _ hsorted hfresh
  rw [sort_cons_insert _ t _ hs1, TaskMem.set_same]
  have hf : ∀ u ∈ k.root_g,
      decide (p < ((k.mem.set t
        { lastActivationTime_Ticks := ticks, sleepTime_Ticks := 0,
          state := TASK_STATE_READY, prio := p, lineCnt := 0,
          pData := pData, func := func }) u).prio) = decide (p < (k.mem u).prio) := by
    intro u hu
    rw [hmem u hu]
  rw [takeWhile_congr_mem _ _ _ hf, dropWhile_congr_mem _ _ _ hf]


theorem dropWhile_head_false {α : Type} (f : α → Bool) (l : List α) :
    ∀ y rest, l.dropWhile f = y :: rest → f y = false := by
  induction l with
  | nil => intro y rest h; simp at h
  | cons a l ih =>
    intro y rest h
    by_cases ha : f a = true
    · rw [List.dropWhile_cons, if_pos ha] at h
      exact ih y rest h
    · rw [List.dropWhile_cons, if_neg ha] at h
      have hya : a = y := (List.cons.inj h).1
      rw [← hya]
      simpa using ha

/-- C27: for every priority `p` and priority-sorted task list `L`, a
successful `COS_CreateTask(p, data, body)` (returning the newly allocated
record `t`, which is not a payload of `L`) leaves in `t` the state Ready,
`sleepTime_Ticks` 0, `lineCnt` 0, the priority `p` and the given data and
task function, leaves the records of `L` as they were, and the resulting list
is `L` with `t` inserted immediately before the first task whose priority is
`<= p`: every task in front of `t` has a priority above `p`, the task right
behind `t`, if any, has a priority `<= p`, and the tasks of `L` keep their
order. -/
theorem create_task_inserts_by_priority (k : Kernel) (p pData func : Nat) (t : TaskPtr)
    (ticks : Nat) (hsorted : prioSorted k.mem k.root_g) (hfresh : t ∉ k.root_g) :
    (COS_CreateTask k p pData func (some t) ticks).2 = some t ∧
    (COS_CreateTask k p pData func (some t) ticks).1.mem t
      = { lastActivationTime_Ticks := ticks, sleepTime_Ticks := 0,
          state := TASK_STATE_READY, prio := p, lineCnt := 0,
          pData := pData, func := func } ∧
    (∀ u ∈ k.root_g, (COS_CreateTask k p pData func (some t) ticks).1.mem u = k.mem u) ∧
    (COS_CreateTask k p pData func (some t) ticks).1.root_g
      = k.root_g.takeWhile (fun u => decide (p < (k.mem u).prio))
        ++ t :: k.root_g.dropWhile (fun u => decide (p < (k.mem u).prio)) ∧
    k.root_g.takeWhile (fun u => decide (p < (k.mem u).prio))
        ++ k.root_g.dropWhile (fun u => decide (p < (k.mem u).prio)) = k.root_g ∧
    (∀ u ∈ k.root_g.takeWhile (fun u => decide (p < (k.mem u).prio)),
      p < (k.mem u).prio) ∧
    (∀ y rest, k.root_g.dropWhile (fun u => decide (p < (k.mem u).prio)) = y :: rest →
      (k.mem y).prio ≤ p) := by
  refine ⟨by rw [createTask_some], ?_, ?_,
    createTask_list k p pData func t ticks hsorted hfresh,
    List.takeWhile_append_dropWhile _ _, ?_, ?_⟩
  · rw [createTask_some]
    exact TaskMem.set_same _ _ _
  · intro u hu
    rw [createTask_some]
    exact TaskMem.set_other _ _ _ _ (fun h => hfresh (h ▸ hu))
  · intro u hu
    have := List.mem_takeWhile_imp hu
    simpa using this
  · intro y rest h
    have := dropWhile_head_false _ _ y rest h
    simpa using this

/-- Instance of `create_task_inserts_by_priority`: a task of priority 5 is
created at address 3 in `demoKernel` (task list 10, 11, 12 of priorities 9,
5, 1): it is put in front of task 11, which has the same priority. -/
theorem create_task_inserts_by_priority_witness :
    (3 : TaskPtr) ∉ demoKernel.root_g ∧
    (COS_CreateTask demoKernel 5 0 9 (some 3) 0).1.root_g
      = [10] ++ 3 :: [11, 12] :=
  ⟨by decide,
   (create_task_inserts_by_priority demoKernel 5 0 9 3 0
      (List.Chain'.cons (by decide) (List.Chain'.cons (by decide)
        (List.chain'_singleton 12)))
      (by decide)).2.2.2.1.trans (by decide)⟩

theorem sort_single (mem : TaskMem) (a : TaskPtr) : _sortLinearListPrio mem [a] = [a] := by
  rw [sort_cons_insert mem a [] List.chain'_nil]
  rfl

theorem sort_pair (mem : TaskMem) (a b : TaskPtr) (h : (mem a).prio ≥ (mem b).prio) :
    _sortLinearListPrio mem [a, b] = [a, b] := by
  rw [sort_cons_insert mem a [b] (List.chain'_singleton b)]
  have hf : ¬ (mem a).prio < (mem b).prio := by omega
  simp [List.takeWhile_cons, List.dropWhile_cons, hf]

/-- C26: when the allocation of the idle task fails, `COS_InitTaskList`
returns 0, the value its doc comment gives for ok, although the task list
holds the load-measure task only and the idle task pointer is `NULL`; the
task list does not consist of the two tasks. -/
theorem init_task_list_without_idle_task :
    (COS_InitTaskList demoKernel none 0 (some 21) 0).2 = 0 ∧
    (COS_InitTaskList demoKernel none 0 (some 21) 0).1.root_g = [21] ∧
    (COS_InitTaskList demoKernel none 0 (some 21) 0).1.idleTask_pt_g = none := by
  decide

/-- `COS_InitTaskList` with both allocations successful (giving the records
`pIdle` and `pLoad`): whatever the task list held before, the task list is
the load-measure task (priority 255) followed by the idle task (priority 0),
both Ready with `sleepTime_Ticks` 0 and `lineCnt` 0, and the function
returns 0. -/
theorem init_task_list_result (k : Kernel) (pIdle pLoad : TaskPtr) (ticks1 ticks2 : Nat)
    (hne : pIdle ≠ pLoad) :
    (COS_InitTaskList k (some pIdle) ticks1 (some pLoad) ticks2).2 = 0 ∧
    (COS_InitTaskList k (some pIdle) ticks1 (some pLoad) ticks2).1.root_g
      = [pLoad, pIdle] ∧
    (COS_InitTaskList k (some pIdle) ticks1 (some pLoad) ticks2).1.mem pLoad
      = { lastActivationTime_Ticks := ticks2, sleepTime_Ticks := 0,
          state := TASK_STATE_READY, prio := 255, lineCnt := 0,
          pData := 0, func := cpuLoadMeasureTaskFunc } ∧
    (COS_InitTaskList k (some pIdle) ticks1 (some pLoad) ticks2).1.mem pIdle
      = { lastActivationTime_Ticks := ticks1, sleepTime_Ticks := 0,
          state := TASK_STATE_READY, prio := 0, lineCnt := 0,
          pData := 0, func := idleTaskFunc } := by
  have hmemL : (COS_InitTaskList k (some pIdle) ticks1 (some pLoad) ticks2).1.mem pLoad
      = { lastActivationTime_Ticks := ticks2, sleepTime_Ticks := 0,
          state := TASK_STATE_READY, prio := 255, lineCnt := 0,
          pData := 0, func := cpuLoadMeasureTaskFunc } := by
    simp only [COS_InitTaskList, createTask_some]
    exact TaskMem.set_same _ _ _
  have hmemI : (COS_InitTaskList k (some pIdle) ticks1 (some pLoad) ticks2).1.mem pIdle
      = { lastActivationTime_Ticks := ticks1, sleepTime_Ticks := 0,
          state := TASK_STATE_READY, prio := 0, lineCnt := 0,
          pData := 0, func := idleTaskFunc } := by
    simp only [COS_InitTaskList, createTask_some]
    rw [TaskMem.set_other _ _ _ _ hne]
    exact TaskMem.set_same _ _ _
  refine ⟨rfl, ?_, hmemL, hmemI⟩
  have hprio : ((COS_InitTaskList k (some pIdle) ticks1 (some pLoad) ticks2).1.mem pLoad).prio
      ≥ ((COS_InitTaskList k (some pIdle) ticks1 (some pLoad) ticks2).1.mem pIdle).prio := by
    rw [hmemL, hmemI]
    exact Nat.zero_le _
  simp only [COS_InitTaskList, createTask_some] at hprio ⊢
  rw [sort_single, sort_pair _ _ _ hprio, sort_pair _ _ _ hprio]

/-- Instance of `init_task_list_result`: on `demoKernel`, with the idle task
allocated at 20 and the load-measure task at 21. -/
theorem init_task_list_result_witness :
    (20 : TaskPtr) ≠ 21 ∧
    (COS_InitTaskList demoKernel (some 20) 0 (some 21) 0).1.root_g = [21, 20] ∧
    (COS_InitTaskList demoKernel (some 20) 0 (some 21) 0).2 = 0 :=
  ⟨by decide, (init_task_list_result demoKernel 20 21 0 0 (by decide)).2.1,
   (init_task_list_result demoKernel 20 21 0 0 (by decide)).1⟩



/-! ## The end of a task function (C29) -/

theorem schedulerIteration_absent {α : Type}
    (body : Nat → TaskPtr → Kernel × α → Kernel × α) (t : TaskPtr)
    (hbody : ∀ f u ka, t ∉ ka.1.root_g → t ∉ (body f u ka).1.root_g)
    (millis : Nat) (s s1 : Sched α) (called : Option TaskPtr)
    (habs : t ∉ s.k.root_g)
    (h : schedulerIteration body millis s = some (s1, called)) :
    t ∉ s1.k.root_g ∧ t ∉ called.toList := by
  unfold schedulerIteration at h
  cases hpt : s.pt with
  | none => simp [hpt] at h
  | some i =>
    cases hnode : s.k.root_g[i]? with
    | none => simp [hpt, hnode] at h
    | some u =>
      simp only [hpt, hnode] at h
      have hu : u ∈ s.k.root_g := by
        obtain ⟨hi, he⟩ := List.getElem?_eq_some.mp hnode
        exact he ▸ List.getElem_mem hi
      by_cases hrun : timeToRun (toU16 millis) (s.k.mem u) = true
      · rw [if_pos hrun] at h
        simp only [Option.some.injEq, Prod.mk.injEq] at h
        obtain ⟨h1, h2⟩ := h
        subst h1 h2
        refine ⟨?_, ?_⟩
        · exact hbody _ _ _ habs
        · intro hmem
          simp only [Option.toList, List.mem_singleton] at hmem
          exact habs (hmem ▸ hu)
      · rw [if_neg hrun] at h
        simp only [Option.some.injEq, Prod.mk.injEq] at h
        obtain ⟨h1, h2⟩ := h
        subst h1 h2
        exact ⟨habs, by simp⟩

theorem runIterations_absent {α : Type}
    (body : Nat → TaskPtr → Kernel × α → Kernel × α) (t : TaskPtr)
    (hbody : ∀ f u ka, t ∉ ka.1.root_g → t ∉ (body f u ka).1.root_g)
    (millis : Nat → Nat) (n : Nat) :
    ∀ (s s1 : Sched α) (calls : List TaskPtr), t ∉ s.k.root_g →
      runIterations body millis n s = some (s1, calls) → t ∉ calls := by
  induction n with
  | zero =>
    intro s s1 calls _ h
    simp only [runIterations, Option.some.injEq, Prod.mk.injEq] at h
    rw [← h.2]
    simp
  | succ n ih =>
    intro s s1 calls habs h
    cases hit : schedulerIteration body (millis n) s with
    | none => simp [runIterations, hit] at h
    | some r =>
      obtain ⟨s2, called⟩ := r
      obtain ⟨ha, hc⟩ := schedulerIteration_absent body t hbody (millis n) s s2 called habs hit
      cases hrest : runIterations body millis n s2 with
      | none => simp [runIterations, hit, hrest] at h
      | some r2 =>
        obtain ⟨s3, calls2⟩ := r2
        simp only [runIterations, hit, hrest, Option.some.injEq, Prod.mk.injEq] at h
        rw [← h.2]
        intro hmem
        rcases List.mem_append.mp hmem with h1 | h2
        · exact hc h1
        · exact ih s2 s3 calls2 ha hrest h2

/-- C29: `COS_TASK_END` on the task `t` sets `lineCnt` to 0, removes the
node of `t` from the task list (the nodes `A` in front of it and `B` behind
it keep their order), changes no other task record and returns to the
scheduler; `t` (which had one node) is then not in the list, and as long as
the task functions do not put `t` into the list again, none of the following
iterations of the dispatch loop calls the function of `t`. -/
theorem task_end_removes_task (k : Kernel) (t : TaskPtr) (A B : List TaskPtr)
    (hlist : k.root_g = A ++ t :: B) (hA : t ∉ A) (hB : t ∉ B) :
    (COS_TASK_END k t).2 = Ctl.returned ∧
    ((COS_TASK_END k t).1.mem t).lineCnt = 0 ∧
    (∀ u, u ≠ t → (COS_TASK_END k t).1.mem u = k.mem u) ∧
    (COS_TASK_END k t).1.root_g = A ++ B ∧
    t ∉ (COS_TASK_END k t).1.root_g ∧
    (∀ (α : Type) (body : Nat → TaskPtr → Kernel × α → Kernel × α)
       (millis : Nat → Nat) (n : Nat) (s s1 : Sched α) (calls : List TaskPtr),
      (∀ f u ka, t ∉ ka.1.root_g → t ∉ (body f u ka).1.root_g) →
      s.k = (COS_TASK_END k t).1 →
      runIterations body millis n s = some (s1, calls) → t ∉ calls) := by
  have hroot : (COS_TASK_END k t).1.root_g = A ++ B := by
    show _unlinkTaskFromTaskList k.root_g t = A ++ B
    rw [unlink_eq_erase, hlist, List.erase_append_right _ hA, List.erase_cons_head]
  have habs : t ∉ (COS_TASK_END k t).1.root_g := by
    rw [hroot]
    intro h
    rcases List.mem_append.mp h with h1 | h2
    · exact hA h1
    · exact hB h2
  refine ⟨rfl, ?_, ?_, hroot, habs, ?_⟩
  · show ((k.mem.set t _) t).lineCnt = 0
    rw [TaskMem.set_same]
  · intro u hu
    show (k.mem.set t _) u = k.mem u
    exact TaskMem.set_other _ _ _ _ hu
  · intro α body millis n s s1 calls hbody hs hrun
    exact runIterations_absent body t hbody millis n s s1 calls (hs ▸ habs) hrun

/-- Instance of `task_end_removes_task`: task 11 of `demoKernel` reaches
`COS_TASK_END`; the list is 10, 12 afterwards, and in the next four
iterations of the dispatch loop (task functions that change nothing, tick
0) only task 12 is called. -/
theorem task_end_removes_task_witness :
    demoKernel.root_g = [10] ++ 11 :: [12] ∧
    (COS_TASK_END demoKernel 11).1.root_g = [10] ++ [12] ∧
    (runIterations (fun _ _ ka => ka) (fun _ => 0) 4
        { k := (COS_TASK_END demoKernel 11).1, app := (), pt := some 0 }).map
      (fun r => r.2) = some [12, 12] ∧
    (∀ s1 calls,
      runIterations (fun _ _ ka => ka) (fun _ => 0) 4
        { k := (COS_TASK_END demoKernel 11).1, app := (), pt := some 0 }
        = some (s1, calls) → (11 : TaskPtr) ∉ calls) :=
  ⟨rfl,
   (task_end_removes_task demoKernel 11 [10] [12] rfl (by decide) (by decide)).2.2.2.1,
   by decide,
   fun s1 calls h =>
     (task_end_removes_task demoKernel 11 [10] [12] rfl (by decide)
        (by decide)).2.2.2.2.2 Unit (fun _ _ ka => ka) (fun _ => 0) 4 _ s1 calls
        (fun _ _ _ h => h) rfl h⟩



/-! ## `COS_SemDestroy` (C38) -/

/-- C38: `COS_SemDestroy` empties the waiter list of the semaphore and
returns 0; the count is as before, and no task record is read or written
(the task memory is no argument of the function), so a task that was Blocked
on the semaphore is Blocked after the call, and a later `COS_SEM_SIGNAL` on
the semaphore finds no waiter and changes no task record either. -/
theorem sem_destroy_keeps_tasks (s : CosSema_t) (mem : TaskMem) :
    (COS_SemDestroy s).1.root_pt = [] ∧
    (COS_SemDestroy s).2 = 0 ∧
    (COS_SemDestroy s).1.count = s.count ∧
    (∀ t ∈ s.root_pt, (mem t).state = TASK_STATE_BLOCKED →
      t ∉ (COS_SemDestroy s).1.root_pt ∧ (mem t).state = TASK_STATE_BLOCKED) ∧
    (COS_SEM_SIGNAL (COS_SemDestroy s).1 mem).2 = mem := by
  refine ⟨rfl, rfl, rfl, ?_, ?_⟩
  · intro t _ hb
    exact ⟨by simp [COS_SemDestroy], hb⟩
  · simp [COS_SemDestroy, COS_SEM_SIGNAL]

/-- Instance of `sem_destroy_keeps_tasks`: the tasks 1 and 2 wait on a
semaphore of count 0, which is then destroyed: the list is empty, the count
is still -2 and both tasks are Blocked. -/
theorem sem_destroy_keeps_tasks_witness :
    (waitAll (fun _ => 7) (COS_SemCreate 0).1 readyMem [1, 2]).1.root_pt = [2, 1] ∧
    (COS_SemDestroy (waitAll (fun _ => 7) (COS_SemCreate 0).1 readyMem [1, 2]).1).1
      = { count := -2, root_pt := [] } ∧
    (1 ∉ (COS_SemDestroy
        (waitAll (fun _ => 7) (COS_SemCreate 0).1 readyMem [1, 2]).1).1.root_pt ∧
      ((waitAll (fun _ => 7) (COS_SemCreate 0).1 readyMem [1, 2]).2 1).state
        = TASK_STATE_BLOCKED) :=
  ⟨by decide, by decide,
   (sem_destroy_keeps_tasks (waitAll (fun _ => 7) (COS_SemCreate 0).1 readyMem [1, 2]).1
      (waitAll (fun _ => 7) (COS_SemCreate 0).1 readyMem [1, 2]).2).2.2.2.1 1
      (by decide) (by decide)⟩

/-! ## `COS_SetTaskPrio` (C36) -/

theorem setTaskPrio_some (k : Kernel) (t : TaskPtr) (p : Nat) (ht : t ∈ k.root_g) :
    COS_SetTaskPrio k t p =
      ({ k with mem := k.mem.set t { k.mem t with prio := p },
                root_g := _sortLinearListPrio (k.mem.set t { k.mem t with prio := p })
                            k.root_g }, 0) := by
  cases hs : _searchTaskInList k.root_g t with
  | none => exact absurd ht ((searchTask_eq_none _ _).mp hs)
  | some i =>
    have hnode := searchTask_getElem _ _ i hs
    simp only [COS_SetTaskPrio, hs, hnode]

/-- C36: for every task `t` in the task list and every priority `p`,
`COS_SetTaskPrio(t, p)` returns 0, sets `t.prio = p`, changes no other field
of `t` and no field of any other task, and leaves the task list sorted by
descending priority and a permutation of the list before the call. -/
theorem set_task_prio_effect (k : Kernel) (t : TaskPtr) (p : Nat) (ht : t ∈ k.root_g) :
    (COS_SetTaskPrio k t p).2 = 0 ∧
    (COS_SetTaskPrio k t p).1.mem t = { k.mem t with prio := p } ∧
    (∀ u, u ≠ t → (COS_SetTaskPrio k t p).1.mem u = k.mem u) ∧
    prioSorted (COS_SetTaskPrio k t p).1.mem (COS_SetTaskPrio k t p).1.root_g ∧
    List.Perm (COS_SetTaskPrio k t p).1.root_g k.root_g := by
  rw [setTaskPrio_some k t p ht]
  refine ⟨rfl, TaskMem.set_same _ _ _, fun u hu => TaskMem.set_other _ _ _ _ hu, ?_, ?_⟩
  · exact (sortLinearListPrio_spec _ _).2.1
  · exact (sortLinearListPrio_spec _ _).2.2

/-- Instance of `set_task_prio_effect`: task 12 of `demoKernel` (task list
10, 11, 12 of priorities 9, 5, 1) gets priority 7 and moves in front of task
11. -/
theorem set_task_prio_effect_witness :
    (12 : TaskPtr) ∈ demoKernel.root_g ∧
    (COS_SetTaskPrio demoKernel 12 7).2 = 0 ∧
    ((COS_SetTaskPrio demoKernel 12 7).1.mem 12).prio = 7 ∧
    (COS_SetTaskPrio demoKernel 12 7).1.root_g = [10, 12, 11] ∧
    List.Perm (COS_SetTaskPrio demoKernel 12 7).1.root_g demoKernel.root_g :=
  ⟨by decide, (set_task_prio_effect demoKernel 12 7 (by decide)).1, by decide, by decide,
   (set_task_prio_effect demoKernel 12 7 (by decide)).2.2.2.2⟩



/-! ## Suspending and resuming a task (C37) -/

theorem suspendTask_some (k : Kernel) (t : TaskPtr) (ht : t ∈ k.root_g) :
    COS_SuspendTask k t =
      ({ k with mem := k.mem.set t { k.mem t with state := TASK_STATE_SUSPENDED } }, 0) := by
  cases hs : _searchTaskInList k.root_g t with
  | none => exact absurd ht ((searchTask_eq_none _ _).mp hs)
  | some i =>
    have hnode := searchTask_getElem _ _ i hs
    simp only [COS_SuspendTask, hs, setNodeTaskState, hnode]

theorem resumeTask_some (k : Kernel) (t : TaskPtr) (ht : t ∈ k.root_g) :
    COS_ResumeTask k t =
      ({ k with mem := k.mem.set t { k.mem t with state := TASK_STATE_READY } }, 0) := by
  cases hs : _searchTaskInList k.root_g t with
  | none => exact absurd ht ((searchTask_eq_none _ _).mp hs)
  | some i =>
    have hnode := searchTask_getElem _ _ i hs
    simp only [COS_ResumeTask, hs, setNodeTaskState, hnode]

theorem schedulerIteration_suspended {α : Type}
    (body : Nat → TaskPtr → Kernel × α → Kernel × α) (t : TaskPtr)
    (hbody : ∀ f u ka, (ka.1.mem t).state = TASK_STATE_SUSPENDED →
      (((body f u ka).1).mem t).state = TASK_STATE_SUSPENDED)
    (millis : Nat) (s s1 : Sched α) (called : Option TaskPtr)
    (hsus : (s.k.mem t).state = TASK_STATE_SUSPENDED)
    (h : schedulerIteration body millis s = some (s1, called)) :
    (s1.k.mem t).state = TASK_STATE_SUSPENDED ∧ t ∉ called.toList := by
  unfold schedulerIteration at h
  cases hpt : s.pt with
  | none => simp [hpt] at h
  | some i =>
    cases hnode : s.k.root_g[i]? with
    | none => simp [hpt, hnode] at h
    | some u =>
      simp only [hpt, hnode] at h
      by_cases hrun : timeToRun (toU16 millis) (s.k.mem u) = true
      · rw [if_pos hrun] at h
        simp only [Option.some.injEq, Prod.mk.injEq] at h
        obtain ⟨h1, h2⟩ := h
        subst h1 h2
        have hut : u ≠ t := by
          intro e
          rw [e] at hrun
          have := ((timeToRun_iff _ _).mp hrun).1
          rw [hsus] at this
          exact absurd this (by decide)
        refine ⟨?_, ?_⟩
        · apply hbody
          show (((s.k.mem.set u _).set u _) t).state = TASK_STATE_SUSPENDED
          rw [TaskMem.set_other _ _ _ _ (Ne.symm hut), TaskMem.set_other _ _ _ _ (Ne.symm hut)]
          exact hsus
        · intro hmem
          simp only [Option.toList, List.mem_singleton] at hmem
          exact hut hmem.symm
      · rw [if_neg hrun] at h
        simp only [Option.some.injEq, Prod.mk.injEq] at h
        obtain ⟨h1, h2⟩ := h
        subst h1 h2
        exact ⟨hsus, by simp⟩

theorem runIterations_suspended {α : Type}
    (body : Nat → TaskPtr → Kernel × α → Kernel × α) (t : TaskPtr)
    (hbody : ∀ f u ka, (ka.1.mem t).state = TASK_STATE_SUSPENDED →
      (((body f u ka).1).mem t).state = TASK_STATE_SUSPENDED)
    (millis : Nat → Nat) (n : Nat) :
    ∀ (s s1 : Sched α) (calls : List TaskPtr),
      (s.k.mem t).state = TASK_STATE_SUSPENDED →
      runIterations body millis n s = some (s1, calls) → t ∉ calls := by
  induction n with
  | zero =>
    intro s s1 calls _ h
    simp only [runIterations, Option.some.injEq, Prod.mk.injEq] at h
    rw [← h.2]
    simp
  | succ n ih =>
    intro s s1 calls hsus h
    cases hit : schedulerIteration body (millis n) s with
    | none => simp [runIterations, hit] at h
    | some r =>
      obtain ⟨s2, called⟩ := r
      obtain ⟨ha, hc⟩ :=
        schedulerIteration_suspended body t hbody (millis n) s s2 called hsus hit
      cases hrest : runIterations body millis n s2 with
      | none => simp [runIterations, hit, hrest] at h
      | some r2 =>
        obtain ⟨s3, calls2⟩ := r2
        simp only [runIterations, hit, hrest, Option.some.injEq, Prod.mk.injEq] at h
        rw [← h.2]
        intro hmem
        rcases List.mem_append.mp hmem with h1 | h2
        · exact hc h1
        · exact ih s2 s3 calls2 ha hrest h2

/-- C37: for every Ready task `t` in the task list, `COS_SuspendTask(t)`
followed by `COS_ResumeTask(t)` both return 0 and give back the kernel state
as it was; after the first call `t` is Suspended, with its other fields, the
other tasks and the list unchanged, and as long as the task functions leave
`t` Suspended no iteration of the dispatch loop calls the function of
`t`. -/
theorem suspend_then_resume (k : Kernel) (t : TaskPtr) (ht : t ∈ k.root_g)
    (hready : (k.mem t).state = TASK_STATE_READY) :
    (COS_SuspendTask k t).2 = 0 ∧
    (COS_ResumeTask (COS_SuspendTask k t).1 t).2 = 0 ∧
    (COS_ResumeTask (COS_SuspendTask k t).1 t).1 = k ∧
    (COS_SuspendTask k t).1.mem t = { k.mem t with state := TASK_STATE_SUSPENDED } ∧
    (∀ u, u ≠ t → (COS_SuspendTask k t).1.mem u = k.mem u) ∧
    (COS_SuspendTask k t).1.root_g = k.root_g ∧
    (∀ (α : Type) (body : Nat → TaskPtr → Kernel × α → Kernel × α)
       (millis : Nat → Nat) (n : Nat) (s s1 : Sched α) (calls : List TaskPtr),
      (∀ f u ka, (ka.1.mem t).state = TASK_STATE_SUSPENDED →
        (((body f u ka).1).mem t).state = TASK_STATE_SUSPENDED) →
      s.k = (COS_SuspendTask k t).1 →
      runIterations body millis n s = some (s1, calls) → t ∉ calls) := by
  have hsus := suspendTask_some k t ht
  have ht2 : t ∈ (COS_SuspendTask k t).1.root_g := by rw [hsus]; exact ht
  have hres := resumeTask_some (COS_SuspendTask k t).1 t ht2
  have hmemt : (COS_SuspendTask k t).1.mem t
      = { k.mem t with state := TASK_STATE_SUSPENDED } := by
    rw [hsus]; exact TaskMem.set_same _ _ _
  refine ⟨by rw [hsus], by rw [hres], ?_, hmemt, ?_, by rw [hsus], ?_⟩
  · rw [hres, hsus]
    cases k with
    | mk root mem a b c d =>
      simp only [Kernel.mk.injEq, true_and, and_true]
      funext u
      by_cases hu : u = t
      · subst hu
        simp only [TaskMem.set_same]
        show ({ mem u with state := TASK_STATE_READY } : CosTask_t) = mem u
        have hr : (mem u).state = TASK_STATE_READY := hready
        rw [← hr]
      · rw [TaskMem.set_other _ _ _ _ hu, TaskMem.set_other _ _ _ _ hu]
  · intro u hu
    rw [hsus]
    exact TaskMem.set_other _ _ _ _ hu
  · intro α body millis n s s1 calls hbody hs hrun
    refine runIterations_suspended body t hbody millis n s s1 calls ?_ hrun
    rw [hs, hmemt]

/-- Instance of `suspend_then_resume`: task 12 of `demoKernel` is suspended
and resumed; while it is suspended, four iterations of the dispatch loop at
tick 20 (task functions that change nothing) call task 11 only. -/
theorem suspend_then_resume_witness :
    (12 : TaskPtr) ∈ demoKernel.root_g ∧
    (demoKernel.mem 12).state = TASK_STATE_READY ∧
    (COS_ResumeTask (COS_SuspendTask demoKernel 12).1 12).1 = demoKernel ∧
    (runIterations (fun _ _ ka => ka) (fun _ => 20) 4
        { k := (COS_SuspendTask demoKernel 12).1, app := (), pt := some 0 }).map
      (fun r => r.2) = some [11, 11] ∧
    (∀ s1 calls,
      runIterations (fun _ _ ka => ka) (fun _ => 20) 4
        { k := (COS_SuspendTask demoKernel 12).1, app := (), pt := some 0 }
        = some (s1, calls) → (12 : TaskPtr) ∉ calls) :=
  ⟨by decide, by decide,
   (suspend_then_resume demoKernel 12 (by decide) (by decide)).2.2.1,
   by decide,
   fun s1 calls h =>
     (suspend_then_resume demoKernel 12 (by decide) (by decide)).2.2.2.2.2.2
        Unit (fun _ _ ka => ka) (fun _ => 20) 4 _ s1 calls (fun _ _ _ h => h) rfl h⟩



/-! ## What an iteration of the dispatch loop writes (C35) -/

/-- C35: an iteration of the dispatch loop that calls no task function leaves
the kernel state as it is; one that calls the function of task `t` hands it
the kernel state with the same task list in which only
`lastActivationTime_Ticks` (the tick read) and `sleepTime_Ticks` (0) of `t`
are written, and the state after the iteration is the one the task function
returns; so for task functions that leave the task list as it is, the list
is the same before and after the iteration. -/
theorem scheduler_iteration_frame {α : Type}
    (body : Nat → TaskPtr → Kernel × α → Kernel × α) (millis : Nat)
    (s s1 : Sched α) (called : Option TaskPtr)
    (h : schedulerIteration body millis s = some (s1, called)) :
    (called = none → s1.k = s.k ∧ s1.app = s.app) ∧
    (∀ t, called = some t →
      (prepareCall s.k t (toU16 millis)).root_g = s.k.root_g ∧
      (prepareCall s.k t (toU16 millis)).mem t
        = { s.k.mem t with lastActivationTime_Ticks := toU16 millis,
                           sleepTime_Ticks := 0 } ∧
      (∀ u, u ≠ t → (prepareCall s.k t (toU16 millis)).mem u = s.k.mem u) ∧
      s1.k = (body ((prepareCall s.k t (toU16 millis)).mem t).func t
                (prepareCall s.k t (toU16 millis), s.app)).1) ∧
    ((∀ f u ka, (body f u ka).1.root_g = ka.1.root_g) → s1.k.root_g = s.k.root_g) := by
  have hprep : ∀ t, (prepareCall s.k t (toU16 millis)).root_g = s.k.root_g ∧
      (prepareCall s.k t (toU16 millis)).mem t
        = { s.k.mem t with lastActivationTime_Ticks := toU16 millis,
                           sleepTime_Ticks := 0 } ∧
      (∀ u, u ≠ t → (prepareCall s.k t (toU16 millis)).mem u = s.k.mem u) := by
    intro t
    refine ⟨rfl, ?_, ?_⟩
    · simp only [prepareCall, TaskMem.set_same]
    · intro u hu
      simp only [prepareCall]
      rw [TaskMem.set_other _ _ _ _ hu, TaskMem.set_other _ _ _ _ hu]
  unfold schedulerIteration at h
  cases hpt : s.pt with
  | none => simp [hpt] at h
  | some i =>
    cases hnode : s.k.root_g[i]? with
    | none => simp [hpt, hnode] at h
    | some u =>
      simp only [hpt, hnode] at h
      by_cases hrun : timeToRun (toU16 millis) (s.k.mem u) = true
      · rw [if_pos hrun] at h
        simp only [Option.some.injEq, Prod.mk.injEq] at h
        obtain ⟨h1, h2⟩ := h
        subst h1 h2
        refine ⟨fun hc => by simp at hc, ?_, ?_⟩
        · intro t ht
          have hut : u = t := by simpa using ht
          subst hut
          exact ⟨(hprep u).1, (hprep u).2.1, (hprep u).2.2, rfl⟩
        · intro hbody
          show (body _ u (prepareCall s.k u (toU16 millis), s.app)).1.root_g = s.k.root_g
          rw [hbody]
          rfl
      · rw [if_neg hrun] at h
        simp only [Option.some.injEq, Prod.mk.injEq] at h
        obtain ⟨h1, h2⟩ := h
        subst h1 h2
        exact ⟨fun _ => ⟨rfl, rfl⟩, fun t ht => by simp at ht, fun _ => rfl⟩

/-- Instance of `scheduler_iteration_frame`: from `demoKernel` with the
cursor at task 12, at tick 3, with task functions that change nothing: task
12 is called and the task list is 10, 11, 12 as before. -/
theorem scheduler_iteration_frame_witness :
    (schedulerIteration (fun _ _ ka => ka) 3
        ({ k := demoKernel, app := (), pt := some 2 } : Sched Unit)).map
      (fun r => (r.1.k.root_g, r.2)) = some ([10, 11, 12], some 12) ∧
    (∀ s1 called,
      schedulerIteration (fun _ _ ka => ka) 3
        ({ k := demoKernel, app := (), pt := some 2 } : Sched Unit) = some (s1, called) →
      s1.k.root_g = demoKernel.root_g) :=
  ⟨by decide,
   fun s1 called h =>
     (scheduler_iteration_frame (fun _ _ ka => ka) 3
        ({ k := demoKernel, app := (), pt := some 2 } : Sched Unit) s1 called h).2.2
        (fun _ _ _ => rfl)⟩

/-! ## Termination of `_sortLinearListPrio` (C39) -/

theorem countP_swap (f : TaskPtr → Bool) (pre post : List TaskPtr) (x y : TaskPtr) :
    (pre ++ x :: y :: post).countP f = (pre ++ y :: x :: post).countP f := by
  simp only [List.countP_append, List.countP_cons]
  omega

theorem inversions_swap (mem : TaskMem) (x y : TaskPtr) (post : List TaskPtr)
    (h : (mem x).prio < (mem y).prio) :
    ∀ pre : List TaskPtr,
      inversions mem (pre ++ x :: y :: post)
        = inversions mem (pre ++ y :: x :: post) + 1 := by
  intro pre
  induction pre with
  | nil =>
    have hyx : ¬ (mem y).prio < (mem x).prio := by omega
    simp only [List.nil_append, inversions, List.countP_cons, decide_eq_true h,
      decide_eq_false hyx]
    simp
    omega
  | cons a pre ih =>
    show List.countP _ (pre ++ x :: y :: post) + inversions mem (pre ++ x :: y :: post)
      = List.countP _ (pre ++ y :: x :: post) + inversions mem (pre ++ y :: x :: post) + 1
    rw [ih, countP_swap]
    omega

/-- C39: `_sortLinearListPrio` terminates on every task list: a swap of two
adjacent nodes of which the first has the lower priority removes exactly one
priority inversion, a pass of the inner loop with `noOfSwaps` swaps removes
`noOfSwaps` inversions, and the `do ... while` loop ends by its own exit test
(a pass without swap) within `inversions + 1` passes, giving the result of
`_sortLinearListPrio`; the empty list is returned at once and a list of one
node after one pass. -/
theorem sort_terminates (mem : TaskMem) (l : List TaskPtr) :
    sortLoop mem (inversions mem l + 1) l = some (_sortLinearListPrio mem l) ∧
    inversions mem (sortPass mem l).1 + (sortPass mem l).2 = inversions mem l ∧
    (∀ pre post x y, (mem x).prio < (mem y).prio →
      inversions mem (pre ++ y :: x :: post) + 1
        = inversions mem (pre ++ x :: y :: post)) ∧
    _sortLinearListPrio mem [] = [] ∧
    (∀ x, sortLoop mem 1 [x] = some [x] ∧ _sortLinearListPrio mem [x] = [x]) := by
  refine ⟨(sortLinearListPrio_spec mem l).1, sortPass_inversions mem l, ?_, rfl, ?_⟩
  · intro pre post x y h
    exact (inversions_swap mem x y post h pre).symm
  · intro x
    exact ⟨rfl, rfl⟩

/-- Instance of `sort_terminates`: the list 12, 11, 10 of `demoMem`
(priorities 1, 5, 9) has three inversions and is sorted within four passes;
swapping 12 and 11 removes one inversion. -/
theorem sort_terminates_witness :
    inversions demoMem [12, 11, 10] = 3 ∧
    sortLoop demoMem (inversions demoMem [12, 11, 10] + 1) [12, 11, 10]
      = some (_sortLinearListPrio demoMem [12, 11, 10]) ∧
    _sortLinearListPrio demoMem [12, 11, 10] = [10, 11, 12] ∧
    inversions demoMem ([] ++ 11 :: 12 :: [10]) + 1
      = inversions demoMem ([] ++ 12 :: 11 :: [10]) :=
  ⟨by decide, (sort_terminates demoMem [12, 11, 10]).1, by decide,
   (sort_terminates demoMem [12, 11, 10]).2.2.1 [] [10] 12 11 (by decide)⟩



/-! ## Slot copies and the buffer (C33) -/

set_option maxRecDepth 1000000 in
/-- C33 fails for three slots of 100 bytes: on a fresh FIFO over a buffer of
300 bytes, after three writes, three reads and two more writes the write
index is 244 with two slots used, so the next `_qWriteSingleSlot` copies the
bytes 244 to 343, outside the buffer; the call, and the sequence of calls
with it, is undefined. -/
theorem fifo_copy_leaves_buffer :
    (runFifoState (COS_FifoCreate fifoZero 100 3 (some (List.replicate 300 0))).1 readyMem
        [FifoCall.write (List.replicate 100 1), FifoCall.write (List.replicate 100 2),
         FifoCall.write (List.replicate 100 3), FifoCall.read (List.replicate 100 0),
         FifoCall.read (List.replicate 100 0), FifoCall.read (List.replicate 100 0),
         FifoCall.write (List.replicate 100 4),
         FifoCall.write (List.replicate 100 5)]).map
      (fun r => (r.1.isInitialized, r.1.wIndex, r.1.slotSize, r.1.usedSlots, r.1.maxSlots,
                 r.1.buffer.map List.length))
      = some (1, 244, 100, 2, 3, some 300) ∧
    ¬ (244 + 100 ≤ 100 * 3) ∧
    (runFifoState (COS_FifoCreate fifoZero 100 3 (some (List.replicate 300 0))).1 readyMem
        [FifoCall.write (List.replicate 100 1), FifoCall.write (List.replicate 100 2),
         FifoCall.write (List.replicate 100 3), FifoCall.read (List.replicate 100 0),
         FifoCall.read (List.replicate 100 0), FifoCall.read (List.replicate 100 0),
         FifoCall.write (List.replicate 100 4), FifoCall.write (List.replicate 100 5),
         FifoCall.write (List.replicate 100 6)]).isNone = true := by
  refine ⟨?_, by decide, ?_⟩
  · rfl
  · rfl



/-! ## The effect of a FIFO call that proceeds -/

theorem qWrite_proceeds (q : CosFifo_t) (data : List Nat) (mem : TaskMem) (buf : List Nat)
    (hinit : q.isInitialized ≠ 0) (hfree : q.usedSlots < q.maxSlots)
    (hbuf : q.buffer = some buf) (hin : q.wIndex + q.slotSize ≤ buf.length)
    (hdata : q.slotSize ≤ data.length) (hmod : q.maxSlots * q.slotSize ≠ 0) :
    _qWriteSingleSlot q data mem =
      some { q := { q with
               buffer := some (buf.take q.wIndex ++ data.take q.slotSize
                                 ++ buf.drop (q.wIndex + q.slotSize)),
               wIndex := toU8 ((toU8 ((q.wIndex : Int) + (q.slotSize : Int)) : Int)
                           % ((q.maxSlots : Int) * (q.slotSize : Int))),
               usedSlots := toU8 ((q.usedSlots : Int) + 1),
               rSema := (COS_SEM_SIGNAL q.rSema mem).1 },
             mem := (COS_SEM_SIGNAL q.rSema mem).2, retval := 1 } := by
  have hfull : ¬ (q.usedSlots ≥ q.maxSlots) := by omega
  have hcopy : memcpyInto buf q.wIndex data q.slotSize
      = some (buf.take q.wIndex ++ data.take q.slotSize
                ++ buf.drop (q.wIndex + q.slotSize)) := by
    unfold memcpyInto
    rw [if_pos ⟨hin, hdata⟩]
  simp only [_qWriteSingleSlot, if_neg hinit, if_neg hfull, hbuf, hcopy, if_neg hmod]

theorem qRead_proceeds (q : CosFifo_t) (data : List Nat) (mem : TaskMem) (buf : List Nat)
    (hinit : q.isInitialized ≠ 0) (hused : 0 < q.usedSlots)
    (hbuf : q.buffer = some buf) (hin : q.rIndex + q.slotSize ≤ buf.length)
    (hdata : q.slotSize ≤ data.length) (hmod : q.maxSlots * q.slotSize ≠ 0) :
    _qReadSingleSlot q data mem =
      some { q := { q with
               rIndex := toU8 ((toU8 ((q.rIndex : Int) + (q.slotSize : Int)) : Int)
                           % ((q.maxSlots : Int) * (q.slotSize : Int))),
               usedSlots := toU8 ((q.usedSlots : Int) - 1),
               wSema := (COS_SEM_SIGNAL q.wSema mem).1 },
             data := (buf.drop q.rIndex).take q.slotSize ++ data.drop q.slotSize,
             mem := (COS_SEM_SIGNAL q.wSema mem).2, retval := 1 } := by
  have hempty : ¬ (q.usedSlots ≤ 0) := by omega
  have hcopy : memcpyFrom data buf q.rIndex q.slotSize
      = some ((buf.drop q.rIndex).take q.slotSize ++ data.drop q.slotSize) := by
    unfold memcpyFrom
    rw [if_pos ⟨hin, hdata⟩]
  simp only [_qReadSingleSlot, if_neg hinit, if_neg hempty, hbuf, hcopy, if_neg hmod]

theorem qWrite_some (q : CosFifo_t) (data : List Nat) (mem : TaskMem) (r : WriteResult)
    (hinit : q.isInitialized ≠ 0) (hfree : q.usedSlots < q.maxSlots)
    (h : _qWriteSingleSlot q data mem = some r) :
    r.retval = 1 ∧ r.q.usedSlots = toU8 ((q.usedSlots : Int) + 1) ∧
    r.q.maxSlots = q.maxSlots ∧ r.q.isInitialized = q.isInitialized ∧
    r.q.slotSize = q.slotSize ∧ r.q.wSema = q.wSema ∧
    r.q.rSema = (COS_SEM_SIGNAL q.rSema mem).1 ∧
    r.mem = (COS_SEM_SIGNAL q.rSema mem).2 := by
  have hfull : ¬ (q.usedSlots ≥ q.maxSlots) := by omega
  unfold _qWriteSingleSlot at h
  rw [if_neg hinit, if_neg hfull] at h
  cases hb : q.buffer with
  | none => simp [hb] at h
  | some buf =>
    cases hc : memcpyInto buf q.wIndex data q.slotSize with
    | none => simp [hb, hc] at h
    | some buf1 =>
      by_cases hz : q.maxSlots * q.slotSize = 0
      · simp [hb, hc, hz] at h
      · simp only [hb, hc, if_neg hz, Option.some.injEq] at h
        subst h
        exact ⟨rfl, rfl, rfl, rfl, rfl, rfl, rfl, rfl⟩

theorem qRead_some (q : CosFifo_t) (out : List Nat) (mem : TaskMem) (r : ReadResult)
    (hinit : q.isInitialized ≠ 0) (hused : 0 < q.usedSlots)
    (h : _qReadSingleSlot q out mem = some r) :
    r.retval = 1 ∧ r.q.usedSlots = toU8 ((q.usedSlots : Int) - 1) ∧
    r.q.maxSlots = q.maxSlots ∧ r.q.isInitialized = q.isInitialized ∧
    r.q.slotSize = q.slotSize ∧ r.q.rSema = q.rSema ∧
    r.q.wSema = (COS_SEM_SIGNAL q.wSema mem).1 ∧
    r.mem = (COS_SEM_SIGNAL q.wSema mem).2 := by
  have hempty : ¬ (q.usedSlots ≤ 0) := by omega
  unfold _qReadSingleSlot at h
  rw [if_neg hinit, if_neg hempty] at h
  cases hb : q.buffer with
  | none => simp [hb] at h
  | some buf =>
    cases hc : memcpyFrom out buf q.rIndex q.slotSize with
    | none => simp [hb, hc] at h
    | some data1 =>
      by_cases hz : q.maxSlots * q.slotSize = 0
      · simp [hb, hc, hz] at h
      · simp only [hb, hc, if_neg hz, Option.some.injEq] at h
        subst h
        exact ⟨rfl, rfl, rfl, rfl, rfl, rfl, rfl, rfl⟩

/-! ## Non-blocking calls and the semaphore counts (C34) -/

set_option maxRecDepth 100000 in
/-- C34 as stated fails for 127 slots: after `COS_FifoCreate`, one
successful `_qWriteSingleSlot` and one successful `_qReadSingleSlot`,
`usedSlots` is 0 and `rSema.count` is 1, but `wSema.count` is -128, not
128. -/
theorem fifo_drift_at_127_slots :
    (runFifo (COS_FifoCreate fifoZero 1 127 (some (List.replicate 127 0))).1 readyMem
        [FifoCall.write [7], FifoCall.read [0]]).map (fun obs => obs.map (fun o => o.1))
      = some [1, 1] ∧
    (runFifoState (COS_FifoCreate fifoZero 1 127 (some (List.replicate 127 0))).1 readyMem
        [FifoCall.write [7], FifoCall.read [0]]).map
      (fun r => (r.1.usedSlots, r.1.rSema.count, r.1.wSema.count)) = some (0, 1, -128) := by
  refine ⟨?_, ?_⟩
  · rfl
  · rfl


/-- C34 (amended): for a FIFO of `nSlots` in 1..126 slots of `slotSize >= 1`
bytes, after `COS_FifoCreate` one `_qWriteSingleSlot` and one
`_qReadSingleSlot` both return 1 and leave `usedSlots = 0`, `rSema.count = 1`
and `wSema.count = nSlots + 1` with nobody waiting; the `COS_SEM_WAIT` of a
following `COS_FifoBlockingReadSingleSlot` by a task `pt` then takes
`rSema.count` to 0 without blocking `pt` (its state is as before, the waiter
list stays empty), and the `_qReadSingleSlot` of the macro returns 0 and
leaves the FIFO and the caller's bytes as they are. -/
theorem fifo_counts_drift (q0 : CosFifo_t) (slotSize nSlots : Nat)
    (buf data out : List Nat) (mem : TaskMem)
    (hs : 1 ≤ slotSize) (hn1 : 1 ≤ nSlots) (hn : nSlots ≤ 126)
    (hbuf : buf.length = slotSize * nSlots)
    (hdata : slotSize ≤ data.length) (hout : slotSize ≤ out.length) :
    ∃ q2, runFifoState (COS_FifoCreate q0 slotSize nSlots (some buf)).1 mem
        [FifoCall.write data, FifoCall.read out] = some (q2, mem) ∧
      (runFifo (COS_FifoCreate q0 slotSize nSlots (some buf)).1 mem
        [FifoCall.write data, FifoCall.read out]).map (fun obs => obs.map (fun o => o.1))
        = some [1, 1] ∧
      q2.isInitialized = 1 ∧ q2.usedSlots = 0 ∧
      q2.rSema = { count := 1, root_pt := [] } ∧
      q2.wSema = { count := (nSlots : Int) + 1, root_pt := [] } ∧
      (∀ (line : Nat) (pt : TaskPtr) (out2 : List Nat),
        COS_FifoBlockingReadSingleSlot_wait line q2 pt mem
          = ({ q2 with rSema := { count := 0, root_pt := [] } },
             mem.set pt { mem pt with lineCnt := line }, Ctl.returned) ∧
        COS_FifoBlockingReadSingleSlot_call
            { q2 with rSema := { count := 0, root_pt := [] } } out2
            (mem.set pt { mem pt with lineCnt := line })
          = some { q := { q2 with rSema := { count := 0, root_pt := [] } }, data := out2,
                   mem := mem.set pt { mem pt with lineCnt := line }, retval := 0 }) := by
  have hM : slotSize ≤ slotSize * nSlots := Nat.le_mul_of_pos_right _ hn1
  have hmod : nSlots * slotSize ≠ 0 := Nat.mul_ne_zero (by omega) (by omega)
  rw [fifoCreate_some]
  have hw := qWrite_proceeds
    { buffer := some buf, maxSlots := nSlots, slotSize := slotSize, rIndex := 0,
      wIndex := 0, usedSlots := 0, isInitialized := 1,
      rSema := { count := 0, root_pt := [] },
      wSema := { count := toI8 nSlots, root_pt := [] } } data mem buf
    Nat.one_ne_zero (by show 0 < nSlots; omega) rfl
    (by show 0 + slotSize ≤ buf.length; omega)
    hdata hmod
  rw [sem_signal_nil] at hw
  dsimp only at hw
  have hlen : (List.take 0 buf ++ List.take slotSize data
      ++ List.drop (0 + slotSize) buf).length = slotSize * nSlots := by
    simp only [List.length_append, List.length_take, List.length_drop]
    omega
  have hone : toU8 (((0 : Nat) : Int) + 1) = 1 := by decide
  rw [hone] at hw
  have hr := qRead_proceeds
    { buffer := some (List.take 0 buf ++ List.take slotSize data
                        ++ List.drop (0 + slotSize) buf),
      maxSlots := nSlots, slotSize := slotSize, rIndex := 0,
      wIndex := toU8 ((toU8 (((0 : Nat) : Int) + (slotSize : Int)) : Int)
                  % ((nSlots : Int) * (slotSize : Int))),
      usedSlots := 1, isInitialized := 1,
      rSema := { count := toI8 (0 + 1), root_pt := [] },
      wSema := { count := toI8 nSlots, root_pt := [] } } out mem _
    Nat.one_ne_zero Nat.zero_lt_one rfl (by show 0 + slotSize ≤ _; rw [hlen]; omega)
    hout hmod
  rw [sem_signal_nil] at hr
  dsimp only at hr
  have hzero : toU8 (((1 : Nat) : Int) - 1) = 0 := by decide
  have hcount : toI8 (toI8 (nSlots : Int) + 1) = (nSlots : Int) + 1 := by
    rw [toI8_of_range (nSlots : Int) (by omega) (by omega)]
    exact toI8_of_range _ (by omega) (by omega)
  have hrone : toI8 (0 + 1) = 1 := by decide
  rw [hzero, hcount, hrone] at hr
  rw [hrone] at hw
  refine ⟨{ buffer := some (List.take 0 buf ++ List.take slotSize data
                              ++ List.drop (0 + slotSize) buf),
            maxSlots := nSlots, slotSize := slotSize,
            rIndex := toU8 ((toU8 (((0 : Nat) : Int) + (slotSize : Int)) : Int)
                        % ((nSlots : Int) * (slotSize : Int))),
            wIndex := toU8 ((toU8 (((0 : Nat) : Int) + (slotSize : Int)) : Int)
                        % ((nSlots : Int) * (slotSize : Int))),
            usedSlots := 0, isInitialized := 1,
            rSema := { count := 1, root_pt := [] },
            wSema := { count := (nSlots : Int) + 1, root_pt := [] } }, ?_, ?_, ?_⟩
  · simp only [runFifoState, hw, hr]
  · simp only [runFifo, hw, hr, Option.map_some', List.map_cons, List.map_nil]
  · refine ⟨rfl, rfl, rfl, rfl, ?_⟩
    intro line pt out2
    refine ⟨?_, ?_⟩
    · simp [COS_FifoBlockingReadSingleSlot_wait, COS_SEM_WAIT, toI8]
    · simp [COS_FifoBlockingReadSingleSlot_call, _qReadSingleSlot]

/-- Instance of `fifo_counts_drift`: two slots of two bytes; after one write
and one read `wSema.count` is 3 with no slot used. -/
theorem fifo_counts_drift_witness :
    ∃ q2, runFifoState (COS_FifoCreate fifoZero 2 2 (some [0, 0, 0, 0])).1 readyMem
        [FifoCall.write [1, 2], FifoCall.read [0, 0]] = some (q2, readyMem) ∧
      q2.usedSlots = 0 ∧ q2.rSema.count = 1 ∧ q2.wSema.count = 3 := by
  obtain ⟨q2, h1, _, _, h4, h5, h6, _⟩ :=
    fifo_counts_drift fifoZero 2 2 [0, 0, 0, 0] [1, 2] [0, 0] readyMem
      (by decide) (by decide) (by decide) rfl (by decide) (by decide)
  exact ⟨q2, h1, h4, by rw [h5], by rw [h6]; rfl⟩



/-! ## Waiter list and count of a semaphore (C31) -/

theorem sem_wait_eq (line : Nat) (s : CosSema_t) (pt : TaskPtr) (mem : TaskMem)
    (hlo : -128 < s.count) (hhi : s.count ≤ 127) :
    (COS_SEM_WAIT line s pt mem).sema.count = s.count - 1 ∧
    (COS_SEM_WAIT line s pt mem).sema.root_pt
      = (if s.count ≤ 0 then pt :: s.root_pt else s.root_pt) ∧
    ((COS_SEM_WAIT line s pt mem).mem pt).state
      = (if s.count ≤ 0 then TASK_STATE_BLOCKED else (mem pt).state) ∧
    (∀ p, p ≠ pt → (COS_SEM_WAIT line s pt mem).mem p = mem p) := by
  refine ⟨?_, ?_, ?_, fun p hp => sem_wait_mem_other line s pt p mem hp⟩
  · show toI8 (s.count - 1) = s.count - 1
    exact toI8_of_range _ (by omega) (by omega)
  · by_cases hc : s.count ≤ 0
    · rw [if_pos hc]; exact (sem_wait_blocked line s pt mem hc).1
    · rw [if_neg hc]; exact (sem_wait_not_blocked line s pt mem hc).1
  · by_cases hc : s.count ≤ 0
    · rw [if_pos hc]; exact (sem_wait_blocked line s pt mem hc).2
    · rw [if_neg hc]; exact (sem_wait_not_blocked line s pt mem hc).2

theorem sem_signal_eq (s : CosSema_t) (mem : TaskMem)
    (hlo : -128 ≤ s.count) (hhi : s.count < 127) :
    (COS_SEM_SIGNAL s mem).1.count = s.count + 1 ∧
    (COS_SEM_SIGNAL s mem).1.root_pt = s.root_pt.tail ∧
    (∀ p, p ∉ s.root_pt.head? → (COS_SEM_SIGNAL s mem).2 p = mem p) ∧
    (∀ p, p ∈ s.root_pt.head? →
      (COS_SEM_SIGNAL s mem).2 p = { mem p with state := TASK_STATE_READY }) := by
  obtain ⟨c, root⟩ := s
  have hc : toI8 (c + 1) = c + 1 := toI8_of_range _ (by simp at hlo; omega) (by simp at hhi; omega)
  cases root with
  | nil =>
    rw [sem_signal_nil, hc]
    exact ⟨rfl, rfl, fun _ _ => rfl, fun p hp => by simp at hp⟩
  | cons h rest =>
    rw [sem_signal_cons, hc]
    refine ⟨rfl, rfl, ?_, ?_⟩
    · intro p hp
      have hne : p ≠ h := by
        intro e; apply hp; simp [e]
      exact TaskMem.set_other _ _ _ _ hne
    · intro p hp
      have he : h = p := by simpa using hp
      subst he
      exact TaskMem.set_same _ _ _

theorem sem_wait_countMatches (line : Nat) (s : CosSema_t) (pt : TaskPtr) (mem : TaskMem)
    (h : semCountMatches s) (hlo : -128 < s.count) (hpt : pt ∉ s.root_pt) :
    semCountMatches (COS_SEM_WAIT line s pt mem).sema := by
  obtain ⟨hlen, hnd, h1, h2⟩ := h
  obtain ⟨e1, e2, _, _⟩ := sem_wait_eq line s pt mem hlo h2
  unfold semCountMatches
  rw [e1, e2]
  by_cases hc : s.count ≤ 0
  · rw [if_pos hc]
    refine ⟨?_, List.nodup_cons.mpr ⟨hpt, hnd⟩, by omega, by omega⟩
    rw [List.length_cons]
    push_cast
    omega
  · rw [if_neg hc]
    exact ⟨by omega, hnd, by omega, by omega⟩

theorem sem_signal_countMatches (s : CosSema_t) (mem : TaskMem)
    (h : semCountMatches s) (hhi : s.count < 127) :
    semCountMatches (COS_SEM_SIGNAL s mem).1 := by
  obtain ⟨hlen, hnd, h1, h2⟩ := h
  obtain ⟨e1, e2, _, _⟩ := sem_signal_eq s mem h1 hhi
  unfold semCountMatches
  rw [e1, e2]
  refine ⟨?_, hnd.sublist (List.tail_sublist _), by omega, by omega⟩
  cases hroot : s.root_pt with
  | nil =>
    rw [hroot] at hlen
    simp only [List.length_nil, List.tail_nil] at hlen ⊢
    omega
  | cons a rest =>
    rw [hroot] at hlen
    simp only [List.length_cons, List.tail_cons] at hlen ⊢
    push_cast at hlen
    omega

theorem runSem_matches (calls : List SemCall) :
    ∀ (s : CosSema_t) (mem : TaskMem), semCountMatches s →
      (∀ t ∈ s.root_pt, (mem t).state = TASK_STATE_BLOCKED) →
      runSemInRange s mem calls = true →
      semCountMatches (runSem s mem calls).1 ∧
      ∀ t ∈ (runSem s mem calls).1.root_pt,
        ((runSem s mem calls).2 t).state = TASK_STATE_BLOCKED := by
  induction calls with
  | nil => intro s mem h hb _; exact ⟨h, hb⟩
  | cons c rest ih =>
    intro s mem h hb hrun
    simp only [runSemInRange, Bool.and_eq_true] at hrun
    obtain ⟨hc, hrest⟩ := hrun
    simp only [runSem]
    cases c with
    | wait line pt =>
      simp only [SemCall.inRange, Bool.and_eq_true, decide_eq_true_eq] at hc
      obtain ⟨hlo, hnb⟩ := hc
      have hpt : pt ∉ s.root_pt := fun hmem => hnb (hb pt hmem)
      obtain ⟨_, e2, e3, e4⟩ := sem_wait_eq line s pt mem hlo h.2.2.2
      refine ih _ _ (sem_wait_countMatches line s pt mem h hlo hpt) ?_ hrest
      intro t ht
      show ((COS_SEM_WAIT line s pt mem).mem t).state = TASK_STATE_BLOCKED
      have ht' : t ∈ (COS_SEM_WAIT line s pt mem).sema.root_pt := ht
      rw [e2] at ht'
      by_cases hcount : s.count ≤ 0
      · rw [if_pos hcount] at ht' e3
        rcases List.mem_cons.mp ht' with he | hin
        · rw [he]; exact e3
        · have hne : t ≠ pt := fun e => hpt (e ▸ hin)
          rw [e4 t hne]; exact hb t hin
      · rw [if_neg hcount] at ht'
        have hne : t ≠ pt := fun e => hpt (e ▸ ht')
        rw [e4 t hne]; exact hb t ht'
    | signal =>
      simp only [SemCall.inRange, decide_eq_true_eq] at hc
      obtain ⟨_, e2, e3, _⟩ := sem_signal_eq s mem h.2.2.1 hc
      refine ih _ _ (sem_signal_countMatches s mem h hc) ?_ hrest
      intro t ht
      show ((COS_SEM_SIGNAL s mem).2 t).state = TASK_STATE_BLOCKED
      have ht' : t ∈ (COS_SEM_SIGNAL s mem).1.root_pt := ht
      rw [e2] at ht'
      have hin : t ∈ s.root_pt := List.mem_of_mem_tail ht'
      have hnh : t ∉ s.root_pt.head? := by
        cases hroot : s.root_pt with
        | nil => simp
        | cons a r =>
          rw [hroot] at ht'
          have hnd := h.2.1
          rw [hroot] at hnd
          have : a ∉ r := (List.nodup_cons.mp hnd).1
          intro e
          have hta : a = t := by simpa using e
          exact this (hta ▸ ht')
      rw [e3 t hnh]
      exact hb t hin

/-- C31: for a semaphore made by `COS_SemCreate` with a count `n >= 0` and
every sequence of `COS_SEM_WAIT` (each by a task that is not Blocked) and
`COS_SEM_SIGNAL` calls in which the count stays within the `int8_t` range,
the waiter list has `max(0, -count)` nodes, all of different tasks and all
Blocked; so the count is `>= 0` exactly when the waiter list is empty. -/
theorem sem_waiters_match_count (n : Int) (mem : TaskMem) (calls : List SemCall)
    (hn0 : 0 ≤ n) (hn : n ≤ 127)
    (hrun : runSemInRange (COS_SemCreate n).1 mem calls = true) :
    ((runSem (COS_SemCreate n).1 mem calls).1.root_pt.length : Int)
      = max 0 (-(runSem (COS_SemCreate n).1 mem calls).1.count) ∧
    (0 ≤ (runSem (COS_SemCreate n).1 mem calls).1.count ↔
      (runSem (COS_SemCreate n).1 mem calls).1.root_pt = []) ∧
    (runSem (COS_SemCreate n).1 mem calls).1.root_pt.Nodup ∧
    (∀ t ∈ (runSem (COS_SemCreate n).1 mem calls).1.root_pt,
      ((runSem (COS_SemCreate n).1 mem calls).2 t).state = TASK_STATE_BLOCKED) := by
  have h0 : semCountMatches (COS_SemCreate n).1 := by
    refine ⟨?_, List.nodup_nil, ?_, hn⟩
    · show ((0 : Nat) : Int) = max 0 (-n)
      omega
    · show -128 ≤ n
      omega
  obtain ⟨⟨hlen, hnd, _, _⟩, hb⟩ :=
    runSem_matches calls (COS_SemCreate n).1 mem h0 (fun t ht => by cases ht) hrun
  refine ⟨hlen, ?_, hnd, hb⟩
  constructor
  · intro hc
    apply List.eq_nil_of_length_eq_zero
    have : ((runSem (COS_SemCreate n).1 mem calls).1.root_pt.length : Int) = 0 := by
      rw [hlen]; omega
    exact_mod_cast this
  · intro he
    rw [he] at hlen
    simp only [List.length_nil] at hlen
    have : (0 : Int) = max 0 (-(runSem (COS_SemCreate n).1 mem calls).1.count) := by
      exact_mod_cast hlen
    omega

/-- Instance of `sem_waiters_match_count`: on a semaphore of count 1 the
tasks 1, 2 and 3 wait and one signal follows: the count is -1 and one task
(task 2) is left in the waiter list. -/
theorem sem_waiters_match_count_witness :
    runSemInRange (COS_SemCreate 1).1 readyMem
      [SemCall.wait 5 1, SemCall.wait 5 2, SemCall.wait 5 3, SemCall.signal] = true ∧
    (runSem (COS_SemCreate 1).1 readyMem
      [SemCall.wait 5 1, SemCall.wait 5 2, SemCall.wait 5 3, SemCall.signal]).1
      = { count := -1, root_pt := [2] } ∧
    ((runSem (COS_SemCreate 1).1 readyMem
      [SemCall.wait 5 1, SemCall.wait 5 2, SemCall.wait 5 3, SemCall.signal]).1.root_pt.length
        : Int)
      = max 0 (-(runSem (COS_SemCreate 1).1 readyMem
      [SemCall.wait 5 1, SemCall.wait 5 2, SemCall.wait 5 3, SemCall.signal]).1.count) :=
  ⟨by decide, by decide,
   (sem_waiters_match_count 1 readyMem
      [SemCall.wait 5 1, SemCall.wait 5 2, SemCall.wait 5 3, SemCall.signal]
      (by decide) (by decide) (by decide)).1⟩



/-! ## The FIFO used through the blocking macros (C32) -/

set_option maxRecDepth 1000000 in
/-- C32 as stated fails with 130 tasks: on a fresh FIFO of one slot the
tasks 1 to 130 each start a `COS_FifoBlockingReadSingleSlot`; the wait of
task 129 takes `rSema.count` from -128 to 127, so task 130 is not blocked
with the FIFO empty, and its `_qReadSingleSlot` returns 0. -/
theorem blocking_read_comes_back_empty :
    enabledRun (List.range 131)
      (fifoWorldInit (COS_FifoCreate fifoZero 1 1 (some [0])).1 readyMem)
      (waitReads 7 1 130 ++ [FifoStep.read 130 [0]]) = true ∧
    (runSteps (fifoWorldInit (COS_FifoCreate fifoZero 1 1 (some [0])).1 readyMem)
      (waitReads 7 1 129)).map (fun w => (w.q.rSema.count, w.q.rSema.root_pt.length))
      = some (127, 129) ∧
    (runSteps (fifoWorldInit (COS_FifoCreate fifoZero 1 1 (some [0])).1 readyMem)
      (waitReads 7 1 130 ++ [FifoStep.read 130 [0]])).map
      (fun w => (w.q.usedSlots, w.results)) = some (0, [0]) := by
  refine ⟨?_, ?_, ?_⟩
  · rfl
  · rfl
  · rfl



theorem nodup_length_le (l tasks : List TaskPtr) (hnd : l.Nodup)
    (hsub : ∀ t ∈ l, t ∈ tasks) : l.length ≤ tasks.length :=
  (List.subperm_of_subset hnd hsub).length_le

theorem waiters_lt_pending (waiters pending : List TaskPtr) (pt : TaskPtr)
    (hnd : waiters.Nodup) (hsub : ∀ t ∈ waiters, t ∈ pending)
    (hpt : pt ∈ pending) (hnot : pt ∉ waiters) :
    waiters.length + 1 ≤ pending.length := by
  have h1 : waiters.length ≤ (pending.erase pt).length := by
    apply nodup_length_le _ _ hnd
    intro t ht
    have hne : t ≠ pt := fun e => hnot (e ▸ ht)
    exact (List.mem_erase_of_ne hne).mpr (hsub t ht)
  rw [List.length_erase_of_mem hpt] at h1
  have h2 : 0 < pending.length := List.length_pos_of_mem hpt
  omega

theorem signal_mem_not_head (s : CosSema_t) (mem : TaskMem) (t : TaskPtr)
    (hlo : -128 ≤ s.count) (hhi : s.count < 127) (h : s.root_pt.head? ≠ some t) :
    (COS_SEM_SIGNAL s mem).2 t = mem t :=
  (sem_signal_eq s mem hlo hhi).2.2.1 t (fun e => h (Option.mem_def.mp e))

theorem head_not_in_tail (l : List TaskPtr) (t : TaskPtr) (hnd : l.Nodup)
    (ht : t ∈ l.tail) : l.head? ≠ some t := by
  cases l with
  | nil => simp
  | cons a r =>
    intro e
    have hta : a = t := by simpa using e
    exact (List.nodup_cons.mp hnd).1 (hta ▸ ht)

theorem head_mem (l : List TaskPtr) (t : TaskPtr) (h : l.head? = some t) : t ∈ l := by
  cases l with
  | nil => simp at h
  | cons a r =>
    have hta : a = t := by simpa using h
    rw [hta]
    exact List.mem_cons_self _ _


theorem waitWrite_ok (n : Nat) (tasks : List TaskPtr) (w : FifoWorld) (line : Nat)
    (pt : TaskPtr) (htasks : tasks.length ≤ 128)
    (h : FifoWorldOk n tasks w)
    (hen : (FifoStep.waitWrite line pt).enabled tasks w = true) :
    FifoWorldOk n tasks
      { w with q := (COS_FifoBlockingWriteSingleSlot_wait line w.q pt w.mem).1,
               mem := (COS_FifoBlockingWriteSingleSlot_wait line w.q pt w.mem).2.1,
               writers := pt :: w.writers } := by
  simp only [FifoStep.enabled, FifoStep.task, Bool.and_eq_true, decide_eq_true_eq] at hen
  obtain ⟨⟨hpt, hready⟩, hnw, hnr⟩ := hen
  have hnot : pt ∉ w.writers ++ w.readers := by
    intro hm
    rcases List.mem_append.mp hm with h1 | h2
    · exact hnw h1
    · exact hnr h2
  have hlen : (pt :: (w.writers ++ w.readers)).length ≤ tasks.length := by
    apply nodup_length_le _ _ (List.nodup_cons.mpr ⟨hnot, h.noDup⟩)
    intro t ht
    rcases List.mem_cons.mp ht with e | hin
    · rw [e]; exact hpt
    · exact h.inTasks t hin
  simp only [List.length_cons, List.length_append] at hlen
  have hused := h.usedLe
  have hlo : -128 < w.q.wSema.count := by rw [h.wCount]; omega
  have hptw : pt ∉ w.q.wSema.root_pt := fun hm => hnw (h.wBlocked pt hm).1
  obtain ⟨e1, e2, e3, e4⟩ := sem_wait_eq line w.q.wSema pt w.mem hlo h.wMatch.2.2.2
  refine ⟨h.isInit, h.maxEq, h.usedLe, ?_, h.rCount, ?_, h.rMatch, ?_, ?_, ?_, ?_, h.allOne⟩
  · show (COS_SEM_WAIT line w.q.wSema pt w.mem).sema.count
      = (n : Int) - (w.q.usedSlots : Int) - ((pt :: w.writers).length : Int)
    rw [e1, h.wCount]
    simp only [List.length_cons]
    push_cast
    omega
  · exact sem_wait_countMatches line w.q.wSema pt w.mem h.wMatch hlo hptw
  · intro t ht
    have ht' : t ∈ (COS_SEM_WAIT line w.q.wSema pt w.mem).sema.root_pt := ht
    show t ∈ pt :: w.writers ∧ ((COS_SEM_WAIT line w.q.wSema pt w.mem).mem t).state = _
    rw [e2] at ht'
    by_cases hc : w.q.wSema.count ≤ 0
    · rw [if_pos hc] at ht' e3
      rcases List.mem_cons.mp ht' with e | hin
      · rw [e]; exact ⟨List.mem_cons_self _ _, e3⟩
      · have hne : t ≠ pt := fun e => hptw (e ▸ hin)
        rw [e4 t hne]
        exact ⟨List.mem_cons_of_mem _ (h.wBlocked t hin).1, (h.wBlocked t hin).2⟩
    · rw [if_neg hc] at ht'
      have hne : t ≠ pt := fun e => hptw (e ▸ ht')
      rw [e4 t hne]
      exact ⟨List.mem_cons_of_mem _ (h.wBlocked t ht').1, (h.wBlocked t ht').2⟩
  · intro t ht
    have hin : t ∈ w.q.rSema.root_pt := ht
    have hne : t ≠ pt := fun e => hnr (e ▸ (h.rBlocked t hin).1)
    show t ∈ w.readers ∧ ((COS_SEM_WAIT line w.q.wSema pt w.mem).mem t).state = _
    rw [e4 t hne]
    exact h.rBlocked t hin
  · show (pt :: w.writers ++ w.readers).Nodup
    exact List.nodup_cons.mpr ⟨hnot, h.noDup⟩
  · intro t ht
    have ht' : t ∈ pt :: (w.writers ++ w.readers) := ht
    rcases List.mem_cons.mp ht' with e | hin
    · rw [e]; exact hpt
    · exact h.inTasks t hin

theorem waitRead_ok (n : Nat) (tasks : List TaskPtr) (w : FifoWorld) (line : Nat)
    (pt : TaskPtr) (htasks : tasks.length ≤ 128) (hn : n ≤ 127)
    (h : FifoWorldOk n tasks w)
    (hen : (FifoStep.waitRead line pt).enabled tasks w = true) :
    FifoWorldOk n tasks
      { w with q := (COS_FifoBlockingReadSingleSlot_wait line w.q pt w.mem).1,
               mem := (COS_FifoBlockingReadSingleSlot_wait line w.q pt w.mem).2.1,
               readers := pt :: w.readers } := by
  simp only [FifoStep.enabled, FifoStep.task, Bool.and_eq_true, decide_eq_true_eq] at hen
  obtain ⟨⟨hpt, hready⟩, hnw, hnr⟩ := hen
  have hnot : pt ∉ w.writers ++ w.readers := by
    intro hm
    rcases List.mem_append.mp hm with h1 | h2
    · exact hnw h1
    · exact hnr h2
  have hlen : (pt :: (w.writers ++ w.readers)).length ≤ tasks.length := by
    apply nodup_length_le _ _ (List.nodup_cons.mpr ⟨hnot, h.noDup⟩)
    intro t ht
    rcases List.mem_cons.mp ht with e | hin
    · rw [e]; exact hpt
    · exact h.inTasks t hin
  simp only [List.length_cons, List.length_append] at hlen
  have hused := h.usedLe
  have hlo : -128 < w.q.rSema.count := by rw [h.rCount]; omega
  have hptr : pt ∉ w.q.rSema.root_pt := fun hm => hnr (h.rBlocked pt hm).1
  obtain ⟨e1, e2, e3, e4⟩ := sem_wait_eq line w.q.rSema pt w.mem hlo h.rMatch.2.2.2
  refine ⟨h.isInit, h.maxEq, h.usedLe, h.wCount, ?_, h.wMatch, ?_, ?_, ?_, ?_, ?_, h.allOne⟩
  · show (COS_SEM_WAIT line w.q.rSema pt w.mem).sema.count
      = (w.q.usedSlots : Int) - ((pt :: w.readers).length : Int)
    rw [e1, h.rCount]
    simp only [List.length_cons]
    push_cast
    omega
  · exact sem_wait_countMatches line w.q.rSema pt w.mem h.rMatch hlo hptr
  · intro t ht
    have hin : t ∈ w.q.wSema.root_pt := ht
    have hne : t ≠ pt := fun e => hnw (e ▸ (h.wBlocked t hin).1)
    show t ∈ w.writers ∧ ((COS_SEM_WAIT line w.q.rSema pt w.mem).mem t).state = _
    rw [e4 t hne]
    exact h.wBlocked t hin
  · intro t ht
    have ht' : t ∈ (COS_SEM_WAIT line w.q.rSema pt w.mem).sema.root_pt := ht
    show t ∈ pt :: w.readers ∧ ((COS_SEM_WAIT line w.q.rSema pt w.mem).mem t).state = _
    rw [e2] at ht'
    by_cases hc : w.q.rSema.count ≤ 0
    · rw [if_pos hc] at ht' e3
      rcases List.mem_cons.mp ht' with e | hin
      · rw [e]; exact ⟨List.mem_cons_self _ _, e3⟩
      · have hne : t ≠ pt := fun e => hptr (e ▸ hin)
        rw [e4 t hne]
        exact ⟨List.mem_cons_of_mem _ (h.rBlocked t hin).1, (h.rBlocked t hin).2⟩
    · rw [if_neg hc] at ht'
      have hne : t ≠ pt := fun e => hptr (e ▸ ht')
      rw [e4 t hne]
      exact ⟨List.mem_cons_of_mem _ (h.rBlocked t ht').1, (h.rBlocked t ht').2⟩
  · show (w.writers ++ pt :: w.readers).Nodup
    exact List.nodup_middle.mpr (List.nodup_cons.mpr ⟨hnot, h.noDup⟩)
  · intro t ht
    have ht' : t ∈ w.writers ++ pt :: w.readers := ht
    rcases List.mem_append.mp ht' with h1 | h2
    · exact h.inTasks t (List.mem_append_left _ h1)
    · rcases List.mem_cons.mp h2 with e | hin
      · rw [e]; exact hpt
      · exact h.inTasks t (List.mem_append_right _ hin)


theorem write_ok (n : Nat) (tasks : List TaskPtr) (w : FifoWorld) (pt : TaskPtr)
    (data : List Nat) (r : WriteResult) (hn : n ≤ 127)
    (h : FifoWorldOk n tasks w)
    (hen : (FifoStep.write pt data).enabled tasks w = true)
    (hr : _qWriteSingleSlot w.q data w.mem = some r) :
    w.q.usedSlots < n ∧
    FifoWorldOk n tasks
      { w with q := r.q, mem := r.mem, writers := w.writers.erase pt,
               results := r.retval :: w.results } := by
  simp only [FifoStep.enabled, FifoStep.task, Bool.and_eq_true, decide_eq_true_eq] at hen
  obtain ⟨⟨_, hready⟩, hw⟩ := hen
  have hptw : pt ∉ w.q.wSema.root_pt := by
    intro hm
    have := (h.wBlocked pt hm).2
    rw [hready] at this
    exact absurd this (by decide)
  have hlt := waiters_lt_pending w.q.wSema.root_pt w.writers pt h.wMatch.2.1
    (fun t ht => (h.wBlocked t ht).1) hw hptw
  have hwlen := h.wMatch.1
  have hwc := h.wCount
  have hfree : w.q.usedSlots < n := by omega
  have hfree' : w.q.usedSlots < w.q.maxSlots := by rw [h.maxEq]; exact hfree
  obtain ⟨q1, q2, q3, q4, _, q6, q7, q8⟩ := qWrite_some w.q data w.mem r h.isInit hfree' hr
  have hused : r.q.usedSlots = w.q.usedSlots + 1 := by
    rw [q2]; unfold toU8; omega
  have hrc := h.rCount
  have hrlo := h.rMatch.2.2.1
  have hhi : w.q.rSema.count < 127 := by omega
  obtain ⟨e1, e2, _, _⟩ := sem_signal_eq w.q.rSema w.mem hrlo hhi
  have herase : (w.writers.erase pt).length = w.writers.length - 1 :=
    List.length_erase_of_mem hw
  have hwpos : 0 < w.writers.length := List.length_pos_of_mem hw
  refine ⟨hfree, ?_⟩
  refine ⟨by show r.q.isInitialized ≠ 0; rw [q4]; exact h.isInit,
    by show r.q.maxSlots = n; rw [q3]; exact h.maxEq,
    by show r.q.usedSlots ≤ n; omega, ?_, ?_, ?_, ?_, ?_, ?_, ?_, ?_, ?_⟩
  · show r.q.wSema.count = (n : Int) - (r.q.usedSlots : Int)
      - ((w.writers.erase pt).length : Int)
    rw [q6, hused, herase, hwc]
    omega
  · show r.q.rSema.count = (r.q.usedSlots : Int) - (w.readers.length : Int)
    rw [q7, e1, hused, hrc]
    push_cast
    omega
  · show semCountMatches r.q.wSema
    rw [q6]; exact h.wMatch
  · show semCountMatches r.q.rSema
    rw [q7]; exact sem_signal_countMatches w.q.rSema w.mem h.rMatch hhi
  · intro t ht
    have hin : t ∈ w.q.wSema.root_pt := by
      have : t ∈ r.q.wSema.root_pt := ht
      rw [q6] at this; exact this
    have hne : t ≠ pt := fun e => hptw (e ▸ hin)
    show t ∈ w.writers.erase pt ∧ (r.mem t).state = TASK_STATE_BLOCKED
    refine ⟨(List.mem_erase_of_ne hne).mpr (h.wBlocked t hin).1, ?_⟩
    rw [q8, signal_mem_not_head w.q.rSema w.mem t hrlo hhi ?_]
    · exact (h.wBlocked t hin).2
    · intro e
      have htr := (h.rBlocked t (head_mem _ _ e)).1
      exact (List.disjoint_of_nodup_append h.noDup) (h.wBlocked t hin).1 htr
  · intro t ht
    have htail : t ∈ w.q.rSema.root_pt.tail := by
      have : t ∈ r.q.rSema.root_pt := ht
      rw [q7, e2] at this; exact this
    have hin : t ∈ w.q.rSema.root_pt := List.mem_of_mem_tail htail
    show t ∈ w.readers ∧ (r.mem t).state = TASK_STATE_BLOCKED
    refine ⟨(h.rBlocked t hin).1, ?_⟩
    rw [q8, signal_mem_not_head w.q.rSema w.mem t hrlo hhi
      (head_not_in_tail _ _ h.rMatch.2.1 htail)]
    exact (h.rBlocked t hin).2
  · show (w.writers.erase pt ++ w.readers).Nodup
    exact h.noDup.sublist ((List.erase_sublist pt w.writers).append_right w.readers)
  · intro t ht
    have ht' : t ∈ w.writers.erase pt ++ w.readers := ht
    rcases List.mem_append.mp ht' with h1 | h2
    · exact h.inTasks t (List.mem_append_left _ (List.mem_of_mem_erase h1))
    · exact h.inTasks t (List.mem_append_right _ h2)
  · intro x hx
    have hx' : x ∈ r.retval :: w.results := hx
    rcases List.mem_cons.mp hx' with e | hin
    · rw [e]; exact q1
    · exact h.allOne x hin

theorem read_ok (n : Nat) (tasks : List TaskPtr) (w : FifoWorld) (pt : TaskPtr)
    (out : List Nat) (r : ReadResult) (hn : n ≤ 127)
    (h : FifoWorldOk n tasks w)
    (hen : (FifoStep.read pt out).enabled tasks w = true)
    (hr : _qReadSingleSlot w.q out w.mem = some r) :
    0 < w.q.usedSlots ∧
    FifoWorldOk n tasks
      { w with q := r.q, mem := r.mem, readers := w.readers.erase pt,
               results := r.retval :: w.results } := by
  simp only [FifoStep.enabled, FifoStep.task, Bool.and_eq_true, decide_eq_true_eq] at hen
  obtain ⟨⟨_, hready⟩, hrd⟩ := hen
  have hptr : pt ∉ w.q.rSema.root_pt := by
    intro hm
    have := (h.rBlocked pt hm).2
    rw [hready] at this
    exact absurd this (by decide)
  have hlt := waiters_lt_pending w.q.rSema.root_pt w.readers pt h.rMatch.2.1
    (fun t ht => (h.rBlocked t ht).1) hrd hptr
  have hrlen := h.rMatch.1
  have hrc := h.rCount
  have hpos : 0 < w.q.usedSlots := by omega
  obtain ⟨q1, q2, q3, q4, _, q6, q7, q8⟩ := qRead_some w.q out w.mem r h.isInit hpos hr
  have hle := h.usedLe
  have hused : r.q.usedSlots + 1 = w.q.usedSlots := by
    rw [q2]; unfold toU8; omega
  have hwc := h.wCount
  have hwlo := h.wMatch.2.2.1
  have hhi : w.q.wSema.count < 127 := by omega
  obtain ⟨e1, e2, _, _⟩ := sem_signal_eq w.q.wSema w.mem hwlo hhi
  have herase : (w.readers.erase pt).length = w.readers.length - 1 :=
    List.length_erase_of_mem hrd
  have hrpos : 0 < w.readers.length := List.length_pos_of_mem hrd
  refine ⟨hpos, ?_⟩
  refine ⟨by show r.q.isInitialized ≠ 0; rw [q4]; exact h.isInit,
    by show r.q.maxSlots = n; rw [q3]; exact h.maxEq,
    by show r.q.usedSlots ≤ n; omega, ?_, ?_, ?_, ?_, ?_, ?_, ?_, ?_, ?_⟩
  · show r.q.wSema.count = (n : Int) - (r.q.usedSlots : Int) - (w.writers.length : Int)
    rw [q7, e1, hwc]
    omega
  · show r.q.rSema.count = (r.q.usedSlots : Int) - ((w.readers.erase pt).length : Int)
    rw [q6, herase, hrc]
    omega
  · show semCountMatches r.q.wSema
    rw [q7]; exact sem_signal_countMatches w.q.wSema w.mem h.wMatch hhi
  · show semCountMatches r.q.rSema
    rw [q6]; exact h.rMatch
  · intro t ht
    have htail : t ∈ w.q.wSema.root_pt.tail := by
      have : t ∈ r.q.wSema.root_pt := ht
      rw [q7, e2] at this; exact this
    have hin : t ∈ w.q.wSema.root_pt := List.mem_of_mem_tail htail
    show t ∈ w.writers ∧ (r.mem t).state = TASK_STATE_BLOCKED
    refine ⟨(h.wBlocked t hin).1, ?_⟩
    rw [q8, signal_mem_not_head w.q.wSema w.mem t hwlo hhi
      (head_not_in_tail _ _ h.wMatch.2.1 htail)]
    exact (h.wBlocked t hin).2
  · intro t ht
    have hin : t ∈ w.q.rSema.root_pt := by
      have : t ∈ r.q.rSema.root_pt := ht
      rw [q6] at this; exact this
    have hne : t ≠ pt := fun e => hptr (e ▸ hin)
    show t ∈ w.readers.erase pt ∧ (r.mem t).state = TASK_STATE_BLOCKED
    refine ⟨(List.mem_erase_of_ne hne).mpr (h.rBlocked t hin).1, ?_⟩
    rw [q8, signal_mem_not_head w.q.wSema w.mem t hwlo hhi ?_]
    · exact (h.rBlocked t hin).2
    · intro e
      have htw := (h.wBlocked t (head_mem _ _ e)).1
      exact (List.disjoint_of_nodup_append h.noDup) htw (h.rBlocked t hin).1
  · show (w.writers ++ w.readers.erase pt).Nodup
    exact h.noDup.sublist ((List.erase_sublist pt w.readers).append_left w.writers)
  · intro t ht
    have ht' : t ∈ w.writers ++ w.readers.erase pt := ht
    rcases List.mem_append.mp ht' with h1 | h2
    · exact h.inTasks t (List.mem_append_left _ h1)
    · exact h.inTasks t (List.mem_append_right _ (List.mem_of_mem_erase h2))
  · intro x hx
    have hx' : x ∈ r.retval :: w.results := hx
    rcases List.mem_cons.mp hx' with e | hin
    · rw [e]; exact q1
    · exact h.allOne x hin


theorem step_ok (n : Nat) (tasks : List TaskPtr) (w w1 : FifoWorld) (c : FifoStep)
    (htasks : tasks.length ≤ 128) (hn : n ≤ 127) (h : FifoWorldOk n tasks w)
    (hen : c.enabled tasks w = true) (hstep : c.apply w = some w1) :
    FifoWorldOk n tasks w1 := by
  cases c with
  | waitWrite line pt =>
    simp only [FifoStep.apply, Option.some.injEq] at hstep
    rw [← hstep]
    exact waitWrite_ok n tasks w line pt htasks h hen
  | write pt data =>
    cases hr : _qWriteSingleSlot w.q data w.mem with
    | none => simp [FifoStep.apply, COS_FifoBlockingWriteSingleSlot_call, hr] at hstep
    | some r =>
      simp only [FifoStep.apply, COS_FifoBlockingWriteSingleSlot_call, hr,
        Option.some.injEq] at hstep
      rw [← hstep]
      exact (write_ok n tasks w pt data r hn h hen hr).2
  | waitRead line pt =>
    simp only [FifoStep.apply, Option.some.injEq] at hstep
    rw [← hstep]
    exact waitRead_ok n tasks w line pt htasks hn h hen
  | read pt out =>
    cases hr : _qReadSingleSlot w.q out w.mem with
    | none => simp [FifoStep.apply, COS_FifoBlockingReadSingleSlot_call, hr] at hstep
    | some r =>
      simp only [FifoStep.apply, COS_FifoBlockingReadSingleSlot_call, hr,
        Option.some.injEq] at hstep
      rw [← hstep]
      exact (read_ok n tasks w pt out r hn h hen hr).2

theorem runSteps_ok (n : Nat) (tasks : List TaskPtr) (htasks : tasks.length ≤ 128)
    (hn : n ≤ 127) (steps : List FifoStep) :
    ∀ (w w1 : FifoWorld), FifoWorldOk n tasks w → enabledRun tasks w steps = true →
      runSteps w steps = some w1 → FifoWorldOk n tasks w1 := by
  induction steps with
  | nil =>
    intro w w1 h _ hrun
    simp only [runSteps, Option.some.injEq] at hrun
    rw [← hrun]; exact h
  | cons c rest ih =>
    intro w w1 h hen hrun
    cases hstep : c.apply w with
    | none => simp [runSteps, hstep] at hrun
    | some w2 =>
      simp only [enabledRun, hstep, Bool.and_eq_true] at hen
      simp only [runSteps, hstep] at hrun
      exact ih w2 w1 (step_ok n tasks w w2 c htasks hn h hen.1 hstep) hen.2 hrun

theorem runSteps_results (steps : List FifoStep) :
    ∀ (w w1 : FifoWorld), runSteps w steps = some w1 →
      w1.results.length = w.results.length + (steps.filter FifoStep.isCall).length := by
  induction steps with
  | nil =>
    intro w w1 hrun
    simp only [runSteps, Option.some.injEq] at hrun
    rw [← hrun]; rfl
  | cons c rest ih =>
    intro w w1 hrun
    cases hstep : c.apply w with
    | none => simp [runSteps, hstep] at hrun
    | some w2 =>
      simp only [runSteps, hstep] at hrun
      have hrest := ih w2 w1 hrun
      cases c with
      | waitWrite line pt =>
        simp only [FifoStep.apply, Option.some.injEq] at hstep
        rw [hrest, ← hstep]
        simp [FifoStep.isCall]
      | write pt data =>
        cases hr : COS_FifoBlockingWriteSingleSlot_call w.q data w.mem with
        | none => simp [FifoStep.apply, hr] at hstep
        | some r =>
          simp only [FifoStep.apply, hr, Option.some.injEq] at hstep
          rw [hrest, ← hstep]
          simp [FifoStep.isCall]
          omega
      | waitRead line pt =>
        simp only [FifoStep.apply, Option.some.injEq] at hstep
        rw [hrest, ← hstep]
        simp [FifoStep.isCall]
      | read pt out =>
        cases hr : COS_FifoBlockingReadSingleSlot_call w.q out w.mem with
        | none => simp [FifoStep.apply, hr] at hstep
        | some r =>
          simp only [FifoStep.apply, hr, Option.some.injEq] at hstep
          rw [hrest, ← hstep]
          simp [FifoStep.isCall]
          omega

theorem filter_mem_split (waiters : List TaskPtr) (l : List TaskPtr) :
    (l.filter (fun t => decide (t ∈ waiters))).length
      + (l.filter (fun t => decide (t ∉ waiters))).length = l.length := by
  induction l with
  | nil => rfl
  | cons a l ih =>
    by_cases ha : a ∈ waiters
    · simp only [List.filter_cons, ha, decide_True, decide_False, not_true_eq_false,
        if_true, List.length_cons]
      simp only [Bool.false_eq_true, if_false]
      omega
    · simp only [List.filter_cons, ha, decide_True, decide_False, not_false_eq_true,
        if_true, List.length_cons]
      simp only [Bool.false_eq_true, if_false]
      omega

theorem passed_length (pending waiters : List TaskPtr) (hp : pending.Nodup)
    (hw : waiters.Nodup) (hsub : ∀ t ∈ waiters, t ∈ pending) :
    (pending.filter (fun t => decide (t ∉ waiters))).length + waiters.length
      = pending.length := by
  have h1 := filter_mem_split waiters pending
  have h2 : (pending.filter (fun t => decide (t ∈ waiters))).Perm waiters := by
    apply (List.perm_ext_iff_of_nodup (hp.filter _) hw).mpr
    intro a
    simp only [List.mem_filter, decide_eq_true_eq]
    exact ⟨fun h => h.2, fun h => ⟨hsub a h, h⟩⟩
  have h3 := h2.length_eq
  omega

theorem fifoWorldInit_ok (q0 : CosFifo_t) (slotSize n : Nat) (buf : List Nat)
    (mem : TaskMem) (tasks : List TaskPtr) (hn : n ≤ 127) :
    FifoWorldOk n tasks
      (fifoWorldInit (COS_FifoCreate q0 slotSize n (some buf)).1 mem) := by
  rw [fifoCreate_some]
  have hc : toI8 (n : Int) = (n : Int) := toI8_of_range _ (by omega) (by omega)
  refine ⟨Nat.one_ne_zero, rfl, Nat.zero_le _, ?_, ?_, ?_, ?_, ?_, ?_, List.nodup_nil, ?_, ?_⟩
  · show toI8 (n : Int) = (n : Int) - ((0 : Nat) : Int) - (([] : List TaskPtr).length : Int)
    rw [hc]; simp
  · show (0 : Int) = ((0 : Nat) : Int) - (([] : List TaskPtr).length : Int)
    simp
  · refine ⟨?_, List.nodup_nil, ?_, ?_⟩
    · show (([] : List TaskPtr).length : Int) = max 0 (-toI8 (n : Int))
      rw [hc]; simp
    · show -128 ≤ toI8 (n : Int)
      rw [hc]; omega
    · show toI8 (n : Int) ≤ 127
      rw [hc]; omega
  · refine ⟨?_, List.nodup_nil, ?_, ?_⟩
    · show (([] : List TaskPtr).length : Int) = max 0 (-(0 : Int))
      simp
    · show -128 ≤ (0 : Int)
      omega
    · show (0 : Int) ≤ 127
      omega
  · intro t ht; cases ht
  · intro t ht; cases ht
  · intro t ht; cases ht
  · intro r hr; cases hr


theorem write_free (n : Nat) (tasks : List TaskPtr) (w : FifoWorld) (pt : TaskPtr)
    (data : List Nat) (h : FifoWorldOk n tasks w)
    (hen : (FifoStep.write pt data).enabled tasks w = true) : w.q.usedSlots < n := by
  simp only [FifoStep.enabled, FifoStep.task, Bool.and_eq_true, decide_eq_true_eq] at hen
  obtain ⟨⟨_, hready⟩, hw⟩ := hen
  have hptw : pt ∉ w.q.wSema.root_pt := by
    intro hm
    have := (h.wBlocked pt hm).2
    rw [hready] at this
    exact absurd this (by decide)
  have hlt := waiters_lt_pending w.q.wSema.root_pt w.writers pt h.wMatch.2.1
    (fun t ht => (h.wBlocked t ht).1) hw hptw
  have hwlen := h.wMatch.1
  have hwc := h.wCount
  omega

theorem read_avail (n : Nat) (tasks : List TaskPtr) (w : FifoWorld) (pt : TaskPtr)
    (out : List Nat) (h : FifoWorldOk n tasks w)
    (hen : (FifoStep.read pt out).enabled tasks w = true) : 0 < w.q.usedSlots := by
  simp only [FifoStep.enabled, FifoStep.task, Bool.and_eq_true, decide_eq_true_eq] at hen
  obtain ⟨⟨_, hready⟩, hrd⟩ := hen
  have hptr : pt ∉ w.q.rSema.root_pt := by
    intro hm
    have := (h.rBlocked pt hm).2
    rw [hready] at this
    exact absurd this (by decide)
  have hlt := waiters_lt_pending w.q.rSema.root_pt w.readers pt h.rMatch.2.1
    (fun t ht => (h.rBlocked t ht).1) hrd hptr
  have hrlen := h.rMatch.1
  have hrc := h.rCount
  omega

theorem runSteps_defined (s n : Nat) (tasks : List TaskPtr) (hs : 1 ≤ s) (hn : n ≤ 127)
    (hM : s * n ≤ 256) (htasks : tasks.length ≤ 128) (steps : List FifoStep) :
    ∀ (w : FifoWorld) (slots : List (List Nat)), FifoWorldOk n tasks w →
      FifoHolds s n w.q slots → enabledRun tasks w steps = true →
      (∀ c ∈ steps, c.wellFormed s = true) → (runSteps w steps).isSome = true := by
  induction steps with
  | nil => intro w slots _ _ _ _; rfl
  | cons c rest ih =>
    intro w slots hok hholds hen hwf
    have hrest : ∀ c' ∈ rest, c'.wellFormed s = true :=
      fun c' hc' => hwf c' (List.mem_cons_of_mem _ hc')
    have hc := hwf c (List.mem_cons_self _ _)
    have hen1 : c.enabled tasks w = true := by
      simp only [enabledRun, Bool.and_eq_true] at hen
      exact hen.1
    have hnext : ∀ w1 slots1, c.apply w = some w1 → FifoHolds s n w1.q slots1 →
        (runSteps w (c :: rest)).isSome = true := by
      intro w1 slots1 hstep hh
      have hok1 := step_ok n tasks w w1 c htasks hn hok hen1 hstep
      simp only [enabledRun, hstep, Bool.and_eq_true] at hen
      simp only [runSteps, hstep]
      exact ih w1 slots1 hok1 hh hen.2 hrest
    cases c with
    | waitWrite line pt => exact hnext _ slots rfl hholds
    | waitRead line pt => exact hnext _ slots rfl hholds
    | write pt data =>
      have hd : data.length = s := by simpa [FifoStep.wellFormed] using hc
      have hfree : slots.length < n := by
        have := write_free n tasks w pt data hok hen1
        rw [hholds.2.2.2.1] at this
        exact this
      obtain ⟨r, hr, _, hh⟩ :=
        write_step s n w.q slots data w.mem hs (by omega) hM hholds hd hfree
      refine hnext { w with q := r.q, mem := r.mem, writers := w.writers.erase pt,
                            results := r.retval :: w.results } (slots ++ [data]) ?_ hh
      simp only [FifoStep.apply, COS_FifoBlockingWriteSingleSlot_call, hr]
    | read pt out =>
      have ho : out.length = s := by simpa [FifoStep.wellFormed] using hc
      have hpos := read_avail n tasks w pt out hok hen1
      rw [hholds.2.2.2.1] at hpos
      cases slots with
      | nil => simp at hpos
      | cons v vs =>
        obtain ⟨r, hr, _, _, hh⟩ :=
          read_step s n w.q v vs out w.mem hs (by omega) hM hholds ho
        refine hnext { w with q := r.q, mem := r.mem, readers := w.readers.erase pt,
                              results := r.retval :: w.results } vs ?_ hh
        simp only [FifoStep.apply, COS_FifoBlockingReadSingleSlot_call, hr]

/-- C32 (amended): a FIFO made by `COS_FifoCreate` with `nSlots <= 127` is
used by at most 128 tasks, only through `COS_FifoBlockingWriteSingleSlot` and
`COS_FifoBlockingReadSingleSlot`.  In every state `w` reached by an
interleaving of the halves of these macros (each executed by a Ready task),
every `_q...` call made so far has returned 1 and there is one result for
each call, `usedSlots` plus the number of writers behind their wait and not
blocked is at most `nSlots`, and the number of readers behind their wait and
not blocked is at most `usedSlots`.  A state is reached whenever no call
copies outside the buffer; that is so for every interleaving when the buffer
has `slotSize * nSlots <= 256` bytes and every call is handed `slotSize`
bytes. -/
theorem blocking_fifo_calls_succeed (q0 : CosFifo_t) (slotSize nSlots : Nat)
    (buf : List Nat) (mem : TaskMem) (tasks : List TaskPtr) (steps : List FifoStep)
    (hn : nSlots ≤ 127) (htasks : tasks.length ≤ 128)
    (hen : enabledRun tasks
      (fifoWorldInit (COS_FifoCreate q0 slotSize nSlots (some buf)).1 mem) steps = true) :
    (∀ w, runSteps (fifoWorldInit (COS_FifoCreate q0 slotSize nSlots (some buf)).1 mem)
        steps = some w →
      (∀ r ∈ w.results, r = 1) ∧
      w.results.length = (steps.filter FifoStep.isCall).length ∧
      w.q.usedSlots + w.passedWriters.length ≤ nSlots ∧
      w.passedReaders.length ≤ w.q.usedSlots) ∧
    (1 ≤ slotSize → 1 ≤ nSlots → slotSize * nSlots ≤ 256 →
      buf.length = slotSize * nSlots → (∀ c ∈ steps, c.wellFormed slotSize = true) →
      (runSteps (fifoWorldInit (COS_FifoCreate q0 slotSize nSlots (some buf)).1 mem)
        steps).isSome = true) := by
  have h0 := fifoWorldInit_ok q0 slotSize nSlots buf mem tasks hn
  constructor
  · intro w hrun
    have hok := runSteps_ok nSlots tasks htasks hn steps _ w h0 hen hrun
    have hres := runSteps_results steps _ w hrun
    have hpw := passed_length w.writers w.q.wSema.root_pt
      (List.Nodup.of_append_left hok.noDup) hok.wMatch.2.1 (fun t ht => (hok.wBlocked t ht).1)
    have hpr := passed_length w.readers w.q.rSema.root_pt
      (List.Nodup.of_append_right hok.noDup) hok.rMatch.2.1 (fun t ht => (hok.rBlocked t ht).1)
    have hwlen := hok.wMatch.1
    have hrlen := hok.rMatch.1
    have hwc := hok.wCount
    have hrc := hok.rCount
    have hle := hok.usedLe
    refine ⟨hok.allOne, ?_, ?_, ?_⟩
    · rw [hres]
      show ([] : List Int).length + _ = _
      simp
    · show w.q.usedSlots
        + (w.writers.filter (fun t => decide (t ∉ w.q.wSema.root_pt))).length ≤ nSlots
      omega
    · show (w.readers.filter (fun t => decide (t ∉ w.q.rSema.root_pt))).length
        ≤ w.q.usedSlots
      omega
  · intro hs hn1 hM hbuf hwf
    exact runSteps_defined slotSize nSlots tasks hs hn hM htasks steps _ []
      h0 (fifoCreate_holds q0 slotSize nSlots buf hn1 hbuf).2 hen hwf

/-- Instance of `blocking_fifo_calls_succeed`: two slots of two bytes and the
tasks 1, 2, 3; task 1 starts a blocking read and is blocked, task 2 makes a
blocking write, which wakes task 1, and task 1 reads: both calls return
1. -/
theorem blocking_fifo_calls_succeed_witness :
    enabledRun [1, 2, 3]
      (fifoWorldInit (COS_FifoCreate fifoZero 2 2 (some [0, 0, 0, 0])).1 readyMem)
      [FifoStep.waitRead 7 1, FifoStep.waitWrite 9 2, FifoStep.write 2 [5, 6],
       FifoStep.read 1 [0, 0]] = true ∧
    (runSteps (fifoWorldInit (COS_FifoCreate fifoZero 2 2 (some [0, 0, 0, 0])).1 readyMem)
      [FifoStep.waitRead 7 1, FifoStep.waitWrite 9 2, FifoStep.write 2 [5, 6],
       FifoStep.read 1 [0, 0]]).map (fun w => w.results) = some [1, 1] ∧
    (∀ w, runSteps
      (fifoWorldInit (COS_FifoCreate fifoZero 2 2 (some [0, 0, 0, 0])).1 readyMem)
      [FifoStep.waitRead 7 1, FifoStep.waitWrite 9 2, FifoStep.write 2 [5, 6],
       FifoStep.read 1 [0, 0]] = some w → ∀ r ∈ w.results, r = 1) ∧
    (runSteps (fifoWorldInit (COS_FifoCreate fifoZero 2 2 (some [0, 0, 0, 0])).1 readyMem)
      [FifoStep.waitRead 7 1, FifoStep.waitWrite 9 2, FifoStep.write 2 [5, 6],
       FifoStep.read 1 [0, 0]]).isSome = true :=
  ⟨by decide, by decide,
   fun w hw =>
     ((blocking_fifo_calls_succeed fifoZero 2 2 [0, 0, 0, 0] readyMem [1, 2, 3]
        [FifoStep.waitRead 7 1, FifoStep.waitWrite 9 2, FifoStep.write 2 [5, 6],
         FifoStep.read 1 [0, 0]] (by decide) (by decide) (by decide)).1 w hw).1,
   (blocking_fifo_calls_succeed fifoZero 2 2 [0, 0, 0, 0] readyMem [1, 2, 3]
      [FifoStep.waitRead 7 1, FifoStep.waitWrite 9 2, FifoStep.write 2 [5, 6],
       FifoStep.read 1 [0, 0]] (by decide) (by decide) (by decide)).2
      (by decide) (by decide) (by decide) rfl (by decide)⟩


end Cos
